import Mathlib

/-!
Verification of the limit-order-book simulator (matching engine,
order gateway, market-data distributor) against its specification.

The Python sources are embedded shallowly:
* prices and timestamps (`float` in the source) become `ℚ`, which keeps the
  total order and exact equality the matching logic relies on;
* quantities (`int`) become `ℤ`;
* the `sortedcontainers.SortedDict` ladders become association lists sorted
  strictly ascending by price (`Book`), with best-ask = first entry and
  best-bid = last entry, exactly as `peekitem(0)` / `peekitem(-1)`;
* the `order_map` dict becomes an association list with insert-overwrite
  semantics;
* `asyncio` effects are made explicit: an event is one element appended to an
  `events` trace, the sqlite `trades` relation is the `db` list, and the
  non-reentrant `asyncio.Lock` is modelled by a `lockHeld` flag — awaiting a
  lock that the running task already holds never returns, which the result
  type records as `Res.hang`.
-/

namespace Sim

/-- The `Order` dataclass of `OrderBook.py`: `order_id`, `trader_id`,
`side` (a raw string), `price`, `quantity`, `timestamp`. -/
structure Order where
  order_id : String
  trader_id : String
  side : String
  price : ℚ
  quantity : ℤ
  timestamp : ℚ
deriving Repr, DecidableEq

/-- A trade dict as built in `_match_order`. -/
structure Trade where
  timestamp : ℚ
  buyer_id : String
  seller_id : String
  price : ℚ
  quantity : ℤ
deriving Repr, DecidableEq

/-- Events put on `event_queue`. -/
inductive Event where
  | new_trades (trades : List Trade)
  | cancel (order_id : String)
deriving Repr, DecidableEq

/-- One side of the book: a `SortedDict` from price to the FIFO list of
resting orders, represented as an association list whose keys are kept
strictly ascending. -/
abbrev Book := List (ℚ × List Order)

namespace Book

def keys (b : Book) : List ℚ := b.map Prod.fst

def orders (b : Book) : List Order := (b.map Prod.snd).flatten

/-- Dictionary lookup `price in book` / `book[price]`. -/
def find? : Book → ℚ → Option (List Order)
  | [], _ => none
  | (p, l) :: rest, q => if q = p then some l else find? rest q

/-- Dictionary assignment `book[price] = lvl`, keeping keys sorted. -/
def set : Book → ℚ → List Order → Book
  | [], q, lvl => [(q, lvl)]
  | (p, l) :: rest, q, lvl =>
      if q < p then (q, lvl) :: (p, l) :: rest
      else if q = p then (q, lvl) :: rest
      else (p, l) :: set rest q lvl

/-- Dictionary deletion `del book[price]`. -/
def erase : Book → ℚ → Book
  | [], _ => []
  | (p, l) :: rest, q => if q = p then rest else (p, l) :: erase rest q

end Book

/-- `get_best_bid`: `peekitem(-1)` of the bids `SortedDict`, or `(None, [])`
when the side is empty. -/
def getBestBid (b : Book) : Option ℚ × List Order :=
  match b.getLast? with
  | none => (none, [])
  | some (p, l) => (some p, l)

/-- `get_best_ask`: `peekitem(0)` of the asks `SortedDict`, or `(None, [])`
when the side is empty. -/
def getBestAsk (b : Book) : Option ℚ × List Order :=
  match b.head? with
  | none => (none, [])
  | some (p, l) => (some p, l)

/-- Lookup in a Python dict keyed by strings (the `order_map`). -/
def lookupKV : List (String × Order) → String → Option Order
  | [], _ => none
  | (k, v) :: rest, key => if key = k then some v else lookupKV rest key

/-- Python dict assignment `d[key] = v`: overwrite in place, else append. -/
def insertKV : List (String × Order) → String → Order → List (String × Order)
  | [], key, v => [(key, v)]
  | (k, w) :: rest, key, v =>
      if key = k then (key, v) :: rest else (k, w) :: insertKV rest key v

/-- Python dict deletion `del d[key]`.  (In the source every `del` on
`order_map` is performed on a key that is present, so the KeyError branch of
the real `del` is unreachable and is not modelled.) -/
def eraseKV : List (String × Order) → String → List (String × Order)
  | [], _ => []
  | (k, w) :: rest, key => if key = k then rest else (k, w) :: eraseKV rest key

/-- The in-memory state of the `OrderBook` object, together with the sqlite
`trades` relation (`db`) and the trace of events put on `event_queue`. -/
structure OrderBook where
  bids : Book
  asks : Book
  order_map : List (String × Order)
  last_trade_price : Option ℚ
  trades : List Trade
  time_history : List ℚ
  price_history : List ℚ
  volume_history : List ℤ
  buffer_size : ℕ
  pending_trades : List Trade
  batch_size : ℕ
  db : List Trade
  events : List Event
deriving Repr, DecidableEq

/-- Appending to a `deque(maxlen=n)`: the oldest elements fall off the left. -/
def ringAppend {α : Type} (maxlen : ℕ) (l : List α) (a : α) : List α :=
  let l' := l ++ [a]
  if maxlen < l'.length then l'.drop (l'.length - maxlen) else l'

/-- The result of running an `OrderBook` coroutine.  `err` is an exception
escaping to the caller, carrying the state left behind (`async with` releases
the lock on the way out, so partial mutations stay visible).  `hang` is the
coroutine awaiting the book's non-reentrant `asyncio.Lock` while the same
task already holds it: it never returns. -/
inductive Res (α : Type) where
  | ok (a : α)
  | err (msg : String) (s : OrderBook)
  | hang
deriving Repr, DecidableEq

def Res.isErr {α : Type} : Res α → Bool
  | .err _ _ => true
  | _ => false

def Res.isOk {α : Type} : Res α → Bool
  | .ok _ => true
  | _ => false

/-- `_validate_order`. -/
def validateOrder (s : OrderBook) (o : Order) : Bool :=
  if o.side ≠ "buy" ∧ o.side ≠ "sell" then false
  else if o.price ≤ 0 ∨ o.quantity ≤ 0 then false
  else if (lookupKV s.order_map o.order_id).isSome then false
  else true

/-- Python `x or y` on an optional string: `None` and the empty string are
both falsy, so either makes the expression fall through to `y`. -/
def pyOr (a : Option String) (b : String) : String :=
  match a with
  | none => b
  | some s => if s = "" then b else s

/-- The result of `_match_order`'s while loop: the trades produced so far,
the incoming order with its decremented quantity, the updated opposite book,
`order_map` and `last_trade_price`, and whether `opposite_orders[0]` raised
`IndexError` (only possible on an empty price level). -/
structure MatchOut where
  trades : List Trade
  order : Order
  book : Book
  omap : List (String × Order)
  ltp : Option ℚ
  indexErr : Bool
deriving Repr, DecidableEq

/-- The while loop of `_match_order`, as structural recursion on a fuel
argument (`add_order` supplies fuel that provably exceeds the number of
iterations).  `bk` is the opposite book.  Where the Python mutates the maker
in place — the same object sits both in its price level and in `order_map` —
the embedding writes the updated maker to both explicitly. -/
def matchLoop (fuel : ℕ) (now : ℚ) (isBuy : Bool) (takerId : String)
    (o : Order) (bk : Book) (omap : List (String × Order)) (ltp : Option ℚ) :
    MatchOut :=
  match fuel with
  | 0 => ⟨[], o, bk, omap, ltp, false⟩
  | fuel + 1 =>
    if 0 < o.quantity ∧ bk ≠ [] then
      match (if isBuy then getBestAsk bk else getBestBid bk) with
      | (none, _) => ⟨[], o, bk, omap, ltp, false⟩
      | (some bestPrice, oppOrders) =>
        if (isBuy = true ∧ o.price < bestPrice) ∨
           (isBuy = false ∧ bestPrice < o.price) then
          ⟨[], o, bk, omap, ltp, false⟩
        else
          match oppOrders with
          | [] => ⟨[], o, bk, omap, ltp, true⟩
          | m :: restLevel =>
            let q := min o.quantity m.quantity
            let tr : Trade :=
              ⟨now, pyOr (if isBuy then some takerId else none) m.trader_id,
                    pyOr (if isBuy then none else some takerId) m.trader_id,
                    bestPrice, q⟩
            let o' : Order := { o with quantity := o.quantity - q }
            let m' : Order := { m with quantity := m.quantity - q }
            let bk' : Book :=
              if m'.quantity = 0 then
                (if restLevel = [] then Book.erase bk bestPrice
                 else Book.set bk bestPrice restLevel)
              else Book.set bk bestPrice (m' :: restLevel)
            let omap' :=
              if m'.quantity = 0 then eraseKV omap m.order_id
              else insertKV omap m.order_id m'
            let omap'' :=
              if o'.quantity = 0 then eraseKV omap' o.order_id else omap'
            let out := matchLoop fuel now isBuy takerId o' bk' omap'' (some bestPrice)
            { out with trades := tr :: out.trades }
    else ⟨[], o, bk, omap, ltp, false⟩

/-- Number of resting orders in a book side. -/
def bookSize (b : Book) : ℕ := (Book.orders b).length

/-- `_add_to_book`: append the order at the tail of its price level, creating
the level if absent. -/
def addToBook (o : Order) (s : OrderBook) : OrderBook :=
  let bk := if o.side = "buy" then s.bids else s.asks
  let lvl := (Book.find? bk o.price).getD []
  let bk' := Book.set bk o.price (lvl ++ [o])
  if o.side = "buy" then { s with bids := bk' } else { s with asks := bk' }

/-- `_flush_to_db`.  `lockHeld` says whether the running task already holds
the book's lock (the flush re-acquires it, and `asyncio.Lock` is not
reentrant); `dbOk` models the durable store accepting or rejecting the batch
insert.  The buffer is cleared only after the commit, so a failed insert
leaves it intact. -/
def flushToDb (lockHeld : Bool) (dbOk : Bool) (s : OrderBook) : Res OrderBook :=
  if lockHeld then .hang
  else if s.pending_trades = [] then .ok s
  else if dbOk then
    .ok { s with db := s.db ++ s.pending_trades, pending_trades := [] }
  else .err "database insert failed" s

/-- `_record_trades`: append each trade to the recent-trade ring, the three
history deques and the pending buffer; flush when the buffer has reached
`batch_size`; finally put a `new_trades` event. -/
def recordTrades (lockHeld : Bool) (dbOk : Bool) (s : OrderBook)
    (trades : List Trade) : Res OrderBook :=
  let s1 := trades.foldl (fun t tr =>
    { t with trades := ringAppend t.buffer_size t.trades tr,
             time_history := ringAppend t.buffer_size t.time_history tr.timestamp,
             price_history := ringAppend t.buffer_size t.price_history tr.price,
             volume_history := ringAppend t.buffer_size t.volume_history tr.quantity,
             pending_trades := t.pending_trades ++ [tr] }) s
  match (if s1.batch_size ≤ s1.pending_trades.length
         then flushToDb lockHeld dbOk s1 else .ok s1) with
  | .ok s2 =>
      .ok (if trades ≠ [] then { s2 with events := s2.events ++ [.new_trades trades] }
           else s2)
  | .err m t => .err m t
  | .hang => .hang

/-- `add_order` (the `submit` operation): validate, register the incoming
order, run the matching loop, rest any remainder, record the trades.  It runs
inside `async with self.lock`, so any flush it triggers sees `lockHeld =
true`.  After the loop the registry entry of a resting remainder is synced to
the decremented order (in Python the two are one object). -/
def addOrder (now : ℚ) (dbOk : Bool) (s : OrderBook) (o : Order) :
    Res (List Trade × OrderBook) :=
  if ¬ validateOrder s o = true then
    .err "Invalid order: must have valid side, price, and quantity" s
  else
    let isBuy := o.side = "buy"
    let omap0 := insertKV s.order_map o.order_id o
    let opposite := if isBuy then s.asks else s.bids
    let mo := matchLoop (bookSize opposite + 2) now isBuy o.trader_id o opposite
                omap0 s.last_trade_price
    let s1 := if isBuy then
        { s with asks := mo.book, order_map := mo.omap, last_trade_price := mo.ltp }
      else
        { s with bids := mo.book, order_map := mo.omap, last_trade_price := mo.ltp }
    if mo.indexErr then .err "IndexError" s1
    else
      let s2 := if 0 < mo.order.quantity then
          addToBook mo.order
            { s1 with order_map := insertKV s1.order_map o.order_id mo.order }
        else s1
      if mo.trades ≠ [] then
        match recordTrades true dbOk s2 mo.trades with
        | .ok s3 => .ok (mo.trades, s3)
        | .err m t => .err m t
        | .hang => .hang
      else .ok (mo.trades, s2)

/-- `cancel_order`. -/
def cancelOrder (s : OrderBook) (oid : String) : Bool × OrderBook :=
  match lookupKV s.order_map oid with
  | none => (false, s)
  | some o =>
    let bk := if o.side = "buy" then s.bids else s.asks
    let bk' :=
      match Book.find? bk o.price with
      | none => bk
      | some lvl =>
        let lvl' := lvl.filter (fun x => x.order_id ≠ oid)
        if lvl' = [] then Book.erase bk o.price else Book.set bk o.price lvl'
    let s' := if o.side = "buy" then { s with bids := bk' } else { s with asks := bk' }
    (true, { s' with order_map := eraseKV s'.order_map oid,
                     events := s'.events ++ [Event.cancel oid] })

/-! ### Historical OHLC query (`MarketDataServer.get_historical_ohlc`) -/

/-- One row of the OHLC reply.  `opn` models the `open` column alias, which is
a reserved word here. -/
structure OhlcRow where
  time : ℚ
  opn : ℚ
  high : ℚ
  low : ℚ
  close : ℚ
  volume : ℤ
deriving Repr, DecidableEq

/-- `floor(timestamp / :interval) * :interval`, the bucket start. -/
def bucketOf (interval t : ℚ) : ℚ := (Int.floor (t / interval) : ℚ) * interval

/-- Insert into a strictly ascending list of bucket starts, keeping it
strictly ascending (the effect of `GROUP BY` + `ORDER BY bucket_start ASC`). -/
def insSorted (x : ℚ) : List ℚ → List ℚ
  | [] => [x]
  | y :: ys => if x < y then x :: y :: ys else if x = y then y :: ys else y :: insSorted x ys

def sortedKeysOf (l : List ℚ) : List ℚ := l.foldr insSorted []

def maxQ (x : ℚ) (l : List ℚ) : ℚ := l.foldl max x

def minQ (x : ℚ) (l : List ℚ) : ℚ := l.foldl min x

/-- The `WHERE` clause of `get_historical_ohlc`: the conjunction of the
optional bounds. -/
def tradeInRange (fromT toT : Option ℚ) (t : Trade) : Bool :=
  (match fromT with | none => true | some a => decide (a ≤ t.timestamp)) &&
  (match toT with | none => true | some b => decide (t.timestamp ≤ b))

/-- The rows of one `GROUP BY` group: the stored trades falling in the
bucket that starts at `b`. -/
def bucketTrades (rows : List Trade) (interval b : ℚ) : List Trade :=
  rows.filter (fun t => bucketOf interval t.timestamp = b)

/-- The `SELECT` list for one group: `ROW_NUMBER() OVER (... ORDER BY
timestamp ASC/DESC) = 1` picks the earliest/latest row of the bucket (the
sort is stable, matching an arbitrary-but-fixed tie order), `MAX`/`MIN`/`SUM`
aggregate over the group. -/
def ohlcRowOf (rows : List Trade) (interval b : ℚ) : OhlcRow :=
  let inBucket := bucketTrades rows interval b
  let sorted := List.insertionSort (fun x y => x.timestamp ≤ y.timestamp) inBucket
  { time := b,
    opn := ((sorted.head?).map Trade.price).getD 0,
    high := match sorted.map Trade.price with | [] => 0 | p :: ps => maxQ p ps,
    low := match sorted.map Trade.price with | [] => 0 | p :: ps => minQ p ps,
    close := ((sorted.getLast?).map Trade.price).getD 0,
    volume := (sorted.map Trade.quantity).sum }

/-- `get_historical_ohlc`: raise `ValueError` on a non-positive interval,
else run the bucketing query; `HAVING open IS NOT NULL` never filters, since
every group comes from at least one row and prices are never NULL. -/
def getHistoricalOhlc (db : List Trade) (fromT toT : Option ℚ) (interval : ℚ) :
    Except String (List OhlcRow) :=
  if interval ≤ 0 then .error "Interval must be positive"
  else
    let rows := db.filter (tradeInRange fromT toT)
    let buckets := sortedKeysOf (rows.map (fun t => bucketOf interval t.timestamp))
    .ok (buckets.map (ohlcRowOf rows interval))

/-! ### Order gateway (`OrderServer.handle_order`) -/

/-- A decoded order request frame from the order endpoint. -/
structure OrderFrame where
  side : String
  price : ℚ
  quantity : ℤ
  order_type : Option String
deriving Repr, DecidableEq

/-- The fields declared by the `Order` dataclass in `OrderBook.py`. -/
def orderFieldNames : List String :=
  ["order_id", "trader_id", "side", "price", "quantity", "timestamp"]

/-- The keyword arguments `handle_order` passes to `Order(...)` in
`OrderServer.py`. -/
def handleOrderKwargs : List String :=
  ["order_id", "trader_id", "side", "order_type", "price", "quantity", "timestamp"]

/-- A dataclass `__init__` call succeeds exactly when every keyword argument
is a declared field and every field receives a value (none of `Order`'s
fields has a default); otherwise it raises `TypeError`. -/
def dataclassCallOk (fields kwargs : List String) : Bool :=
  kwargs.all (fun k => fields.contains k) && fields.all (fun f => kwargs.contains f)

/-- The outcome of processing one frame in `handle_order`. -/
inductive GatewayRes where
  | reply (trades : List Trade) (s : OrderBook)
  | typeError (msg : String)
  | bookErr (msg : String) (s : OrderBook)
  | hung
deriving Repr, DecidableEq

/-- The per-frame body of `OrderServer.handle_order`: build an `Order` from
the frame with a fresh `order_id`, the session's `trader_id` and the
ingestion timestamp, submit it, and reply with the resulting trades.  The
dataclass call is modelled by `dataclassCallOk` over the literal keyword
list the source passes. -/
def handleOrder (now : ℚ) (dbOk : Bool) (traderId orderId : String)
    (f : OrderFrame) (s : OrderBook) : GatewayRes :=
  if dataclassCallOk orderFieldNames handleOrderKwargs then
    let o : Order := ⟨orderId, traderId, f.side, f.price, f.quantity, now⟩
    match addOrder now dbOk s o with
    | .ok (ts, s') => .reply ts s'
    | .err m t => .bookErr m t
    | .hang => .hung
  else
    .typeError "Order() got an unexpected keyword argument"

/-! ### Market-data distributor (`MarketDataServer.handle_client`) -/

/-- Decoded JSON values, as produced by `json.loads`. -/
inductive Json where
  | null
  | jbool (b : Bool)
  | num (q : ℚ)
  | str (s : String)
  | arr (l : List Json)
  | obj (l : List (String × Json))

/-- `dict.get` on a decoded JSON object. -/
def jsonGet : List (String × Json) → String → Option Json
  | [], _ => none
  | (k, v) :: rest, key => if key = k then some v else jsonGet rest key

/-- One inbound frame on the market-data endpoint: either `json.loads`
raised `JSONDecodeError`, or it produced a JSON value. -/
inductive MdIn where
  | undecodable
  | decoded (j : Json)

/-- The per-session subscription record. -/
structure Subs where
  trades : Bool
  order_book : Bool
deriving Repr, DecidableEq

/-- What the handler body does with one frame.  `sessionError` is an
exception that the `try` around the body does not catch (it catches only
`json.JSONDecodeError`), so it unwinds `handle_client` and the session is
removed in the `finally` block. -/
inductive MdOut where
  | ignored
  | repliedHistorical
  | repliedOhlc
  | sessionError (msg : String)
deriving Repr, DecidableEq

/-- The message dispatch of `MarketDataServer.handle_client` for one frame:
`data.get('type')` on a non-dict raises `AttributeError`; a string `type`
selects a branch by equality (a non-string `type` equals none of the branch
literals); anything unrecognized falls through silently. -/
def handleMdMessage (m : MdIn) (subs : Subs) : MdOut × Subs :=
  match m with
  | .undecodable => (.ignored, subs)
  | .decoded j =>
    match j with
    | .obj kvs =>
      let msgType : Option String :=
        match jsonGet kvs "type" with
        | some (.str s) => some s
        | _ => none
      if msgType = some "request_historical" then (.repliedHistorical, subs)
      else if msgType = some "request_historical_ohlc" then (.repliedOhlc, subs)
      else if msgType = some "subscribe_trades" then
        (.ignored, { subs with trades := true })
      else if msgType = some "unsubscribe_trades" then
        (.ignored, { subs with trades := false })
      else if msgType = some "subscribe_order_book" then
        (.ignored, { subs with order_book := true })
      else if msgType = some "unsubscribe_order_book" then
        (.ignored, { subs with order_book := false })
      else (.ignored, subs)
    | _ => (.sessionError "AttributeError: .get on a non-dict", subs)

/-! ### Invariants and specification-side descriptions -/

/-- A well-formed price level of side `side` at price `p`: non-empty,
every resting order carries that price and side, and positive quantity. -/
def levelOk (side : String) (p : ℚ) (lvl : List Order) : Prop :=
  lvl ≠ [] ∧ ∀ o ∈ lvl, o.price = p ∧ o.side = side ∧ 0 < o.quantity

/-- A well-formed book side: keys strictly ascending, every level
well-formed. -/
def bookOk (side : String) (b : Book) : Prop :=
  (Book.keys b).Pairwise (· < ·) ∧ ∀ p lvl, (p, lvl) ∈ b → levelOk side p lvl

/-- All orders resting on either ladder. -/
def allOrders (s : OrderBook) : List Order :=
  Book.orders s.bids ++ Book.orders s.asks

/-- The book invariant of §3 of the spec: well-formed ladders, no crossed
book at rest, order ids pairwise distinct, and the registry in bijection
with the resting orders. -/
structure Inv (s : OrderBook) : Prop where
  bidsOk : bookOk "buy" s.bids
  asksOk : bookOk "sell" s.asks
  uncrossed : ∀ pb ∈ Book.keys s.bids, ∀ pa ∈ Book.keys s.asks, pb < pa
  idsNodup : ((allOrders s).map Order.order_id).Nodup
  mapKeysNodup : (s.order_map.map Prod.fst).Nodup
  lookupFwd : ∀ oid o, lookupKV s.order_map oid = some o →
      oid = o.order_id ∧ o ∈ allOrders s
  lookupBwd : ∀ o ∈ allOrders s, lookupKV s.order_map o.order_id = some o

/-- The invariant maintained across iterations of `_match_order`'s loop for
an incoming order originally submitted as `o₀`: `bk` is the opposite book,
`sb` the (untouched) own-side book, `o` the incoming order with its current
remaining quantity.  The registry contains every resting order of both books
plus — while the incoming order still has quantity — the entry made for `o₀`
on entry to `add_order` (which in Python aliases the loop's `order`). -/
structure LoopInv (isBuy : Bool) (o₀ : Order) (sb bk : Book)
    (omap : List (String × Order)) (o : Order) : Prop where
  bkOk : bookOk (if isBuy then "sell" else "buy") bk
  idsNodup : ((Book.orders sb ++ Book.orders bk).map Order.order_id).Nodup
  freshId : o₀.order_id ∉ (Book.orders sb ++ Book.orders bk).map Order.order_id
  mapKeysNodup : (omap.map Prod.fst).Nodup
  fwd : ∀ k v, lookupKV omap k = some v →
      (k = o₀.order_id ∧ v = o₀ ∧ 0 < o.quantity) ∨
      (k = v.order_id ∧ (v ∈ Book.orders sb ∨ v ∈ Book.orders bk))
  bwd : ∀ x, x ∈ Book.orders sb ∨ x ∈ Book.orders bk →
      lookupKV omap x.order_id = some x
  self : 0 < o.quantity → lookupKV omap o₀.order_id = some o₀
  same_id : o.order_id = o₀.order_id
  same_side : o.side = o₀.side
  same_price : o.price = o₀.price
  same_trader : o.trader_id = o₀.trader_id

/-- The matching loop exactly as the specification words it (continuous
price-time-priority matching, §4.B of the spec): run while the incoming
order has remaining quantity and the opposite side is non-empty, stop as
soon as the best opposite price does not cross the limit, trade against the
head of the best opposite level for `min` of the remaining quantities,
decrement both (the registry holds the same order object as the level, so a
surviving maker's registry entry shows the decrement), pop the maker and its
registry entry at zero, delete the level when it empties, and drop the
incoming order's registry entry when it fully fills.  The indices are
input order / opposite book / registry / last-trade-price, then the
produced trades and the four outputs.  Trade timestamps and party ids are
not constrained by this claim. -/
inductive MatchRel (isBuy : Bool) :
    Order → Book → List (String × Order) → Option ℚ →
    List Trade → Order → Book → List (String × Order) → Option ℚ → Prop where
  | stopFilled (o : Order) (bk : Book) (omap : List (String × Order))
      (ltp : Option ℚ) : o.quantity ≤ 0 →
      MatchRel isBuy o bk omap ltp [] o bk omap ltp
  | stopEmpty (o : Order) (bk : Book) (omap : List (String × Order))
      (ltp : Option ℚ) : bk = [] →
      MatchRel isBuy o bk omap ltp [] o bk omap ltp
  | stopNoCross (o : Order) (bk : Book) (omap : List (String × Order))
      (ltp : Option ℚ) (p : ℚ) (lvl : List Order) : 0 < o.quantity →
      (if isBuy then getBestAsk bk else getBestBid bk) = (some p, lvl) →
      (if isBuy then o.price < p else p < o.price) →
      MatchRel isBuy o bk omap ltp [] o bk omap ltp
  | step (o : Order) (bk : Book) (omap : List (String × Order))
      (ltp : Option ℚ) (p : ℚ) (m : Order) (rest : List Order) (q : ℤ)
      (ts : List Trade) (tstamp : ℚ) (bid sid : String) (o' : Order)
      (bk' : Book) (omap' : List (String × Order)) (ltp' : Option ℚ) :
      0 < o.quantity →
      (if isBuy then getBestAsk bk else getBestBid bk) = (some p, m :: rest) →
      (if isBuy then ¬ o.price < p else ¬ p < o.price) →
      q = min o.quantity m.quantity →
      MatchRel isBuy { o with quantity := o.quantity - q }
        (if m.quantity - q = 0 then
           (if rest = [] then Book.erase bk p else Book.set bk p rest)
         else Book.set bk p ({ m with quantity := m.quantity - q } :: rest))
        ((fun omap1 =>
            if o.quantity - q = 0 then eraseKV omap1 o.order_id else omap1)
          (if m.quantity - q = 0 then eraseKV omap m.order_id
           else insertKV omap m.order_id { m with quantity := m.quantity - q }))
        (some p) ts o' bk' omap' ltp' →
      MatchRel isBuy o bk omap ltp (⟨tstamp, bid, sid, p, q⟩ :: ts) o' bk' omap' ltp'

/-- The loop's termination measure: resting orders on the opposite side,
plus one while the incoming order still has quantity. -/
def loopMeasure (o : Order) (bk : Book) : ℕ :=
  bookSize bk + (if 0 < o.quantity then 1 else 0)

/-- The conjunction of facts the loop induction establishes about
`matchLoop fuel now isBuy takerId o bk omap ltp`. -/
structure MatchPost (isBuy : Bool) (takerId : String) (o₀ : Order)
    (sb : Book) (o : Order) (bk : Book) (omap : List (String × Order))
    (ltp : Option ℚ) (out : MatchOut) : Prop where
  noIndexErr : out.indexErr = false
  inv : LoopInv isBuy o₀ sb out.book out.omap out.order
  keysSub : Book.keys out.book ⊆ Book.keys bk
  noCross : 0 < out.order.quantity → out.book = [] ∨
      ∃ p lvl, (if isBuy then getBestAsk out.book else getBestBid out.book) =
          (some p, lvl) ∧ (if isBuy then o₀.price < p else p < o₀.price)
  makers : ∀ t ∈ out.trades, ∃ m, m ∈ Book.orders bk ∧ t.price = m.price ∧
      (if isBuy then
         t.seller_id = m.trader_id ∧ t.buyer_id = pyOr (some takerId) m.trader_id
       else
         t.buyer_id = m.trader_id ∧ t.seller_id = pyOr (some takerId) m.trader_id)
  nilFix : out.trades = [] → out = ⟨[], o, bk, omap, ltp, false⟩
  ltpLast : out.trades ≠ [] →
      ∃ tl, out.trades.getLast? = some tl ∧ out.ltp = some tl.price
  lenBound : out.trades.length ≤ loopMeasure o bk
  rel : MatchRel isBuy o bk omap ltp out.trades out.order out.book out.omap out.ltp

/-! ### Fixtures used by witnesses and counterexamples -/

/-- A fresh `OrderBook()` with the default `batch_size = 100` and
`buffer_size = 1000`. -/
def emptyBook : OrderBook := ⟨[], [], [], none, [], [], [], [], 1000, [], 100, [], []⟩

/-- A resting sell (maker) order used by witnesses: trader `M` offers one
unit at 100. -/
def m1 : Order := ⟨"m1", "M", "sell", 100, 1, 0⟩

/-- A fresh book holding just `m1` on the ask ladder. -/
def book_m1 : OrderBook :=
  { emptyBook with asks := [(100, [m1])], order_map := [("m1", m1)] }

/-- A sample trade used by the flush-deadlock witness. -/
def tr0 : Trade := ⟨0, "B", "S", 100, 1⟩

/-- `insertionSort` in `getHistoricalOhlc` orders trades by timestamp; the
relation is total and transitive, which the sorting lemmas require. -/
instance : IsTotal Trade (fun x y => x.timestamp ≤ y.timestamp) :=
  ⟨fun a b => le_total a.timestamp b.timestamp⟩

instance : IsTrans Trade (fun x y => x.timestamp ≤ y.timestamp) :=
  ⟨fun _ _ _ h1 h2 => le_trans h1 h2⟩

end Sim

/-! ## Lemmas -/

namespace Sim

theorem lookupKV_insert_self (m : List (String × Order)) (k : String) (v : Order) :
    lookupKV (insertKV m k v) k = some v := by
  induction m with
  | nil => simp [insertKV, lookupKV]
  | cons a rest ih =>
    by_cases h : k = a.1
    · simp [insertKV, h, lookupKV]
    · simp [insertKV, h, lookupKV, ih]

theorem lookupKV_insert_ne (m : List (String × Order)) (k k' : String) (v : Order)
    (h : k' ≠ k) : lookupKV (insertKV m k v) k' = lookupKV m k' := by
  induction m with
  | nil => simp [insertKV, lookupKV, h]
  | cons a rest ih =>
    by_cases hk : k = a.1
    · subst hk; simp [insertKV, lookupKV, h]
    · by_cases hk' : k' = a.1
      · simp [insertKV, hk, lookupKV, hk']
      · simp [insertKV, hk, lookupKV, hk', ih]

theorem lookupKV_erase_ne (m : List (String × Order)) (k k' : String)
    (h : k' ≠ k) : lookupKV (eraseKV m k) k' = lookupKV m k' := by
  induction m with
  | nil => simp [eraseKV, lookupKV]
  | cons a rest ih =>
    by_cases hk : k = a.1
    · subst hk; simp [eraseKV, lookupKV, h]
    · by_cases hk' : k' = a.1
      · simp [eraseKV, hk, lookupKV, hk']
      · simp [eraseKV, hk, lookupKV, hk', ih]

theorem lookupKV_mem_keys (m : List (String × Order)) (k : String) (v : Order)
    (h : lookupKV m k = some v) : k ∈ m.map Prod.fst := by
  induction m with
  | nil => simp [lookupKV] at h
  | cons a rest ih =>
    by_cases hk : k = a.1
    · simp [hk]
    · simp [lookupKV, hk] at h
      simp [ih h]

theorem lookupKV_eq_none (m : List (String × Order)) (k : String)
    (h : k ∉ m.map Prod.fst) : lookupKV m k = none := by
  induction m with
  | nil => rfl
  | cons a rest ih =>
    simp only [List.map_cons, List.mem_cons, not_or] at h
    simp [lookupKV, h.1, ih h.2]

theorem lookupKV_erase_self (m : List (String × Order)) (k : String)
    (hnd : (m.map Prod.fst).Nodup) : lookupKV (eraseKV m k) k = none := by
  induction m with
  | nil => rfl
  | cons a rest ih =>
    simp only [List.map_cons, List.nodup_cons] at hnd
    by_cases hk : k = a.1
    · subst hk
      simpa [eraseKV] using lookupKV_eq_none rest a.1 hnd.1
    · simp [eraseKV, hk, lookupKV, ih hnd.2]

theorem keys_insertKV (m : List (String × Order)) (k : String) (v : Order) :
    (insertKV m k v).map Prod.fst =
      if k ∈ m.map Prod.fst then m.map Prod.fst else m.map Prod.fst ++ [k] := by
  induction m with
  | nil => simp [insertKV]
  | cons a rest ih =>
    by_cases hk : k = a.1
    · simp [insertKV, hk]
    · simp only [insertKV, if_neg hk, List.map_cons, List.mem_cons, ih]
      by_cases hm : k ∈ rest.map Prod.fst <;> simp [hm, hk]

theorem keysNodup_insertKV (m : List (String × Order)) (k : String) (v : Order)
    (hnd : (m.map Prod.fst).Nodup) : ((insertKV m k v).map Prod.fst).Nodup := by
  rw [keys_insertKV]
  by_cases hm : k ∈ m.map Prod.fst
  · simpa [hm]
  · simpa [hm, List.nodup_append] using hnd

theorem keys_eraseKV_sublist (m : List (String × Order)) (k : String) :
    ((eraseKV m k).map Prod.fst).Sublist (m.map Prod.fst) := by
  induction m with
  | nil => simp [eraseKV]
  | cons a rest ih =>
    by_cases hk : k = a.1
    · simp only [eraseKV, if_pos hk, List.map_cons]
      exact (List.sublist_cons_self _ _)
    · simpa only [eraseKV, if_neg hk, List.map_cons] using ih.cons₂ a.1

theorem keysNodup_eraseKV (m : List (String × Order)) (k : String)
    (hnd : (m.map Prod.fst).Nodup) : ((eraseKV m k).map Prod.fst).Nodup :=
  (keys_eraseKV_sublist m k).nodup hnd

theorem keys_cons (p : ℚ) (l : List Order) (t : Book) :
    Book.keys ((p, l) :: t) = p :: Book.keys t := rfl

theorem orders_cons (p : ℚ) (l : List Order) (t : Book) :
    Book.orders ((p, l) :: t) = l ++ Book.orders t := rfl

theorem orders_append (a b : Book) :
    Book.orders (a ++ b) = Book.orders a ++ Book.orders b := by
  simp [Book.orders]

theorem keys_append (a b : Book) :
    Book.keys (a ++ b) = Book.keys a ++ Book.keys b := by
  simp [Book.keys]

theorem bookSize_cons (p : ℚ) (l : List Order) (t : Book) :
    bookSize ((p, l) :: t) = l.length + bookSize t := by
  simp [bookSize, orders_cons]

theorem bookSize_append (a b : Book) :
    bookSize (a ++ b) = bookSize a + bookSize b := by
  simp [bookSize, orders_append]

theorem mem_keys_of_mem (b : Book) (x : ℚ) (m : List Order)
    (h : (x, m) ∈ b) : x ∈ Book.keys b :=
  List.mem_map_of_mem Prod.fst h

theorem sorted_cons_lt (a : ℚ) (ks : List ℚ) (h : (a :: ks).Pairwise (· < ·)) :
    ∀ x ∈ ks, a < x := (List.pairwise_cons.mp h).1

theorem set_cons_lt (p q : ℚ) (l lvl : List Order) (t : Book) (h : q < p) :
    Book.set ((p, l) :: t) q lvl = (q, lvl) :: (p, l) :: t := by
  simp [Book.set, h]

theorem set_cons_eq (p : ℚ) (l lvl : List Order) (t : Book) :
    Book.set ((p, l) :: t) p lvl = (p, lvl) :: t := by
  simp [Book.set, lt_irrefl]

theorem set_cons_gt (p q : ℚ) (l lvl : List Order) (t : Book) (h : p < q) :
    Book.set ((p, l) :: t) q lvl = (p, l) :: Book.set t q lvl := by
  simp [Book.set, asymm h, ne_of_gt h]

theorem erase_cons_eq (p : ℚ) (l : List Order) (t : Book) :
    Book.erase ((p, l) :: t) p = t := by
  simp [Book.erase]

theorem erase_cons_ne (p q : ℚ) (l : List Order) (t : Book) (h : q ≠ p) :
    Book.erase ((p, l) :: t) q = (p, l) :: Book.erase t q := by
  simp [Book.erase, h]

theorem find?_cons_eq (p : ℚ) (l : List Order) (t : Book) :
    Book.find? ((p, l) :: t) p = some l := by
  simp [Book.find?]

theorem find?_cons_ne (p q : ℚ) (l : List Order) (t : Book) (h : q ≠ p) :
    Book.find? ((p, l) :: t) q = Book.find? t q := by
  simp [Book.find?, h]

theorem mem_keys_set (b : Book) (p : ℚ) (l : List Order) (q : ℚ) :
    q ∈ Book.keys (Book.set b p l) ↔ q = p ∨ q ∈ Book.keys b := by
  induction b with
  | nil => simp [Book.set, Book.keys]
  | cons a rest ih =>
    obtain ⟨x, w⟩ := a
    rcases lt_trichotomy p x with h1 | h1 | h1
    · rw [set_cons_lt x p w l rest h1]
      simp only [keys_cons, List.mem_cons] <;> tauto
    · subst h1
      rw [set_cons_eq p w l rest]
      simp only [keys_cons, List.mem_cons] <;> tauto
    · rw [set_cons_gt x p w l rest h1]
      simp only [keys_cons, List.mem_cons, ih] <;> tauto

theorem keys_erase_sublist (b : Book) (p : ℚ) :
    (Book.keys (Book.erase b p)).Sublist (Book.keys b) := by
  induction b with
  | nil => simp [Book.erase]
  | cons a rest ih =>
    obtain ⟨x, w⟩ := a
    by_cases h : p = x
    · subst h
      rw [erase_cons_eq, keys_cons]
      exact List.sublist_cons_self _ _
    · rw [erase_cons_ne x p w rest h, keys_cons, keys_cons]
      exact ih.cons₂ x

theorem sorted_set (b : Book) (p : ℚ) (l : List Order)
    (hs : (Book.keys b).Pairwise (· < ·)) :
    (Book.keys (Book.set b p l)).Pairwise (· < ·) := by
  induction b with
  | nil => simp [Book.set, Book.keys]
  | cons a rest ih =>
    obtain ⟨x, w⟩ := a
    rw [keys_cons] at hs
    have hx := sorted_cons_lt x _ hs
    have htl := (List.pairwise_cons.mp hs).2
    rcases lt_trichotomy p x with h1 | h1 | h1
    · rw [set_cons_lt x p w l rest h1, keys_cons, keys_cons]
      refine List.pairwise_cons.mpr ⟨?_, hs⟩
      intro y hy
      rcases List.mem_cons.mp hy with rfl | hy
      · exact h1
      · exact h1.trans (hx y hy)
    · subst h1
      rw [set_cons_eq p w l rest, keys_cons]
      exact List.pairwise_cons.mpr ⟨hx, htl⟩
    · rw [set_cons_gt x p w l rest h1, keys_cons]
      refine List.pairwise_cons.mpr ⟨?_, ih htl⟩
      intro y hy
      rcases (mem_keys_set rest p l y).mp hy with rfl | hy
      · exact h1
      · exact hx y hy

theorem sorted_erase (b : Book) (p : ℚ)
    (hs : (Book.keys b).Pairwise (· < ·)) :
    (Book.keys (Book.erase b p)).Pairwise (· < ·) :=
  hs.sublist (keys_erase_sublist b p)

theorem find?_eq_none (b : Book) (q : ℚ) (h : q ∉ Book.keys b) :
    Book.find? b q = none := by
  induction b with
  | nil => rfl
  | cons a rest ih =>
    obtain ⟨x, w⟩ := a
    simp only [keys_cons, List.mem_cons, not_or] at h
    rw [find?_cons_ne x q w rest h.1]
    exact ih h.2

theorem find?_mem (b : Book) (q : ℚ) (l : List Order)
    (h : Book.find? b q = some l) : (q, l) ∈ b := by
  induction b with
  | nil => simp [Book.find?] at h
  | cons a rest ih =>
    obtain ⟨x, w⟩ := a
    by_cases hq : q = x
    · subst hq
      rw [find?_cons_eq, Option.some.injEq] at h
      subst h
      exact List.mem_cons_self _ _
    · rw [find?_cons_ne x q w rest hq] at h
      exact List.mem_cons_of_mem _ (ih h)

theorem find?_eq_of_mem (b : Book) (p : ℚ) (lvl : List Order)
    (hs : (Book.keys b).Pairwise (· < ·)) (h : (p, lvl) ∈ b) :
    Book.find? b p = some lvl := by
  induction b with
  | nil => simp at h
  | cons a rest ih =>
    obtain ⟨x, w⟩ := a
    rw [keys_cons] at hs
    have hx := sorted_cons_lt x _ hs
    rcases List.mem_cons.mp h with heq | h
    · injection heq with h1 h2
      subst h1
      subst h2
      exact find?_cons_eq p lvl rest
    · have hpx : x < p := hx p (mem_keys_of_mem rest p lvl h)
      rw [find?_cons_ne x p w rest (ne_of_gt hpx)]
      exact ih (List.pairwise_cons.mp hs).2 h

theorem find?_set_self (b : Book) (p : ℚ) (l : List Order) :
    Book.find? (Book.set b p l) p = some l := by
  induction b with
  | nil => simp [Book.set, Book.find?]
  | cons a rest ih =>
    obtain ⟨x, w⟩ := a
    rcases lt_trichotomy p x with h1 | h1 | h1
    · rw [set_cons_lt x p w l rest h1, find?_cons_eq]
    · subst h1
      rw [set_cons_eq p w l rest, find?_cons_eq]
    · rw [set_cons_gt x p w l rest h1, find?_cons_ne x p _ _ (ne_of_gt h1)]
      exact ih

theorem find?_set_ne (b : Book) (p : ℚ) (l : List Order) (q : ℚ) (h : q ≠ p) :
    Book.find? (Book.set b p l) q = Book.find? b q := by
  induction b with
  | nil => simp [Book.set, Book.find?, h]
  | cons a rest ih =>
    obtain ⟨x, w⟩ := a
    rcases lt_trichotomy p x with h1 | h1 | h1
    · rw [set_cons_lt x p w l rest h1, find?_cons_ne p q l _ h]
    · subst h1
      rw [set_cons_eq p w l rest, find?_cons_ne p q l rest h,
        find?_cons_ne p q w rest h]
    · by_cases h3 : q = x
      · subst h3
        rw [set_cons_gt q p w l rest h1, find?_cons_eq, find?_cons_eq]
      · rw [set_cons_gt x p w l rest h1, find?_cons_ne x q w _ h3,
          find?_cons_ne x q w rest h3]
        exact ih

theorem find?_erase_ne (b : Book) (p q : ℚ) (h : q ≠ p) :
    Book.find? (Book.erase b p) q = Book.find? b q := by
  induction b with
  | nil => rfl
  | cons a rest ih =>
    obtain ⟨x, w⟩ := a
    by_cases h1 : p = x
    · subst h1
      rw [erase_cons_eq, find?_cons_ne p q w rest h]
    · by_cases h2 : q = x
      · rw [erase_cons_ne x p w rest h1, h2, find?_cons_eq, find?_cons_eq]
      · rw [erase_cons_ne x p w rest h1,
          find?_cons_ne x q w _ h2, find?_cons_ne x q w rest h2]
        exact ih

theorem find?_erase_self (b : Book) (p : ℚ)
    (hs : (Book.keys b).Pairwise (· < ·)) :
    Book.find? (Book.erase b p) p = none := by
  induction b with
  | nil => rfl
  | cons a rest ih =>
    obtain ⟨x, w⟩ := a
    rw [keys_cons] at hs
    have hx := sorted_cons_lt x _ hs
    by_cases h1 : p = x
    · subst h1
      rw [erase_cons_eq]
      refine find?_eq_none rest _ (fun hm => ?_)
      exact absurd (hx _ hm) (lt_irrefl _)
    · rw [erase_cons_ne x p w rest h1, find?_cons_ne x p w _ h1]
      exact ih (List.pairwise_cons.mp hs).2

theorem orders_set_fresh (b : Book) (p : ℚ) (l : List Order)
    (h : p ∉ Book.keys b) :
    (Book.orders (Book.set b p l)).Perm (l ++ Book.orders b) := by
  induction b with
  | nil => simp [Book.set, Book.orders]
  | cons a rest ih =>
    obtain ⟨x, w⟩ := a
    simp only [keys_cons, List.mem_cons, not_or] at h
    by_cases h1 : p < x
    · rw [set_cons_lt x p w l rest h1, orders_cons, orders_cons]
    · have h1' : x < p := lt_of_le_of_ne (not_lt.mp h1) (fun hc => h.1 hc.symm)
      rw [set_cons_gt x p w l rest h1', orders_cons, orders_cons]
      exact ((ih h.2).append_left w).trans (List.perm_append_comm_assoc w l _)

theorem orders_set_found (b : Book) (p : ℚ) (lvl l : List Order)
    (hs : (Book.keys b).Pairwise (· < ·)) (hf : Book.find? b p = some lvl) :
    (Book.orders (Book.set b p l) ++ lvl).Perm (l ++ Book.orders b) := by
  induction b with
  | nil => simp [Book.find?] at hf
  | cons a rest ih =>
    obtain ⟨x, w⟩ := a
    rw [keys_cons] at hs
    have hx := sorted_cons_lt x _ hs
    have htl := (List.pairwise_cons.mp hs).2
    by_cases h2 : p = x
    · subst h2
      rw [find?_cons_eq, Option.some.injEq] at hf
      rw [← hf]
      rw [set_cons_eq p w l rest, orders_cons, orders_cons, List.append_assoc]
      exact (List.perm_append_comm).append_left l
    · rw [find?_cons_ne x p w rest h2] at hf
      have h1 : x < p := by
        have := mem_keys_of_mem rest p lvl (find?_mem rest p lvl hf)
        exact hx p this
      rw [set_cons_gt x p w l rest h1, orders_cons, orders_cons,
        List.append_assoc]
      exact ((ih htl hf).append_left w).trans (List.perm_append_comm_assoc w l _)

theorem orders_erase_found (b : Book) (p : ℚ) (lvl : List Order)
    (hs : (Book.keys b).Pairwise (· < ·)) (hf : Book.find? b p = some lvl) :
    (Book.orders (Book.erase b p) ++ lvl).Perm (Book.orders b) := by
  induction b with
  | nil => simp [Book.find?] at hf
  | cons a rest ih =>
    obtain ⟨x, w⟩ := a
    rw [keys_cons] at hs
    have htl := (List.pairwise_cons.mp hs).2
    by_cases h2 : p = x
    · subst h2
      rw [find?_cons_eq, Option.some.injEq] at hf
      rw [← hf]
      rw [erase_cons_eq, orders_cons]
      exact List.perm_append_comm
    · rw [find?_cons_ne x p w rest h2] at hf
      rw [erase_cons_ne x p w rest h2, orders_cons, orders_cons,
        List.append_assoc]
      exact (ih htl hf).append_left w

theorem set_concat_self (init : Book) (p : ℚ) (lvl lvl' : List Order)
    (h : ∀ q ∈ Book.keys init, q < p) :
    Book.set (init ++ [(p, lvl)]) p lvl' = init ++ [(p, lvl')] := by
  induction init with
  | nil => simp [Book.set]
  | cons a rest ih =>
    obtain ⟨x, w⟩ := a
    have h1 : x < p := h x (by simp [Book.keys])
    rw [List.cons_append, set_cons_gt x p w lvl' _ h1,
      ih (fun q hq => h q (by rw [keys_cons]; exact List.mem_cons_of_mem _ hq)),
      List.cons_append]

theorem erase_concat_self (init : Book) (p : ℚ) (lvl : List Order)
    (h : ∀ q ∈ Book.keys init, q < p) :
    Book.erase (init ++ [(p, lvl)]) p = init := by
  induction init with
  | nil => simp [Book.erase]
  | cons a rest ih =>
    obtain ⟨x, w⟩ := a
    have h1 : x < p := h x (by simp [Book.keys])
    rw [List.cons_append, erase_cons_ne x p w _ (ne_of_gt h1),
      ih (fun q hq => h q (by rw [keys_cons]; exact List.mem_cons_of_mem _ hq))]

theorem getBestAsk_cons (p : ℚ) (l : List Order) (t : Book) :
    getBestAsk ((p, l) :: t) = (some p, l) := rfl

theorem getBestBid_concat (init : Book) (p : ℚ) (l : List Order) :
    getBestBid (init ++ [(p, l)]) = (some p, l) := by
  simp [getBestBid, List.getLast?_concat]

theorem mem_orders_iff (b : Book) (o : Order) :
    o ∈ Book.orders b ↔ ∃ p lvl, (p, lvl) ∈ b ∧ o ∈ lvl := by
  constructor
  · intro h
    simp only [Book.orders, List.mem_flatten, List.mem_map] at h
    obtain ⟨l, ⟨⟨p, lvl⟩, hm, rfl⟩, ho⟩ := h
    exact ⟨p, lvl, hm, ho⟩
  · rintro ⟨p, lvl, hm, ho⟩
    simp only [Book.orders, List.mem_flatten, List.mem_map]
    exact ⟨lvl, ⟨⟨p, lvl⟩, hm, rfl⟩, ho⟩

theorem matchLoop_zero (now : ℚ) (isBuy : Bool) (takerId : String) (o : Order)
    (bk : Book) (omap : List (String × Order)) (ltp : Option ℚ) :
    matchLoop 0 now isBuy takerId o bk omap ltp = ⟨[], o, bk, omap, ltp, false⟩ := rfl

theorem matchLoop_stop (fuel : ℕ) (now : ℚ) (isBuy : Bool) (takerId : String)
    (o : Order) (bk : Book) (omap : List (String × Order)) (ltp : Option ℚ)
    (h : ¬ (0 < o.quantity ∧ bk ≠ [])) :
    matchLoop (fuel + 1) now isBuy takerId o bk omap ltp =
      ⟨[], o, bk, omap, ltp, false⟩ := by
  rw [matchLoop, if_neg h]

theorem matchLoop_break (fuel : ℕ) (now : ℚ) (isBuy : Bool) (takerId : String)
    (o : Order) (bk : Book) (omap : List (String × Order)) (ltp : Option ℚ)
    (p : ℚ) (lvl : List Order)
    (hg : 0 < o.quantity ∧ bk ≠ [])
    (hbest : (if isBuy then getBestAsk bk else getBestBid bk) = (some p, lvl))
    (hbrk : (isBuy = true ∧ o.price < p) ∨ (isBuy = false ∧ p < o.price)) :
    matchLoop (fuel + 1) now isBuy takerId o bk omap ltp =
      ⟨[], o, bk, omap, ltp, false⟩ := by
  rw [matchLoop, if_pos hg, hbest]
  dsimp only
  rw [if_pos hbrk]

theorem matchLoop_index (fuel : ℕ) (now : ℚ) (isBuy : Bool) (takerId : String)
    (o : Order) (bk : Book) (omap : List (String × Order)) (ltp : Option ℚ)
    (p : ℚ)
    (hg : 0 < o.quantity ∧ bk ≠ [])
    (hbest : (if isBuy then getBestAsk bk else getBestBid bk) = (some p, []))
    (hnbrk : ¬ ((isBuy = true ∧ o.price < p) ∨ (isBuy = false ∧ p < o.price))) :
    matchLoop (fuel + 1) now isBuy takerId o bk omap ltp =
      ⟨[], o, bk, omap, ltp, true⟩ := by
  rw [matchLoop, if_pos hg, hbest]
  dsimp only
  rw [if_neg hnbrk]

theorem matchLoop_step (fuel : ℕ) (now : ℚ) (isBuy : Bool) (takerId : String)
    (o : Order) (bk : Book) (omap : List (String × Order)) (ltp : Option ℚ)
    (p : ℚ) (m : Order) (rl : List Order)
    (hg : 0 < o.quantity ∧ bk ≠ [])
    (hbest : (if isBuy then getBestAsk bk else getBestBid bk) = (some p, m :: rl))
    (hnbrk : ¬ ((isBuy = true ∧ o.price < p) ∨ (isBuy = false ∧ p < o.price))) :
    matchLoop (fuel + 1) now isBuy takerId o bk omap ltp =
      { matchLoop fuel now isBuy takerId
          { o with quantity := o.quantity - min o.quantity m.quantity }
          (if m.quantity - min o.quantity m.quantity = 0 then
             (if rl = [] then Book.erase bk p else Book.set bk p rl)
           else Book.set bk p
             ({ m with quantity := m.quantity - min o.quantity m.quantity } :: rl))
          (if o.quantity - min o.quantity m.quantity = 0 then
             eraseKV
               (if m.quantity - min o.quantity m.quantity = 0 then eraseKV omap m.order_id
                else insertKV omap m.order_id
                  { m with quantity := m.quantity - min o.quantity m.quantity })
               o.order_id
           else
             (if m.quantity - min o.quantity m.quantity = 0 then eraseKV omap m.order_id
              else insertKV omap m.order_id
                { m with quantity := m.quantity - min o.quantity m.quantity }))
          (some p) with
        trades := (⟨now,
            pyOr (if isBuy then some takerId else none) m.trader_id,
            pyOr (if isBuy then none else some takerId) m.trader_id,
            p, min o.quantity m.quantity⟩ : Trade) ::
          (matchLoop fuel now isBuy takerId
            { o with quantity := o.quantity - min o.quantity m.quantity }
            (if m.quantity - min o.quantity m.quantity = 0 then
               (if rl = [] then Book.erase bk p else Book.set bk p rl)
             else Book.set bk p
               ({ m with quantity := m.quantity - min o.quantity m.quantity } :: rl))
            (if o.quantity - min o.quantity m.quantity = 0 then
               eraseKV
                 (if m.quantity - min o.quantity m.quantity = 0 then eraseKV omap m.order_id
                  else insertKV omap m.order_id
                    { m with quantity := m.quantity - min o.quantity m.quantity })
                 o.order_id
             else
               (if m.quantity - min o.quantity m.quantity = 0 then eraseKV omap m.order_id
                else insertKV omap m.order_id
                  { m with quantity := m.quantity - min o.quantity m.quantity }))
            (some p)).trades } := by
  rw [matchLoop, if_pos hg, hbest]
  dsimp only
  rw [if_neg hnbrk]

end Sim


namespace Sim

theorem best_spec (isBuy : Bool) (bk : Book)
    (hs : (Book.keys bk).Pairwise (· < ·)) (hne : bk ≠ []) :
    ∃ p lvl, (if isBuy then getBestAsk bk else getBestBid bk) = (some p, lvl) ∧
      Book.find? bk p = some lvl ∧
      ∀ q ∈ Book.keys bk, (if isBuy then p ≤ q else q ≤ p) := by
  cases isBuy with
  | true =>
    cases bk with
    | nil => exact absurd rfl hne
    | cons hd tl =>
      obtain ⟨p, lvl⟩ := hd
      refine ⟨p, lvl, by simp [getBestAsk_cons], find?_cons_eq p lvl tl, ?_⟩
      intro q hq
      rw [keys_cons] at hq
      rw [if_pos rfl]
      rcases List.mem_cons.mp hq with rfl | hq
      · exact le_refl q
      · exact le_of_lt (sorted_cons_lt p _ (by rwa [keys_cons] at hs) q hq)
  | false =>
    rcases List.eq_nil_or_concat bk with rfl | ⟨init, last, rfl⟩
    · exact absurd rfl hne
    · obtain ⟨p, lvl⟩ := last
      rw [List.concat_eq_append] at hs ⊢
      have hmem : (p, lvl) ∈ init ++ [(p, lvl)] := by simp
      refine ⟨p, lvl, by simp [getBestBid_concat], find?_eq_of_mem _ p lvl hs hmem, ?_⟩
      intro q hq
      rw [if_neg (by simp)]
      rw [keys_append] at hq hs
      rcases List.mem_append.mp hq with hq | hq
      · have := (List.pairwise_append.mp hs).2.2 q hq p (by simp [Book.keys])
        exact le_of_lt this
      · simp only [Book.keys, List.map_cons, List.map_nil, List.mem_cons,
          List.not_mem_nil] at hq
        rcases hq with rfl | h
        · exact le_refl q
        · exact h.elim

theorem coe_concat_singleton (A : List Order) (m : Order) :
    ((A ++ [m] : List Order) : Multiset Order) = (A : Multiset Order) + {m} := by
  rw [← Multiset.coe_singleton, ← Multiset.coe_add]

theorem coe_cons_orders (m : Order) (l : List Order) :
    ((m :: l : List Order) : Multiset Order) = {m} + (l : Multiset Order) := by
  rw [Multiset.singleton_add, Multiset.cons_coe]

theorem orders_step_pop (bk : Book) (p : ℚ) (m : Order) (rl : List Order)
    (hs : (Book.keys bk).Pairwise (· < ·))
    (hf : Book.find? bk p = some (m :: rl)) :
    ((Book.orders (if rl = [] then Book.erase bk p else Book.set bk p rl) :
        List Order) : Multiset Order) + {m} = (Book.orders bk : Multiset Order) := by
  by_cases hrl : rl = []
  · subst hrl
    rw [if_pos rfl]
    have hperm := orders_erase_found bk p [m] hs hf
    calc (Book.orders (Book.erase bk p) : Multiset Order) + {m}
        = ((Book.orders (Book.erase bk p) ++ [m] : List Order) : Multiset Order) :=
          (coe_concat_singleton _ m).symm
      _ = (Book.orders bk : Multiset Order) := Multiset.coe_eq_coe.mpr hperm
  · rw [if_neg hrl]
    have hperm := orders_set_found bk p (m :: rl) rl hs hf
    have hM : (Book.orders (Book.set bk p rl) : Multiset Order) +
        ({m} + (rl : Multiset Order)) =
        (rl : Multiset Order) + (Book.orders bk : Multiset Order) := by
      calc (Book.orders (Book.set bk p rl) : Multiset Order) + ({m} + (rl : Multiset Order))
          = (Book.orders (Book.set bk p rl) : Multiset Order) +
            ((m :: rl : List Order) : Multiset Order) := by rw [coe_cons_orders]
        _ = ((Book.orders (Book.set bk p rl) ++ (m :: rl) : List Order) : Multiset Order) := by
            rw [Multiset.coe_add]
        _ = ((rl ++ Book.orders bk : List Order) : Multiset Order) :=
            Multiset.coe_eq_coe.mpr hperm
        _ = (rl : Multiset Order) + (Book.orders bk : Multiset Order) := by
            rw [Multiset.coe_add]
    have h3 : ((Book.orders (Book.set bk p rl) : Multiset Order) + {m}) +
        (rl : Multiset Order) =
        (Book.orders bk : Multiset Order) + (rl : Multiset Order) := by
      rw [add_assoc, hM]
      exact add_comm _ _
    exact add_right_cancel h3

theorem orders_step_keep (bk : Book) (p : ℚ) (m m' : Order) (rl : List Order)
    (hs : (Book.keys bk).Pairwise (· < ·))
    (hf : Book.find? bk p = some (m :: rl)) :
    ((Book.orders (Book.set bk p (m' :: rl)) : List Order) : Multiset Order) + {m}
      = {m'} + (Book.orders bk : Multiset Order) := by
  have hperm := orders_set_found bk p (m :: rl) (m' :: rl) hs hf
  have hM : (Book.orders (Book.set bk p (m' :: rl)) : Multiset Order) +
      ({m} + (rl : Multiset Order)) =
      ({m'} + (rl : Multiset Order)) + (Book.orders bk : Multiset Order) := by
    calc (Book.orders (Book.set bk p (m' :: rl)) : Multiset Order) +
          ({m} + (rl : Multiset Order))
        = (Book.orders (Book.set bk p (m' :: rl)) : Multiset Order) +
          ((m :: rl : List Order) : Multiset Order) := by rw [coe_cons_orders]
      _ = ((Book.orders (Book.set bk p (m' :: rl)) ++ (m :: rl) : List Order) :
            Multiset Order) := by rw [Multiset.coe_add]
      _ = ((m' :: rl ++ Book.orders bk : List Order) : Multiset Order) :=
          Multiset.coe_eq_coe.mpr hperm
      _ = ((m' :: rl : List Order) : Multiset Order) +
          (Book.orders bk : Multiset Order) := by
          rw [← Multiset.coe_add]
      _ = ({m'} + (rl : Multiset Order)) + (Book.orders bk : Multiset Order) := by
          rw [coe_cons_orders]
  have h3 : ((Book.orders (Book.set bk p (m' :: rl)) : Multiset Order) + {m}) +
      (rl : Multiset Order) =
      ({m'} + (Book.orders bk : Multiset Order)) + (rl : Multiset Order) := by
    rw [add_assoc, hM]
    rw [add_assoc, add_assoc, add_comm (rl : Multiset Order) _]
  exact add_right_cancel h3


theorem bookOk_step_pop (side : String) (bk : Book) (p : ℚ) (m : Order)
    (rl : List Order) (hb : bookOk side bk)
    (hf : Book.find? bk p = some (m :: rl)) :
    bookOk side (if rl = [] then Book.erase bk p else Book.set bk p rl) := by
  obtain ⟨hs, hlev⟩ := hb
  by_cases hrl : rl = []
  · subst hrl
    rw [if_pos rfl]
    refine ⟨sorted_erase bk p hs, ?_⟩
    intro q lvl hmem
    have hfind := find?_eq_of_mem _ q lvl (sorted_erase bk p hs) hmem
    by_cases hqp : q = p
    · subst hqp
      rw [find?_erase_self bk q hs] at hfind
      exact absurd hfind (by simp)
    · rw [find?_erase_ne bk p q hqp] at hfind
      exact hlev q lvl (find?_mem bk q lvl hfind)
  · rw [if_neg hrl]
    refine ⟨sorted_set bk p rl hs, ?_⟩
    intro q lvl hmem
    have hfind := find?_eq_of_mem _ q lvl (sorted_set bk p rl hs) hmem
    by_cases hqp : q = p
    · subst hqp
      rw [find?_set_self] at hfind
      injection hfind with hfind
      have hold := hlev q (m :: rl) (find?_mem bk q (m :: rl) hf)
      subst hfind
      exact ⟨hrl, fun x hx => hold.2 x (List.mem_cons_of_mem m hx)⟩
    · rw [find?_set_ne bk p rl q hqp] at hfind
      exact hlev q lvl (find?_mem bk q lvl hfind)

theorem bookOk_step_keep (side : String) (bk : Book) (p : ℚ) (m m' : Order)
    (rl : List Order) (hb : bookOk side bk)
    (hf : Book.find? bk p = some (m :: rl))
    (hp : m'.price = p) (hside : m'.side = side) (hqty : 0 < m'.quantity) :
    bookOk side (Book.set bk p (m' :: rl)) := by
  obtain ⟨hs, hlev⟩ := hb
  refine ⟨sorted_set bk p (m' :: rl) hs, ?_⟩
  intro q lvl hmem
  have hfind := find?_eq_of_mem _ q lvl (sorted_set bk p (m' :: rl) hs) hmem
  by_cases hqp : q = p
  · subst hqp
    rw [find?_set_self] at hfind
    injection hfind with hfind
    have hold := hlev q (m :: rl) (find?_mem bk q (m :: rl) hf)
    subst hfind
    refine ⟨by simp, fun x hx => ?_⟩
    rcases List.mem_cons.mp hx with rfl | hx
    · exact ⟨hp, hside, hqty⟩
    · exact hold.2 x (List.mem_cons_of_mem m hx)
  · rw [find?_set_ne bk p (m' :: rl) q hqp] at hfind
    exact hlev q lvl (find?_mem bk q lvl hfind)

theorem keys_set_subset_of_found (bk : Book) (p : ℚ) (L lvl : List Order)
    (hf : Book.find? bk p = some lvl) :
    Book.keys (Book.set bk p L) ⊆ Book.keys bk := by
  intro q hq
  rcases (mem_keys_set bk p L q).mp hq with rfl | hq
  · exact mem_keys_of_mem bk q lvl (find?_mem bk q lvl hf)
  · exact hq

theorem nodup_append_ne {A B : List Order}
    (h : ((A ++ B).map Order.order_id).Nodup)
    {a b : Order} (ha : a ∈ A) (hb : b ∈ B) : a.order_id ≠ b.order_id := by
  rw [List.map_append, List.nodup_append] at h
  exact fun he =>
    (h.2.2 (List.mem_map_of_mem _ ha)) (he ▸ List.mem_map_of_mem _ hb)

theorem idsNodup_step (sb : Book) {A B : List Order}
    (hle : ((A.map Order.order_id : List String) : Multiset String) ≤
      ((B.map Order.order_id : List String) : Multiset String))
    (h : ((Book.orders sb ++ B).map Order.order_id).Nodup) :
    ((Book.orders sb ++ A).map Order.order_id).Nodup := by
  have hB : (((Book.orders sb ++ B).map Order.order_id : List String) :
      Multiset String).Nodup := Multiset.coe_nodup.mpr h
  have hA : (((Book.orders sb ++ A).map Order.order_id : List String) :
      Multiset String) ≤
      (((Book.orders sb ++ B).map Order.order_id : List String) :
        Multiset String) := by
    rw [List.map_append, List.map_append, ← Multiset.coe_add, ← Multiset.coe_add]
    exact add_le_add_left hle _
  exact Multiset.coe_nodup.mp (Multiset.nodup_of_le hA hB)

theorem fresh_step (sb : Book) {A B : List Order} (k : String)
    (hle : ((A.map Order.order_id : List String) : Multiset String) ≤
      ((B.map Order.order_id : List String) : Multiset String))
    (h : k ∉ (Book.orders sb ++ B).map Order.order_id) :
    k ∉ (Book.orders sb ++ A).map Order.order_id := by
  intro hk
  refine h ?_
  rw [List.map_append, List.mem_append] at hk ⊢
  rcases hk with hk | hk
  · exact Or.inl hk
  · refine Or.inr ?_
    have : k ∈ ((B.map Order.order_id : List String) : Multiset String) :=
      Multiset.mem_of_le hle (Multiset.mem_coe.mpr hk)
    exact Multiset.mem_coe.mp this

theorem ids_le_pop (bk : Book) (p : ℚ) (m : Order) (rl : List Order)
    (hs : (Book.keys bk).Pairwise (· < ·))
    (hf : Book.find? bk p = some (m :: rl)) :
    (((Book.orders (if rl = [] then Book.erase bk p else Book.set bk p rl)).map
        Order.order_id : List String) : Multiset String) ≤
      (((Book.orders bk).map Order.order_id : List String) : Multiset String) := by
  have heq := orders_step_pop bk p m rl hs hf
  have hmap := congrArg (Multiset.map Order.order_id) heq
  rw [Multiset.map_add, Multiset.map_coe, Multiset.map_coe] at hmap
  rw [← hmap]
  simpa using Multiset.le_add_right _ _

theorem ids_le_keep (bk : Book) (p : ℚ) (m m' : Order) (rl : List Order)
    (hs : (Book.keys bk).Pairwise (· < ·))
    (hf : Book.find? bk p = some (m :: rl))
    (hid : m'.order_id = m.order_id) :
    (((Book.orders (Book.set bk p (m' :: rl))).map Order.order_id :
        List String) : Multiset String) =
      (((Book.orders bk).map Order.order_id : List String) : Multiset String) := by
  have heq := orders_step_keep bk p m m' rl hs hf
  have hmap := congrArg (Multiset.map Order.order_id) heq
  rw [Multiset.map_add, Multiset.map_add, Multiset.map_coe, Multiset.map_coe] at hmap
  simp only [Multiset.map_singleton, hid] at hmap
  have : (((Book.orders (Book.set bk p (m' :: rl))).map Order.order_id :
      List String) : Multiset String) + {m.order_id} =
      (((Book.orders bk).map Order.order_id : List String) : Multiset String) +
        {m.order_id} := by
    rw [hmap, add_comm]
  exact add_right_cancel this



theorem mem_of_msub (A B : List Order) (m : Order)
    (heq : (A : Multiset Order) + {m} = (B : Multiset Order)) :
    ∀ x ∈ A, x ∈ B := by
  intro x hx
  have : x ∈ (B : Multiset Order) := by
    rw [← heq]
    exact Multiset.mem_of_le (Multiset.le_add_right _ _) (Multiset.mem_coe.mpr hx)
  exact Multiset.mem_coe.mp this

theorem mem_rev_of_msub (A B : List Order) (m : Order)
    (heq : (A : Multiset Order) + {m} = (B : Multiset Order)) :
    ∀ v ∈ B, v ≠ m → v ∈ A := by
  intro v hv hne
  have : v ∈ (A : Multiset Order) + {m} := by
    rw [heq]
    exact Multiset.mem_coe.mpr hv
  rcases Multiset.mem_add.mp this with h | h
  · exact Multiset.mem_coe.mp h
  · exact absurd (Multiset.mem_singleton.mp h) hne

theorem not_mem_of_msub (A B : List Order) (m : Order)
    (heq : (A : Multiset Order) + {m} = (B : Multiset Order))
    (hnd : (B.map Order.order_id).Nodup) : m ∉ A := by
  intro hm
  have hndB : B.Nodup := hnd.of_map
  have hcount : Multiset.count m (B : Multiset Order) ≤ 1 :=
    Multiset.nodup_iff_count_le_one.mp (Multiset.coe_nodup.mpr hndB) m
  have h1 : Multiset.count m ((A : Multiset Order) + {m}) =
      Multiset.count m (A : Multiset Order) + 1 := by
    rw [Multiset.count_add, Multiset.count_singleton, if_pos rfl]
  have h2 : 1 ≤ Multiset.count m (A : Multiset Order) :=
    Multiset.one_le_count_iff_mem.mpr (Multiset.mem_coe.mpr hm)
  rw [heq] at h1
  omega

theorem mem_of_msub2 (A B : List Order) (m m' : Order)
    (heq : (A : Multiset Order) + {m} = {m'} + (B : Multiset Order))
    (hne : m' ≠ m) (hnd : (B.map Order.order_id).Nodup) :
    ∀ x ∈ A, x = m' ∨ (x ∈ B ∧ x ≠ m) := by
  intro x hx
  have hxmem : x ∈ ({m'} : Multiset Order) + (B : Multiset Order) := by
    rw [← heq]
    exact Multiset.mem_of_le (Multiset.le_add_right _ _) (Multiset.mem_coe.mpr hx)
  rcases Multiset.mem_add.mp hxmem with h | h
  · exact Or.inl (Multiset.mem_singleton.mp h)
  · by_cases hxm' : x = m'
    · exact Or.inl hxm'
    · refine Or.inr ⟨Multiset.mem_coe.mp h, fun hxm => ?_⟩
      subst hxm
      have hndB : B.Nodup := hnd.of_map
      have hcount : Multiset.count x (B : Multiset Order) ≤ 1 :=
        Multiset.nodup_iff_count_le_one.mp (Multiset.coe_nodup.mpr hndB) x
      have h1 : Multiset.count x ((A : Multiset Order) + {x}) =
          Multiset.count x (A : Multiset Order) + 1 := by
        rw [Multiset.count_add, Multiset.count_singleton, if_pos rfl]
      have h2 : 1 ≤ Multiset.count x (A : Multiset Order) :=
        Multiset.one_le_count_iff_mem.mpr (Multiset.mem_coe.mpr hx)
      have h3 : Multiset.count x ({m'} + (B : Multiset Order)) =
          Multiset.count x (B : Multiset Order) := by
        rw [Multiset.count_add, Multiset.count_singleton,
          if_neg (fun hc => hne hc.symm), zero_add]
      rw [heq, h3] at h1
      omega

theorem mem_rev_of_msub2 (A B : List Order) (m m' : Order)
    (heq : (A : Multiset Order) + {m} = {m'} + (B : Multiset Order)) :
    ∀ v ∈ B, v ≠ m → v ∈ A := by
  intro v hv hne
  have : v ∈ (A : Multiset Order) + {m} := by
    rw [heq]
    exact Multiset.mem_of_le (Multiset.le_add_left _ _) (Multiset.mem_coe.mpr hv)
  rcases Multiset.mem_add.mp this with h | h
  · exact Multiset.mem_coe.mp h
  · exact absurd (Multiset.mem_singleton.mp h) hne

theorem not_mem_of_msub2 (A B : List Order) (m m' : Order)
    (heq : (A : Multiset Order) + {m} = {m'} + (B : Multiset Order))
    (hne : m' ≠ m) (hnd : (B.map Order.order_id).Nodup) : m ∉ A := by
  intro hm
  rcases mem_of_msub2 A B m m' heq hne hnd m hm with h | h
  · exact hne h.symm
  · exact h.2 rfl

theorem nodup_inj_ids {B : List Order} (hnd : (B.map Order.order_id).Nodup)
    {x y : Order} (hx : x ∈ B) (hy : y ∈ B)
    (hid : x.order_id = y.order_id) : x = y :=
  List.inj_on_of_nodup_map hnd hx hy hid



theorem size_of_msub (A B : List Order) (m : Order)
    (heq : (A : Multiset Order) + {m} = (B : Multiset Order)) :
    A.length + 1 = B.length := by
  have := congrArg Multiset.card heq
  simpa [Multiset.coe_card] using this

theorem size_of_msub2 (A B : List Order) (m m' : Order)
    (heq : (A : Multiset Order) + {m} = {m'} + (B : Multiset Order)) :
    A.length = B.length := by
  have := congrArg Multiset.card heq
  simp [Multiset.coe_card] at this
  omega

theorem matchPost_step (isBuy : Bool) (takerId : String)
    (o₀ : Order) (sb : Book) (now : ℚ) (o : Order) (bk : Book)
    (omap : List (String × Order)) (ltp : Option ℚ)
    (p : ℚ) (m : Order) (rl : List Order)
    (o' : Order) (bk' : Book) (omap'' : List (String × Order)) (out : MatchOut)
    (hq0 : 0 < o.quantity)
    (hbest : (if isBuy then getBestAsk bk else getBestBid bk) = (some p, m :: rl))
    (hnc : if isBuy then ¬ o.price < p else ¬ p < o.price)
    (hmem_m : m ∈ Book.orders bk) (hmp : m.price = p)
    (he₁ : o' = { o with quantity := o.quantity - min o.quantity m.quantity })
    (he₂ : bk' = if m.quantity - min o.quantity m.quantity = 0 then
        (if rl = [] then Book.erase bk p else Book.set bk p rl)
      else Book.set bk p
        ({ m with quantity := m.quantity - min o.quantity m.quantity } :: rl))
    (he₃ : omap'' = if o.quantity - min o.quantity m.quantity = 0 then
        eraseKV
          (if m.quantity - min o.quantity m.quantity = 0 then
            eraseKV omap m.order_id
          else insertKV omap m.order_id
            { m with quantity := m.quantity - min o.quantity m.quantity })
          o.order_id
      else
        (if m.quantity - min o.quantity m.quantity = 0 then
          eraseKV omap m.order_id
        else insertKV omap m.order_id
          { m with quantity := m.quantity - min o.quantity m.quantity }))
    (hout : MatchPost isBuy takerId o₀ sb o' bk' omap'' (some p) out)
    (hkeys : Book.keys bk' ⊆ Book.keys bk)
    (htrans : ∀ x ∈ Book.orders bk',
      ∃ y ∈ Book.orders bk, x.price = y.price ∧ x.trader_id = y.trader_id)
    (hmeas : loopMeasure o' bk' < loopMeasure o bk) :
    MatchPost isBuy takerId o₀ sb o bk omap ltp
      { out with trades := (⟨now,
          pyOr (if isBuy then some takerId else none) m.trader_id,
          pyOr (if isBuy then none else some takerId) m.trader_id,
          p, min o.quantity m.quantity⟩ : Trade) :: out.trades } := by
  subst he₁
  subst he₂
  subst he₃
  refine ⟨hout.noIndexErr, hout.inv, fun q hq => hkeys (hout.keysSub hq),
    hout.noCross, ?_, ?_, ?_, ?_, ?_⟩
  · intro t ht
    rcases List.mem_cons.mp ht with rfl | ht
    · refine ⟨m, hmem_m, hmp.symm, ?_⟩
      cases isBuy
      · exact ⟨rfl, rfl⟩
      · exact ⟨rfl, rfl⟩
    · obtain ⟨m₂, hm₂, hpeq, hids⟩ := hout.makers t ht
      obtain ⟨y, hy, hyp, hyt⟩ := htrans m₂ hm₂
      refine ⟨y, hy, by rw [hpeq, hyp], ?_⟩
      rw [hyt] at hids
      exact hids
  · intro h
    exact absurd h (List.cons_ne_nil _ _)
  · intro _
    dsimp only
    cases hcase : out.trades with
    | nil =>
      have h0 := hout.nilFix hcase
      refine ⟨⟨now,
          pyOr (if isBuy then some takerId else none) m.trader_id,
          pyOr (if isBuy then none else some takerId) m.trader_id,
          p, min o.quantity m.quantity⟩, ?_, ?_⟩
      · rfl
      · rw [h0]
    | cons a ts =>
      obtain ⟨tl, h1, h2⟩ := hout.ltpLast (by rw [hcase]; exact List.cons_ne_nil a ts)
      refine ⟨tl, ?_, h2⟩
      rw [List.getLast?_cons_cons]
      exact hcase ▸ h1
  · dsimp only
    rw [List.length_cons]
    exact Nat.succ_le_of_lt (Nat.lt_of_le_of_lt hout.lenBound hmeas)
  · exact MatchRel.step o bk omap ltp p m rl (min o.quantity m.quantity)
      out.trades now
      (pyOr (if isBuy then some takerId else none) m.trader_id)
      (pyOr (if isBuy then none else some takerId) m.trader_id)
      out.order out.book out.omap out.ltp hq0 hbest hnc rfl hout.rel

theorem matchLoop_post (now : ℚ) (isBuy : Bool) (takerId : String)
    (o₀ : Order) (sb : Book) :
    ∀ (fuel : ℕ) (o : Order) (bk : Book) (omap : List (String × Order))
      (ltp : Option ℚ),
      LoopInv isBuy o₀ sb bk omap o →
      loopMeasure o bk < fuel →
      MatchPost isBuy takerId o₀ sb o bk omap ltp
        (matchLoop fuel now isBuy takerId o bk omap ltp) := by
  intro fuel
  induction fuel with
  | zero =>
    intro o bk omap ltp _ hmeas
    exact absurd hmeas (Nat.not_lt_zero _)
  | succ fuel ih =>
    intro o bk omap ltp hinv hmeas
    by_cases hg : 0 < o.quantity ∧ bk ≠ []
    · obtain ⟨hq0, hbkne⟩ := hg
      obtain ⟨p, lvl, hbest, hf, hple⟩ := best_spec isBuy bk hinv.bkOk.1 hbkne
      have hlvl := hinv.bkOk.2 p lvl (find?_mem bk p lvl hf)
      by_cases hbrk : (isBuy = true ∧ o.price < p) ∨ (isBuy = false ∧ p < o.price)
      · rw [matchLoop_break fuel now isBuy takerId o bk omap ltp p lvl
          ⟨hq0, hbkne⟩ hbest hbrk]
        have hnc : if isBuy then o₀.price < p else p < o₀.price := by
          rcases hbrk with ⟨hb, hlt⟩ | ⟨hb, hlt⟩ <;>
            rw [hb] <;> rw [← hinv.same_price] <;> simpa using hlt
        refine ⟨rfl, hinv, fun q hq => hq, ?_, ?_, fun _ => rfl,
          fun h => absurd rfl h, Nat.zero_le _, ?_⟩
        · intro _
          exact Or.inr ⟨p, lvl, hbest, hnc⟩
        · intro t ht
          exact absurd ht (List.not_mem_nil t)
        · have hnc2 : if isBuy then o.price < p else p < o.price := by
            rw [hinv.same_price]; exact hnc
          exact MatchRel.stopNoCross o bk omap ltp p lvl hq0 hbest hnc2
      · cases lvl with
        | nil => exact absurd rfl hlvl.1
        | cons m rl =>
          have hmfield := hlvl.2 m (List.mem_cons_self m rl)
          have hmq : 0 < m.quantity := hmfield.2.2
          have hmp : m.price = p := hmfield.1
          have hmside := hmfield.2.1
          have hqvpos : 0 < min o.quantity m.quantity := lt_min hq0 hmq
          have hqvle_o : min o.quantity m.quantity ≤ o.quantity := min_le_left _ _
          have hqvle_m : min o.quantity m.quantity ≤ m.quantity := min_le_right _ _
          have hmem_m : m ∈ Book.orders bk := (mem_orders_iff bk m).mpr
            ⟨p, m :: rl, find?_mem bk p _ hf, List.mem_cons_self m rl⟩
          have bkNodup : ((Book.orders bk).map Order.order_id).Nodup := by
            have h := hinv.idsNodup
            rw [List.map_append, List.nodup_append] at h
            exact h.2.1
          have ho₀m : o₀.order_id ≠ m.order_id := by
            intro h
            refine hinv.freshId ?_
            rw [List.map_append, List.mem_append]
            exact Or.inr (h ▸ List.mem_map_of_mem Order.order_id hmem_m)
          have hoid : o.order_id = o₀.order_id := hinv.same_id
          have hnc : if isBuy then ¬ o.price < p else ¬ p < o.price := by
            cases isBuy with
            | false => simpa using fun h => hbrk (Or.inr ⟨rfl, h⟩)
            | true => simpa using fun h => hbrk (Or.inl ⟨rfl, h⟩)
          rw [matchLoop_step fuel now isBuy takerId o bk omap ltp p m rl
            ⟨hq0, hbkne⟩ hbest hbrk]
          set qv := min o.quantity m.quantity with hqv_def
          set mkr : Order := { m with quantity := m.quantity - qv } with hmkr_def
          set oF : Order := { o with quantity := o.quantity - qv } with hoF_def
          set omap1 := if m.quantity - qv = 0 then eraseKV omap m.order_id
            else insertKV omap m.order_id mkr with homap1_def
          set bkF := if m.quantity - qv = 0 then
              (if rl = [] then Book.erase bk p else Book.set bk p rl)
            else Book.set bk p (mkr :: rl) with hbkF_def
          set omapF := if o.quantity - qv = 0 then eraseKV omap1 o.order_id
            else omap1 with homapF_def
          have hoFq : oF.quantity = o.quantity - qv := rfl
          have hoFid : oF.order_id = o.order_id := rfl
          have hmkrq : mkr.quantity = m.quantity - qv := rfl
          have hmkrid : mkr.order_id = m.order_id := rfl
          have hinvF : LoopInv isBuy o₀ sb bkF omapF oF := by
            by_cases hpop : m.quantity - qv = 0
            · -- maker fully filled: popped from the level and the registry
              have hbkA : bkF = if rl = [] then Book.erase bk p else Book.set bk p rl := by
                rw [hbkF_def, if_pos hpop]
              have homap1A : omap1 = eraseKV omap m.order_id := by
                rw [homap1_def, if_pos hpop]
              have heq : (Book.orders bkF : Multiset Order) + {m} =
                  (Book.orders bk : Multiset Order) := by
                rw [hbkA]
                exact orders_step_pop bk p m rl hinv.bkOk.1 hf
              have hm_notin : m ∉ Book.orders bkF := not_mem_of_msub _ _ m heq bkNodup
              have hmemF : ∀ x ∈ Book.orders bkF, x ∈ Book.orders bk :=
                mem_of_msub _ _ m heq
              have hrevF : ∀ v ∈ Book.orders bk, v ≠ m → v ∈ Book.orders bkF :=
                mem_rev_of_msub _ _ m heq
              have hidsle : (((Book.orders bkF).map Order.order_id : List String) :
                  Multiset String) ≤
                  (((Book.orders bk).map Order.order_id : List String) :
                    Multiset String) := by
                rw [hbkA]
                exact ids_le_pop bk p m rl hinv.bkOk.1 hf
              have hxid_ne_m : ∀ x ∈ Book.orders bkF, x.order_id ≠ m.order_id := by
                intro x hx hxm
                exact hm_notin ((nodup_inj_ids bkNodup (hmemF x hx) hmem_m hxm) ▸ hx)
              have h1nd : (omap1.map Prod.fst).Nodup := by
                rw [homap1A]
                exact keysNodup_eraseKV omap _ hinv.mapKeysNodup
              have hcore : ∀ k v, lookupKV omap1 k = some v →
                  (k = o₀.order_id ∧ v = o₀ ∧ 0 < o.quantity) ∨
                  (k = v.order_id ∧ (v ∈ Book.orders sb ∨ v ∈ Book.orders bkF)) := by
                intro k v hkv
                rw [homap1A] at hkv
                by_cases hkm : k = m.order_id
                · subst hkm
                  rw [lookupKV_erase_self omap _ hinv.mapKeysNodup] at hkv
                  exact absurd hkv (by simp)
                · rw [lookupKV_erase_ne omap _ _ hkm] at hkv
                  rcases hinv.fwd k v hkv with ⟨ha, hb, hc⟩ | ⟨ha, hb⟩
                  · exact Or.inl ⟨ha, hb, hc⟩
                  · refine Or.inr ⟨ha, ?_⟩
                    rcases hb with hb | hb
                    · exact Or.inl hb
                    · refine Or.inr (hrevF v hb ?_)
                      intro hvm
                      exact hkm (by rw [ha, hvm])
              refine ⟨?_, ?_, ?_, ?_, ?_, ?_, ?_, ?_, ?_, ?_, ?_⟩
              · rw [hbkA]
                exact bookOk_step_pop _ bk p m rl hinv.bkOk hf
              · exact idsNodup_step sb hidsle hinv.idsNodup
              · exact fresh_step sb _ hidsle hinv.freshId
              · rw [homapF_def]
                by_cases hfill : o.quantity - qv = 0
                · rw [if_pos hfill]
                  exact keysNodup_eraseKV _ _ h1nd
                · rw [if_neg hfill]
                  exact h1nd
              · intro k v hkv
                rw [homapF_def] at hkv
                by_cases hfill : o.quantity - qv = 0
                · rw [if_pos hfill] at hkv
                  by_cases hko : k = o.order_id
                  · subst hko
                    rw [lookupKV_erase_self _ _ h1nd] at hkv
                    exact absurd hkv (by simp)
                  · rw [lookupKV_erase_ne _ _ _ hko] at hkv
                    rcases hcore k v hkv with ⟨ha, hb, hc⟩ | h
                    · exact absurd (ha.trans hoid.symm) hko
                    · exact Or.inr h
                · rw [if_neg hfill] at hkv
                  rcases hcore k v hkv with ⟨ha, hb, hc⟩ | h
                  · refine Or.inl ⟨ha, hb, ?_⟩
                    rw [hoFq]
                    omega
                  · exact Or.inr h
              · intro x hx
                have hxbk : x ∈ Book.orders sb ∨ x ∈ Book.orders bk := by
                  rcases hx with hx | hx
                  · exact Or.inl hx
                  · exact Or.inr (hmemF x hx)
                have hxo : x.order_id ≠ o.order_id := by
                  intro hxo
                  refine hinv.freshId ?_
                  rw [List.map_append, List.mem_append]
                  rcases hxbk with hx2 | hx2
                  · exact Or.inl ((hoid ▸ hxo) ▸ List.mem_map_of_mem Order.order_id hx2)
                  · exact Or.inr ((hoid ▸ hxo) ▸ List.mem_map_of_mem Order.order_id hx2)
                have hxm : x.order_id ≠ m.order_id := by
                  rcases hx with hx | hx
                  · exact nodup_append_ne hinv.idsNodup hx hmem_m
                  · exact hxid_ne_m x hx
                have hbase : lookupKV omap x.order_id = some x := hinv.bwd x hxbk
                rw [homapF_def]
                by_cases hfill : o.quantity - qv = 0
                · rw [if_pos hfill, lookupKV_erase_ne _ _ _ hxo, homap1A,
                    lookupKV_erase_ne _ _ _ hxm]
                  exact hbase
                · rw [if_neg hfill, homap1A, lookupKV_erase_ne _ _ _ hxm]
                  exact hbase
              · intro hq'
                rw [hoFq] at hq'
                have hfill : ¬ (o.quantity - qv = 0) := by omega
                rw [homapF_def, if_neg hfill, homap1A,
                  lookupKV_erase_ne _ _ _ ho₀m]
                exact hinv.self hq0
              · exact hoid
              · exact hinv.same_side
              · exact hinv.same_price
              · exact hinv.same_trader
            · -- maker partially filled: stays at the head with reduced quantity
              have hbkB : bkF = Book.set bk p (mkr :: rl) := by
                rw [hbkF_def, if_neg hpop]
              have hmkr_ne : mkr ≠ m := by
                intro h
                have := congrArg Order.quantity h
                rw [hmkrq] at this
                omega
              have hfill : o.quantity - qv = 0 := by
                rcases min_choice o.quantity m.quantity with h | h
                · rw [hqv_def, ← h]
                  omega
                · exact absurd (by rw [hqv_def, ← h]; omega) hpop
              have homap1B : omap1 = insertKV omap m.order_id mkr := by
                rw [homap1_def, if_neg hpop]
              have heq2 : (Book.orders bkF : Multiset Order) + {m} =
                  {mkr} + (Book.orders bk : Multiset Order) := by
                rw [hbkB]
                exact orders_step_keep bk p m mkr rl hinv.bkOk.1 hf
              have hmemF2 : ∀ x ∈ Book.orders bkF,
                  x = mkr ∨ (x ∈ Book.orders bk ∧ x ≠ m) :=
                mem_of_msub2 _ _ m mkr heq2 hmkr_ne bkNodup
              have hrevF2 : ∀ v ∈ Book.orders bk, v ≠ m → v ∈ Book.orders bkF :=
                mem_rev_of_msub2 _ _ m mkr heq2
              have hmkr_memF : mkr ∈ Book.orders bkF := by
                rw [hbkB]
                exact (mem_orders_iff _ mkr).mpr ⟨p, mkr :: rl,
                  find?_mem _ p _ (find?_set_self bk p _), List.mem_cons_self _ _⟩
              have hidsle2 : (((Book.orders bkF).map Order.order_id : List String) :
                  Multiset String) ≤
                  (((Book.orders bk).map Order.order_id : List String) :
                    Multiset String) := by
                rw [hbkB]
                exact le_of_eq (ids_le_keep bk p m mkr rl hinv.bkOk.1 hf rfl)
              have h1nd : (omap1.map Prod.fst).Nodup := by
                rw [homap1B]
                exact keysNodup_insertKV omap _ _ hinv.mapKeysNodup
              refine ⟨?_, ?_, ?_, ?_, ?_, ?_, ?_, ?_, ?_, ?_, ?_⟩
              · rw [hbkB]
                refine bookOk_step_keep _ bk p m mkr rl hinv.bkOk hf hmp hmside ?_
                rw [hmkrq]
                omega
              · exact idsNodup_step sb hidsle2 hinv.idsNodup
              · exact fresh_step sb _ hidsle2 hinv.freshId
              · rw [homapF_def, if_pos hfill]
                exact keysNodup_eraseKV _ _ h1nd
              · intro k v hkv
                rw [homapF_def, if_pos hfill] at hkv
                by_cases hko : k = o.order_id
                · subst hko
                  rw [lookupKV_erase_self _ _ h1nd] at hkv
                  exact absurd hkv (by simp)
                · rw [lookupKV_erase_ne _ _ _ hko] at hkv
                  rw [homap1B] at hkv
                  by_cases hkm : k = m.order_id
                  · subst hkm
                    rw [lookupKV_insert_self] at hkv
                    injection hkv with hkv
                    subst hkv
                    exact Or.inr ⟨rfl, Or.inr hmkr_memF⟩
                  · rw [lookupKV_insert_ne omap _ _ _ hkm] at hkv
                    rcases hinv.fwd k v hkv with ⟨ha, hb, hc⟩ | ⟨ha, hb⟩
                    · exact absurd (ha.trans hoid.symm) hko
                    · refine Or.inr ⟨ha, ?_⟩
                      rcases hb with hb | hb
                      · exact Or.inl hb
                      · refine Or.inr (hrevF2 v hb ?_)
                        intro hvm
                        exact hkm (by rw [ha, hvm])
              · intro x hx
                have hxbk : x ∈ Book.orders sb ∨
                    (x = mkr ∨ (x ∈ Book.orders bk ∧ x ≠ m)) := by
                  rcases hx with hx | hx
                  · exact Or.inl hx
                  · exact Or.inr (hmemF2 x hx)
                have hxo : x.order_id ≠ o.order_id := by
                  intro heq
                  rcases hxbk with hx2 | hx2 | hx2
                  · refine hinv.freshId ?_
                    rw [List.map_append, List.mem_append]
                    refine Or.inl ?_
                    rw [← heq.trans hoid]
                    exact List.mem_map_of_mem Order.order_id hx2
                  · refine ho₀m ?_
                    rw [← hoid, ← heq, hx2]
                  · refine hinv.freshId ?_
                    rw [List.map_append, List.mem_append]
                    refine Or.inr ?_
                    rw [← heq.trans hoid]
                    exact List.mem_map_of_mem Order.order_id hx2.1
                rw [homapF_def, if_pos hfill, lookupKV_erase_ne _ _ _ hxo, homap1B]
                rcases hxbk with hx2 | hx2 | hx2
                · have hxm : x.order_id ≠ m.order_id :=
                    nodup_append_ne hinv.idsNodup hx2 hmem_m
                  rw [lookupKV_insert_ne omap _ _ _ hxm]
                  exact hinv.bwd x (Or.inl hx2)
                · subst hx2
                  exact lookupKV_insert_self omap m.order_id mkr
                · have hxm : x.order_id ≠ m.order_id := by
                    intro h
                    exact hx2.2 (nodup_inj_ids bkNodup hx2.1 hmem_m h)
                  rw [lookupKV_insert_ne omap _ _ _ hxm]
                  exact hinv.bwd x (Or.inr hx2.1)
              · intro hq'
                rw [hoFq] at hq'
                omega
              · exact hoid
              · exact hinv.same_side
              · exact hinv.same_price
              · exact hinv.same_trader
          have hkeys : Book.keys bkF ⊆ Book.keys bk := by
            by_cases hpop : m.quantity - qv = 0
            · rw [hbkF_def, if_pos hpop]
              by_cases hrl : rl = []
              · rw [if_pos hrl]
                exact (keys_erase_sublist bk p).subset
              · rw [if_neg hrl]
                exact keys_set_subset_of_found bk p rl _ hf
            · rw [hbkF_def, if_neg hpop]
              exact keys_set_subset_of_found bk p _ _ hf
          have htrans : ∀ x ∈ Book.orders bkF,
              ∃ y ∈ Book.orders bk, x.price = y.price ∧ x.trader_id = y.trader_id := by
            by_cases hpop : m.quantity - qv = 0
            · intro x hx
              have heq : (Book.orders bkF : Multiset Order) + {m} =
                  (Book.orders bk : Multiset Order) := by
                rw [hbkF_def, if_pos hpop]
                exact orders_step_pop bk p m rl hinv.bkOk.1 hf
              exact ⟨x, mem_of_msub _ _ m heq x hx, rfl, rfl⟩
            · intro x hx
              have hmkr_ne : mkr ≠ m := by
                intro h
                have := congrArg Order.quantity h
                rw [hmkrq] at this
                omega
              have heq2 : (Book.orders bkF : Multiset Order) + {m} =
                  {mkr} + (Book.orders bk : Multiset Order) := by
                rw [hbkF_def, if_neg hpop]
                exact orders_step_keep bk p m mkr rl hinv.bkOk.1 hf
              rcases mem_of_msub2 _ _ m mkr heq2 hmkr_ne bkNodup x hx with rfl | ⟨hxbk, _⟩
              · exact ⟨m, hmem_m, rfl, rfl⟩
              · exact ⟨x, hxbk, rfl, rfl⟩
          have hmeasF : loopMeasure oF bkF < loopMeasure o bk := by
            by_cases hpop : m.quantity - qv = 0
            · have heq : (Book.orders bkF : Multiset Order) + {m} =
                  (Book.orders bk : Multiset Order) := by
                rw [hbkF_def, if_pos hpop]
                exact orders_step_pop bk p m rl hinv.bkOk.1 hf
              have hsize := size_of_msub _ _ m heq
              simp only [loopMeasure, bookSize]
              rw [if_pos hq0]
              by_cases h : 0 < oF.quantity
              · rw [if_pos h]
                omega
              · rw [if_neg h]
                omega
            · have hmkr_ne : mkr ≠ m := by
                intro h
                have := congrArg Order.quantity h
                rw [hmkrq] at this
                omega
              have heq2 : (Book.orders bkF : Multiset Order) + {m} =
                  {mkr} + (Book.orders bk : Multiset Order) := by
                rw [hbkF_def, if_neg hpop]
                exact orders_step_keep bk p m mkr rl hinv.bkOk.1 hf
              have hsize := size_of_msub2 _ _ m mkr heq2
              have hfill : o.quantity - qv = 0 := by
                rcases min_choice o.quantity m.quantity with h | h
                · rw [hqv_def, ← h]
                  omega
                · exact absurd (by rw [hqv_def, ← h]; omega) hpop
              have hofq : ¬ 0 < oF.quantity := by
                rw [hoFq]
                omega
              simp only [loopMeasure, bookSize]
              rw [if_pos hq0, if_neg hofq]
              omega
          have hout := ih oF bkF omapF (some p) hinvF
            (Nat.lt_of_lt_of_le hmeasF (Nat.lt_succ_iff.mp hmeas))
          exact matchPost_step isBuy takerId o₀ sb now o bk omap ltp p m rl
            oF bkF omapF _ hq0 hbest hnc hmem_m hmp rfl rfl rfl hout hkeys
            htrans hmeasF
    · rw [matchLoop_stop fuel now isBuy takerId o bk omap ltp hg]
      have hstop : o.quantity ≤ 0 ∨ bk = [] := by
        by_cases h1 : 0 < o.quantity
        · refine Or.inr ?_
          by_contra h2
          exact hg ⟨h1, h2⟩
        · exact Or.inl (not_lt.mp h1)
      refine ⟨rfl, hinv, fun q hq => hq, ?_, ?_, fun _ => rfl,
        fun h => absurd rfl h, Nat.zero_le _, ?_⟩
      · intro hq
        rcases hstop with h | h
        · exact absurd hq (not_lt.mpr h)
        · exact Or.inl h
      · intro t ht
        exact absurd ht (List.not_mem_nil t)
      · rcases hstop with h | h
        · exact MatchRel.stopFilled o bk omap ltp h
        · exact MatchRel.stopEmpty o bk omap ltp h



theorem validate_iff (s : OrderBook) (o : Order) :
    validateOrder s o = true ↔
      (o.side = "buy" ∨ o.side = "sell") ∧ 0 < o.price ∧ 0 < o.quantity ∧
        lookupKV s.order_map o.order_id = none := by
  unfold validateOrder
  by_cases h1 : o.side ≠ "buy" ∧ o.side ≠ "sell"
  · rw [if_pos h1]
    refine ⟨fun h => absurd h (by simp), fun h => ?_⟩
    exfalso
    rcases h.1 with h2 | h2
    · exact h1.1 h2
    · exact h1.2 h2
  · rw [if_neg h1]
    by_cases h2 : o.price ≤ 0 ∨ o.quantity ≤ 0
    · rw [if_pos h2]
      refine ⟨fun h => absurd h (by simp), fun h => ?_⟩
      exfalso
      rcases h2 with h3 | h3
      · exact absurd h.2.1 (not_lt.mpr h3)
      · exact absurd h.2.2.1 (not_lt.mpr h3)
    · rw [if_neg h2]
      push_neg at h1 h2
      by_cases h3 : (lookupKV s.order_map o.order_id).isSome = true
      · rw [if_pos h3]
        refine ⟨fun h => absurd h (by simp), fun h => ?_⟩
        exfalso
        rw [h.2.2.2] at h3
        exact absurd h3 (by simp)
      · rw [if_neg h3]
        refine ⟨fun _ => ⟨?_, h2.1, h2.2, ?_⟩, fun _ => rfl⟩
        · by_cases hb : o.side = "buy"
          · exact Or.inl hb
          · exact Or.inr (h1 hb)
        · cases hl : lookupKV s.order_map o.order_id with
          | none => rfl
          | some v =>
            rw [hl] at h3
            simp at h3

theorem foldl_record_fields (l : List Trade) (t : OrderBook) :
    (l.foldl (fun t tr =>
      { t with trades := ringAppend t.buffer_size t.trades tr,
               time_history := ringAppend t.buffer_size t.time_history tr.timestamp,
               price_history := ringAppend t.buffer_size t.price_history tr.price,
               volume_history := ringAppend t.buffer_size t.volume_history tr.quantity,
               pending_trades := t.pending_trades ++ [tr] }) t).bids = t.bids ∧
    (l.foldl (fun t tr =>
      { t with trades := ringAppend t.buffer_size t.trades tr,
               time_history := ringAppend t.buffer_size t.time_history tr.timestamp,
               price_history := ringAppend t.buffer_size t.price_history tr.price,
               volume_history := ringAppend t.buffer_size t.volume_history tr.quantity,
               pending_trades := t.pending_trades ++ [tr] }) t).asks = t.asks ∧
    (l.foldl (fun t tr =>
      { t with trades := ringAppend t.buffer_size t.trades tr,
               time_history := ringAppend t.buffer_size t.time_history tr.timestamp,
               price_history := ringAppend t.buffer_size t.price_history tr.price,
               volume_history := ringAppend t.buffer_size t.volume_history tr.quantity,
               pending_trades := t.pending_trades ++ [tr] }) t).order_map =
      t.order_map ∧
    (l.foldl (fun t tr =>
      { t with trades := ringAppend t.buffer_size t.trades tr,
               time_history := ringAppend t.buffer_size t.time_history tr.timestamp,
               price_history := ringAppend t.buffer_size t.price_history tr.price,
               volume_history := ringAppend t.buffer_size t.volume_history tr.quantity,
               pending_trades := t.pending_trades ++ [tr] }) t).last_trade_price =
      t.last_trade_price := by
  induction l generalizing t with
  | nil => exact ⟨rfl, rfl, rfl, rfl⟩
  | cons a rest ih => exact ih _

theorem recordTrades_fields (lockHeld dbOk : Bool) (s : OrderBook)
    (l : List Trade) (s3 : OrderBook)
    (h : recordTrades lockHeld dbOk s l = .ok s3) :
    s3.bids = s.bids ∧ s3.asks = s.asks ∧ s3.order_map = s.order_map ∧
      s3.last_trade_price = s.last_trade_price := by
  simp only [recordTrades] at h
  have hf := foldl_record_fields l s
  revert h hf
  generalize (l.foldl (fun t tr =>
    { t with trades := ringAppend t.buffer_size t.trades tr,
             time_history := ringAppend t.buffer_size t.time_history tr.timestamp,
             price_history := ringAppend t.buffer_size t.price_history tr.price,
             volume_history := ringAppend t.buffer_size t.volume_history tr.quantity,
             pending_trades := t.pending_trades ++ [tr] }) s) = s1
  intro h hf
  have step : ∀ s2 : OrderBook,
      (if l ≠ [] then { s2 with events := s2.events ++ [Event.new_trades l] }
        else s2) = s3 →
      s3.bids = s2.bids ∧ s3.asks = s2.asks ∧ s3.order_map = s2.order_map ∧
        s3.last_trade_price = s2.last_trade_price := by
    intro s2 hs2
    by_cases hne : l ≠ []
    · rw [if_pos hne] at hs2
      subst hs2
      exact ⟨rfl, rfl, rfl, rfl⟩
    · rw [if_neg hne] at hs2
      subst hs2
      exact ⟨rfl, rfl, rfl, rfl⟩
  by_cases hb : s1.batch_size ≤ s1.pending_trades.length
  · rw [if_pos hb] at h
    unfold flushToDb at h
    by_cases hl : lockHeld = true
    · rw [if_pos hl] at h
      simp at h
    · rw [if_neg hl] at h
      by_cases hp : s1.pending_trades = []
      · rw [if_pos hp] at h
        simp only [] at h
        injection h with h
        obtain ⟨e1, e2, e3, e4⟩ := step _ h
        exact ⟨e1.trans hf.1, e2.trans hf.2.1, e3.trans hf.2.2.1,
          e4.trans hf.2.2.2⟩
      · rw [if_neg hp] at h
        by_cases hdb : dbOk = true
        · rw [if_pos hdb] at h
          simp only [] at h
          injection h with h
          obtain ⟨e1, e2, e3, e4⟩ := step _ h
          exact ⟨e1.trans hf.1, e2.trans hf.2.1, e3.trans hf.2.2.1,
            e4.trans hf.2.2.2⟩
        · rw [if_neg hdb] at h
          simp at h
  · rw [if_neg hb] at h
    simp only [] at h
    injection h with h
    obtain ⟨e1, e2, e3, e4⟩ := step _ h
    exact ⟨e1.trans hf.1, e2.trans hf.2.1, e3.trans hf.2.2.1,
      e4.trans hf.2.2.2⟩

theorem recordTrades_locked_not_err (dbOk : Bool) (s : OrderBook)
    (l : List Trade) (msg : String) (t : OrderBook) :
    recordTrades true dbOk s l ≠ .err msg t := by
  intro h
  simp only [recordTrades] at h
  revert h
  generalize (l.foldl (fun t tr =>
    { t with trades := ringAppend t.buffer_size t.trades tr,
             time_history := ringAppend t.buffer_size t.time_history tr.timestamp,
             price_history := ringAppend t.buffer_size t.price_history tr.price,
             volume_history := ringAppend t.buffer_size t.volume_history tr.quantity,
             pending_trades := t.pending_trades ++ [tr] }) s) = s1
  intro h
  by_cases hb : s1.batch_size ≤ s1.pending_trades.length
  · rw [if_pos hb] at h
    unfold flushToDb at h
    rw [if_pos rfl] at h
    simp at h
  · rw [if_neg hb] at h
    by_cases hne : l ≠ []
    · simp only [if_pos hne] at h
      simp at h
    · simp only [if_neg hne] at h
      simp at h

theorem loopInv_init (isBuy : Bool) (s : OrderBook) (o : Order) (hinv : Inv s)
    (hfresh : lookupKV s.order_map o.order_id = none) (hq : 0 < o.quantity) :
    LoopInv isBuy o (if isBuy then s.bids else s.asks)
      (if isBuy then s.asks else s.bids)
      (insertKV s.order_map o.order_id o) o := by
  have hperm : ((Book.orders (if isBuy then s.bids else s.asks) ++
      Book.orders (if isBuy then s.asks else s.bids))).Perm (allOrders s) := by
    cases isBuy
    · exact List.perm_append_comm
    · exact List.Perm.refl _
  have hmemiff : ∀ x, (x ∈ Book.orders (if isBuy then s.bids else s.asks) ∨
      x ∈ Book.orders (if isBuy then s.asks else s.bids)) ↔ x ∈ allOrders s := by
    intro x
    rw [← List.mem_append]
    exact hperm.mem_iff
  have hfresh2 : o.order_id ∉ (allOrders s).map Order.order_id := by
    intro hmem
    obtain ⟨x, hx, hxid⟩ := List.mem_map.mp hmem
    have := hinv.lookupBwd x hx
    rw [hxid] at this
    rw [hfresh] at this
    exact absurd this (by simp)
  refine ⟨?_, ?_, ?_, ?_, ?_, ?_, ?_, rfl, rfl, rfl, rfl⟩
  · cases isBuy
    · exact hinv.bidsOk
    · exact hinv.asksOk
  · have := hinv.idsNodup
    exact ((hperm.map Order.order_id).nodup_iff).mpr this
  · intro hmem
    refine hfresh2 ?_
    obtain ⟨x, hx, hxid⟩ := List.mem_map.mp hmem
    refine List.mem_map.mpr ⟨x, ?_, hxid⟩
    exact (hmemiff x).mp (List.mem_append.mp hx)
  · exact keysNodup_insertKV s.order_map _ _ hinv.mapKeysNodup
  · intro k v hkv
    by_cases hk : k = o.order_id
    · subst hk
      rw [lookupKV_insert_self] at hkv
      injection hkv with hkv
      exact Or.inl ⟨rfl, hkv.symm, hq⟩
    · rw [lookupKV_insert_ne s.order_map _ _ _ hk] at hkv
      obtain ⟨ha, hb⟩ := hinv.lookupFwd k v hkv
      refine Or.inr ⟨ha, ?_⟩
      exact (hmemiff v).mpr hb
  · intro x hx
    have hxmem : x ∈ allOrders s := (hmemiff x).mp hx
    have hxid : x.order_id ≠ o.order_id := by
      intro h
      refine hfresh2 ?_
      rw [← h]
      exact List.mem_map_of_mem Order.order_id hxmem
    rw [lookupKV_insert_ne s.order_map _ _ _ hxid]
    exact hinv.lookupBwd x hxmem
  · intro _
    exact lookupKV_insert_self s.order_map o.order_id o



theorem fuel_ok (o : Order) (bk : Book) : loopMeasure o bk < bookSize bk + 2 := by
  unfold loopMeasure
  by_cases h : 0 < o.quantity
  · rw [if_pos h]
    omega
  · rw [if_neg h]
    omega

theorem addOrder_ok_dissect (now : ℚ) (dbOk : Bool) (s : OrderBook) (o : Order)
    (ts : List Trade) (s' : OrderBook) (hinv : Inv s)
    (hok : addOrder now dbOk s o = .ok (ts, s')) :
    validateOrder s o = true ∧
    ∃ (isBuy : Bool) (mo : MatchOut),
      o.side = (if isBuy then "buy" else "sell") ∧
      mo = matchLoop (bookSize (if isBuy then s.asks else s.bids) + 2) now isBuy
        o.trader_id o (if isBuy then s.asks else s.bids)
        (insertKV s.order_map o.order_id o) s.last_trade_price ∧
      MatchPost isBuy o.trader_id o (if isBuy then s.bids else s.asks) o
        (if isBuy then s.asks else s.bids) (insertKV s.order_map o.order_id o)
        s.last_trade_price mo ∧
      ts = mo.trades ∧
      s'.order_map = (if 0 < mo.order.quantity then
        insertKV mo.omap o.order_id mo.order else mo.omap) ∧
      s'.last_trade_price = mo.ltp ∧
      (if isBuy then
        s'.asks = mo.book ∧
        s'.bids = (if 0 < mo.order.quantity then
          Book.set s.bids o.price ((Book.find? s.bids o.price).getD [] ++ [mo.order])
          else s.bids)
      else
        s'.bids = mo.book ∧
        s'.asks = (if 0 < mo.order.quantity then
          Book.set s.asks o.price ((Book.find? s.asks o.price).getD [] ++ [mo.order])
          else s.asks)) := by
  by_cases hval : validateOrder s o = true
  · refine ⟨hval, ?_⟩
    obtain ⟨hsides, hp, hq, hfresh⟩ := (validate_iff s o).mp hval
    by_cases hbuy : o.side = "buy"
    · refine ⟨true, ?_⟩
      simp only [addOrder, hval, not_true_eq_false, if_false, hbuy,
        String.reduceEq, reduceIte, decide_True] at hok
      set mo := matchLoop (bookSize s.asks + 2) now true o.trader_id o s.asks
        (insertKV s.order_map o.order_id o) s.last_trade_price with hmo
      have hpost : MatchPost true o.trader_id o s.bids o s.asks
          (insertKV s.order_map o.order_id o) s.last_trade_price mo := by
        have := matchLoop_post now true o.trader_id o s.bids
          (bookSize s.asks + 2) o s.asks (insertKV s.order_map o.order_id o)
          s.last_trade_price
          (by simpa using loopInv_init true s o hinv hfresh hq)
          (fuel_ok o s.asks)
        simpa using this
      refine ⟨mo, by simpa using hbuy, by simpa using hmo, by simpa using hpost, ?_⟩
      rw [hpost.noIndexErr] at hok
      simp only [Bool.false_eq_true, if_false] at hok
      have hmside : mo.order.side = "buy" := hpost.inv.same_side.trans hbuy
      have hmprice : mo.order.price = o.price := hpost.inv.same_price
      by_cases hrest : 0 < mo.order.quantity
      · rw [if_pos hrest] at hok
        simp only [addToBook, hmside, hmprice, String.reduceEq, reduceIte] at hok
        by_cases htr : mo.trades ≠ []
        · rw [if_pos htr] at hok
          cases hrec : recordTrades true dbOk _ mo.trades with
          | ok s3 =>
            rw [hrec] at hok
            injection hok with hok
            injection hok with hok1 hok2
            obtain ⟨e1, e2, e3, e4⟩ := recordTrades_fields _ _ _ _ _ hrec
            subst hok2
            refine ⟨hok1.symm, ?_, ?_, ?_⟩
            · rw [e3, if_pos hrest]
            · rw [e4]
            · rw [if_pos rfl]
              refine ⟨by rw [e2], by rw [e1, if_pos hrest]⟩
          | err m t =>
            rw [hrec] at hok
            exact absurd hok (by simp)
          | hang =>
            rw [hrec] at hok
            exact absurd hok (by simp)
        · rw [if_neg htr] at hok
          injection hok with hok
          injection hok with hok1 hok2
          subst hok2
          refine ⟨hok1.symm, ?_, rfl, ?_⟩
          · rw [if_pos hrest]
          · rw [if_pos rfl]
            refine ⟨rfl, by rw [if_pos hrest]⟩
      · rw [if_neg hrest] at hok
        by_cases htr : mo.trades ≠ []
        · rw [if_pos htr] at hok
          cases hrec : recordTrades true dbOk _ mo.trades with
          | ok s3 =>
            rw [hrec] at hok
            injection hok with hok
            injection hok with hok1 hok2
            obtain ⟨e1, e2, e3, e4⟩ := recordTrades_fields _ _ _ _ _ hrec
            subst hok2
            refine ⟨hok1.symm, ?_, ?_, ?_⟩
            · rw [e3, if_neg hrest]
            · rw [e4]
            · rw [if_pos rfl]
              refine ⟨by rw [e2], by rw [e1, if_neg hrest]⟩
          | err m t =>
            rw [hrec] at hok
            exact absurd hok (by simp)
          | hang =>
            rw [hrec] at hok
            exact absurd hok (by simp)
        · rw [if_neg htr] at hok
          injection hok with hok
          injection hok with hok1 hok2
          subst hok2
          refine ⟨hok1.symm, ?_, rfl, ?_⟩
          · rw [if_neg hrest]
          · rw [if_pos rfl]
            refine ⟨rfl, by rw [if_neg hrest]⟩
    · have hsell : o.side = "sell" := by
        rcases hsides with h | h
        · exact absurd h hbuy
        · exact h
      refine ⟨false, ?_⟩
      simp only [addOrder, hval, not_true_eq_false, if_false, hsell,
        String.reduceEq, reduceIte, decide_False] at hok
      set mo := matchLoop (bookSize s.bids + 2) now false o.trader_id o s.bids
        (insertKV s.order_map o.order_id o) s.last_trade_price with hmo
      have hpost : MatchPost false o.trader_id o s.asks o s.bids
          (insertKV s.order_map o.order_id o) s.last_trade_price mo := by
        have := matchLoop_post now false o.trader_id o s.asks
          (bookSize s.bids + 2) o s.bids (insertKV s.order_map o.order_id o)
          s.last_trade_price
          (by simpa using loopInv_init false s o hinv hfresh hq)
          (fuel_ok o s.bids)
        simpa using this
      refine ⟨mo, by simpa using hsell, by simpa using hmo, by simpa using hpost, ?_⟩
      rw [hpost.noIndexErr] at hok
      simp only [Bool.false_eq_true, if_false] at hok
      have hmside : mo.order.side = "sell" := hpost.inv.same_side.trans hsell
      have hmprice : mo.order.price = o.price := hpost.inv.same_price
      by_cases hrest : 0 < mo.order.quantity
      · rw [if_pos hrest] at hok
        simp only [addToBook, hmside, hmprice, String.reduceEq, reduceIte] at hok
        by_cases htr : mo.trades ≠ []
        · rw [if_pos htr] at hok
          cases hrec : recordTrades true dbOk _ mo.trades with
          | ok s3 =>
            rw [hrec] at hok
            injection hok with hok
            injection hok with hok1 hok2
            obtain ⟨e1, e2, e3, e4⟩ := recordTrades_fields _ _ _ _ _ hrec
            subst hok2
            refine ⟨hok1.symm, ?_, ?_, ?_⟩
            · rw [e3, if_pos hrest]
            · rw [e4]
            · rw [if_neg (by simp)]
              refine ⟨by rw [e1], by rw [e2, if_pos hrest]⟩
          | err m t =>
            rw [hrec] at hok
            exact absurd hok (by simp)
          | hang =>
            rw [hrec] at hok
            exact absurd hok (by simp)
        · rw [if_neg htr] at hok
          injection hok with hok
          injection hok with hok1 hok2
          subst hok2
          refine ⟨hok1.symm, ?_, rfl, ?_⟩
          · rw [if_pos hrest]
          · rw [if_neg (by simp)]
            refine ⟨rfl, by rw [if_pos hrest]⟩
      · rw [if_neg hrest] at hok
        by_cases htr : mo.trades ≠ []
        · rw [if_pos htr] at hok
          cases hrec : recordTrades true dbOk _ mo.trades with
          | ok s3 =>
            rw [hrec] at hok
            injection hok with hok
            injection hok with hok1 hok2
            obtain ⟨e1, e2, e3, e4⟩ := recordTrades_fields _ _ _ _ _ hrec
            subst hok2
            refine ⟨hok1.symm, ?_, ?_, ?_⟩
            · rw [e3, if_neg hrest]
            · rw [e4]
            · rw [if_neg (by simp)]
              refine ⟨by rw [e1], by rw [e2, if_neg hrest]⟩
          | err m t =>
            rw [hrec] at hok
            exact absurd hok (by simp)
          | hang =>
            rw [hrec] at hok
            exact absurd hok (by simp)
        · rw [if_neg htr] at hok
          injection hok with hok
          injection hok with hok1 hok2
          subst hok2
          refine ⟨hok1.symm, ?_, rfl, ?_⟩
          · rw [if_neg hrest]
          · rw [if_neg (by simp)]
            refine ⟨rfl, by rw [if_neg hrest]⟩
  · rw [addOrder, if_pos (by simp [hval])] at hok
    exact absurd hok (by simp)



theorem orders_addToBook (b : Book) (p : ℚ) (oF : Order)
    (hs : (Book.keys b).Pairwise (· < ·)) :
    ((Book.orders (Book.set b p ((Book.find? b p).getD [] ++ [oF])) : List Order) :
      Multiset Order) = {oF} + (Book.orders b : Multiset Order) := by
  cases hfind : Book.find? b p with
  | none =>
    have hfresh : p ∉ Book.keys b := by
      intro hmem
      obtain ⟨⟨x, lvl⟩, hx, hxp⟩ := List.mem_map.mp hmem
      have : Book.find? b p = some lvl := find?_eq_of_mem b p lvl hs (by
        have : x = p := hxp
        rwa [this] at hx)
      rw [hfind] at this
      exact absurd this (by simp)
    simp only [Option.getD_none, List.nil_append]
    have hperm := orders_set_fresh b p [oF] hfresh
    calc ((Book.orders (Book.set b p [oF]) : List Order) : Multiset Order)
        = (([oF] ++ Book.orders b : List Order) : Multiset Order) :=
          Multiset.coe_eq_coe.mpr hperm
      _ = {oF} + (Book.orders b : Multiset Order) := by
          rw [← Multiset.coe_singleton, ← Multiset.coe_add]
  | some lvl =>
    simp only [Option.getD_some]
    have hperm := orders_set_found b p lvl (lvl ++ [oF]) hs hfind
    have hM : ((Book.orders (Book.set b p (lvl ++ [oF])) ++ lvl : List Order) :
        Multiset Order) =
        (((lvl ++ [oF]) ++ Book.orders b : List Order) : Multiset Order) :=
      Multiset.coe_eq_coe.mpr hperm
    rw [← Multiset.coe_add, ← Multiset.coe_add, ← Multiset.coe_add,
      Multiset.coe_singleton] at hM
    have hM2 : (Book.orders (Book.set b p (lvl ++ [oF])) : Multiset Order) +
        (lvl : Multiset Order) =
        (({oF} + (Book.orders b : Multiset Order)) + (lvl : Multiset Order)) := by
      rw [hM]
      exact add_rotate _ _ _
    exact add_right_cancel hM2

theorem mem_cons_multiset (A' A : List Order) (oF : Order)
    (hA' : (A' : Multiset Order) = {oF} + (A : Multiset Order)) (x : Order) :
    x ∈ A' ↔ x = oF ∨ x ∈ A := by
  rw [← Multiset.mem_coe, hA', Multiset.mem_add, Multiset.mem_singleton,
    Multiset.mem_coe]

theorem nodup_cons_multiset (A' A B : List Order) (oF : Order)
    (hA' : (A' : Multiset Order) = {oF} + (A : Multiset Order))
    (hnd : ((A ++ B).map Order.order_id).Nodup)
    (hfresh : oF.order_id ∉ (A ++ B).map Order.order_id) :
    ((A' ++ B).map Order.order_id).Nodup := by
  rw [← Multiset.coe_nodup]
  have hcast : (((A' ++ B).map Order.order_id : List String) : Multiset String) =
      {oF.order_id} + (((A ++ B).map Order.order_id : List String) :
        Multiset String) := by
    rw [List.map_append, ← Multiset.coe_add, List.map_append, ← Multiset.coe_add]
    have : ((A'.map Order.order_id : List String) : Multiset String) =
        {oF.order_id} + ((A.map Order.order_id : List String) : Multiset String) := by
      have := congrArg (Multiset.map Order.order_id) hA'
      rw [Multiset.map_coe, Multiset.map_add, Multiset.map_singleton,
        Multiset.map_coe] at this
      exact this
    rw [this, add_assoc]
  rw [hcast]
  rw [Multiset.nodup_add]
  refine ⟨Multiset.nodup_singleton _, Multiset.coe_nodup.mpr hnd, ?_⟩
  rw [Multiset.disjoint_left]
  intro a ha hmem
  rw [Multiset.mem_singleton] at ha
  subst ha
  exact hfresh (Multiset.mem_coe.mp hmem)

theorem nodup_map_append_comm (A B : List Order)
    (h : ((A ++ B).map Order.order_id).Nodup) :
    ((B ++ A).map Order.order_id).Nodup :=
  (((List.perm_append_comm).map Order.order_id).nodup_iff).mp h



theorem bookOk_addToBook (side : String) (b : Book) (p : ℚ) (oF : Order)
    (hb : bookOk side b) (hpf : oF.price = p) (hsf : oF.side = side)
    (hqf : 0 < oF.quantity) :
    bookOk side (Book.set b p ((Book.find? b p).getD [] ++ [oF])) := by
  refine ⟨sorted_set b p _ hb.1, ?_⟩
  intro q lvl hmem
  have hfind := find?_eq_of_mem _ q lvl (sorted_set b p _ hb.1) hmem
  by_cases hqp : q = p
  · subst hqp
    rw [find?_set_self] at hfind
    injection hfind with hfind
    subst hfind
    refine ⟨by simp, ?_⟩
    intro x hx
    rcases List.mem_append.mp hx with hx | hx
    · cases hfind0 : Book.find? b q with
      | none =>
        rw [hfind0] at hx
        simp at hx
      | some lvl0 =>
        rw [hfind0] at hx
        simp only [Option.getD_some] at hx
        exact (hb.2 q lvl0 (find?_mem b q lvl0 hfind0)).2 x hx
    · rw [List.mem_singleton] at hx
      subst hx
      exact ⟨hpf, hsf, hqf⟩
  · rw [find?_set_ne b p _ q hqp] at hfind
    exact hb.2 q lvl (find?_mem b q lvl hfind)

theorem inv_after_addOrder (isBuy : Bool) (s s' : OrderBook) (o : Order)
    (mo : MatchOut) (hinv : Inv s)
    (hside : o.side = (if isBuy then "buy" else "sell"))
    (mp : MatchPost isBuy o.trader_id o (if isBuy then s.bids else s.asks) o
      (if isBuy then s.asks else s.bids) (insertKV s.order_map o.order_id o)
      s.last_trade_price mo)
    (homap : s'.order_map = (if 0 < mo.order.quantity then
      insertKV mo.omap o.order_id mo.order else mo.omap))
    (hbooks : (if isBuy then
        s'.asks = mo.book ∧ s'.bids = (if 0 < mo.order.quantity then
          Book.set s.bids o.price
            ((Book.find? s.bids o.price).getD [] ++ [mo.order]) else s.bids)
      else
        s'.bids = mo.book ∧ s'.asks = (if 0 < mo.order.quantity then
          Book.set s.asks o.price
            ((Book.find? s.asks o.price).getD [] ++ [mo.order]) else s.asks))) :
    Inv s' := by
  cases isBuy with
  | true =>
    try simp only [reduceIte] at mp
    try simp only [reduceIte] at hside
    try simp only [reduceIte] at hbooks
    obtain ⟨hasks', hbids'⟩ := hbooks
    have li := mp.inv
    try simp only [reduceIte] at li
    have hoFid : mo.order.order_id = o.order_id := li.same_id
    have hoFside : mo.order.side = "buy" := li.same_side.trans hside
    have hoFprice : mo.order.price = o.price := li.same_price
    have hallOrders : allOrders s' = Book.orders s'.bids ++ Book.orders s'.asks := rfl
    by_cases hrest : 0 < mo.order.quantity
    · rw [if_pos hrest] at hbids' homap
      have hA' : (Book.orders s'.bids : Multiset Order) =
          {mo.order} + (Book.orders s.bids : Multiset Order) := by
        rw [hbids']
        exact orders_addToBook s.bids o.price mo.order hinv.bidsOk.1
      have hmemA' := mem_cons_multiset _ _ mo.order hA'
      have hfreshO := li.freshId
      refine ⟨?_, ?_, ?_, ?_, ?_, ?_, ?_⟩
      · rw [hbids']
        exact bookOk_addToBook "buy" s.bids o.price mo.order hinv.bidsOk
          hoFprice hoFside hrest
      · rw [hasks']
        exact li.bkOk
      · intro pb hpb pa hpa
        rw [hasks'] at hpa
        have hpa2 : pa ∈ Book.keys s.asks := mp.keysSub hpa
        rw [hbids'] at hpb
        rcases (mem_keys_set _ _ _ pb).mp hpb with rfl | hpb
        · rcases mp.noCross hrest with hemp | ⟨pbest, lvlb, hbb, hlt⟩
          · rw [hemp] at hpa
            simp [Book.keys] at hpa
          · have hbkne : mo.book ≠ [] := by
              intro hc
              rw [hc] at hpa
              simp [Book.keys] at hpa
            obtain ⟨p2, lvl2, hb2, _, hple2⟩ :=
              best_spec true mo.book li.bkOk.1 hbkne
            try simp only [reduceIte] at hb2
            try simp only [reduceIte] at hple2
            try simp only [reduceIte] at hbb
            try simp only [reduceIte] at hlt
            rw [hbb] at hb2
            injection hb2 with hb2a hb2b
            injection hb2a with hb2a
            have := hple2 pa hpa
            exact lt_of_lt_of_le (hb2a ▸ hlt) this
        · exact hinv.uncrossed pb hpb pa hpa2
      · rw [hallOrders, hasks']
        refine nodup_cons_multiset _ _ _ mo.order hA' li.idsNodup ?_
        rw [hoFid]
        exact hfreshO
      · rw [homap]
        exact keysNodup_insertKV _ _ _ li.mapKeysNodup
      · intro k v hkv
        rw [homap] at hkv
        by_cases hko : k = o.order_id
        · subst hko
          rw [lookupKV_insert_self] at hkv
          injection hkv with hkv
          subst hkv
          refine ⟨hoFid.symm, ?_⟩
          rw [hallOrders]
          refine List.mem_append.mpr (Or.inl ?_)
          exact (hmemA' _).mpr (Or.inl rfl)
        · rw [lookupKV_insert_ne _ _ _ _ hko] at hkv
          rcases li.fwd k v hkv with ⟨ha, _, _⟩ | ⟨ha, hb⟩
          · exact absurd ha hko
          · refine ⟨ha, ?_⟩
            rw [hallOrders]
            refine List.mem_append.mpr ?_
            rcases hb with hb | hb
            · exact Or.inl ((hmemA' v).mpr (Or.inr hb))
            · refine Or.inr ?_
              rw [hasks']
              exact hb
      · intro x hx
        rw [hallOrders] at hx
        rw [homap]
        rcases List.mem_append.mp hx with hx | hx
        · rcases (hmemA' x).mp hx with rfl | hx
          · rw [hoFid]
            exact lookupKV_insert_self _ _ _
          · have hxo : x.order_id ≠ o.order_id := by
              intro h
              refine hfreshO ?_
              rw [List.map_append, List.mem_append]
              exact Or.inl (h ▸ List.mem_map_of_mem Order.order_id hx)
            rw [lookupKV_insert_ne _ _ _ _ hxo]
            exact li.bwd x (Or.inl hx)
        · rw [hasks'] at hx
          have hxo : x.order_id ≠ o.order_id := by
            intro h
            refine hfreshO ?_
            rw [List.map_append, List.mem_append]
            exact Or.inr (h ▸ List.mem_map_of_mem Order.order_id hx)
          rw [lookupKV_insert_ne _ _ _ _ hxo]
          exact li.bwd x (Or.inr hx)
    · rw [if_neg hrest] at hbids' homap
      refine ⟨?_, ?_, ?_, ?_, ?_, ?_, ?_⟩
      · rw [hbids']
        exact hinv.bidsOk
      · rw [hasks']
        exact li.bkOk
      · intro pb hpb pa hpa
        rw [hbids'] at hpb
        rw [hasks'] at hpa
        exact hinv.uncrossed pb hpb pa (mp.keysSub hpa)
      · rw [hallOrders, hbids', hasks']
        exact li.idsNodup
      · rw [homap]
        exact li.mapKeysNodup
      · intro k v hkv
        rw [homap] at hkv
        rcases li.fwd k v hkv with ⟨_, _, hc⟩ | ⟨ha, hb⟩
        · exact absurd hc hrest
        · refine ⟨ha, ?_⟩
          rw [hallOrders, hbids', hasks']
          exact List.mem_append.mpr hb
      · intro x hx
        rw [hallOrders, hbids', hasks'] at hx
        rw [homap]
        exact li.bwd x (List.mem_append.mp hx)
  | false =>
    try simp only [reduceIte] at mp
    try simp only [reduceIte] at hside
    try simp only [reduceIte] at hbooks
    obtain ⟨hbids', hasks'⟩ := hbooks
    have li := mp.inv
    try simp only [reduceIte] at li
    have hoFid : mo.order.order_id = o.order_id := li.same_id
    have hoFside : mo.order.side = "sell" := li.same_side.trans hside
    have hoFprice : mo.order.price = o.price := li.same_price
    have hallOrders : allOrders s' = Book.orders s'.bids ++ Book.orders s'.asks := rfl
    by_cases hrest : 0 < mo.order.quantity
    · rw [if_pos hrest] at hasks' homap
      have hA' : (Book.orders s'.asks : Multiset Order) =
          {mo.order} + (Book.orders s.asks : Multiset Order) := by
        rw [hasks']
        exact orders_addToBook s.asks o.price mo.order hinv.asksOk.1
      have hmemA' := mem_cons_multiset _ _ mo.order hA'
      have hfreshO := li.freshId
      refine ⟨?_, ?_, ?_, ?_, ?_, ?_, ?_⟩
      · rw [hbids']
        exact li.bkOk
      · rw [hasks']
        exact bookOk_addToBook "sell" s.asks o.price mo.order hinv.asksOk
          hoFprice hoFside hrest
      · intro pb hpb pa hpa
        rw [hbids'] at hpb
        have hpb2 : pb ∈ Book.keys s.bids := mp.keysSub hpb
        rw [hasks'] at hpa
        rcases (mem_keys_set _ _ _ pa).mp hpa with rfl | hpa
        · rcases mp.noCross hrest with hemp | ⟨pbest, lvlb, hbb, hlt⟩
          · rw [hemp] at hpb
            simp [Book.keys] at hpb
          · have hbkne : mo.book ≠ [] := by
              intro hc
              rw [hc] at hpb
              simp [Book.keys] at hpb
            obtain ⟨p2, lvl2, hb2, _, hple2⟩ :=
              best_spec false mo.book li.bkOk.1 hbkne
            try simp only [reduceIte] at hb2
            try simp only [reduceIte] at hple2
            try simp only [reduceIte] at hbb
            try simp only [reduceIte] at hlt
            rw [hbb] at hb2
            injection hb2 with hb2a hb2b
            injection hb2a with hb2a
            have := hple2 pb hpb
            exact lt_of_le_of_lt (hb2a ▸ this) hlt
        · exact hinv.uncrossed pb hpb2 pa hpa
      · rw [hallOrders, hbids']
        refine nodup_map_append_comm _ _ ?_
        refine nodup_cons_multiset _ _ _ mo.order hA' li.idsNodup ?_
        rw [hoFid]
        exact hfreshO
      · rw [homap]
        exact keysNodup_insertKV _ _ _ li.mapKeysNodup
      · intro k v hkv
        rw [homap] at hkv
        by_cases hko : k = o.order_id
        · subst hko
          rw [lookupKV_insert_self] at hkv
          injection hkv with hkv
          subst hkv
          refine ⟨hoFid.symm, ?_⟩
          rw [hallOrders]
          refine List.mem_append.mpr (Or.inr ?_)
          exact (hmemA' _).mpr (Or.inl rfl)
        · rw [lookupKV_insert_ne _ _ _ _ hko] at hkv
          rcases li.fwd k v hkv with ⟨ha, _, _⟩ | ⟨ha, hb⟩
          · exact absurd ha hko
          · refine ⟨ha, ?_⟩
            rw [hallOrders]
            refine List.mem_append.mpr ?_
            rcases hb with hb | hb
            · exact Or.inr ((hmemA' v).mpr (Or.inr hb))
            · refine Or.inl ?_
              rw [hbids']
              exact hb
      · intro x hx
        rw [hallOrders] at hx
        rw [homap]
        rcases List.mem_append.mp hx with hx | hx
        · rw [hbids'] at hx
          have hxo : x.order_id ≠ o.order_id := by
            intro h
            refine hfreshO ?_
            rw [List.map_append, List.mem_append]
            exact Or.inr (h ▸ List.mem_map_of_mem Order.order_id hx)
          rw [lookupKV_insert_ne _ _ _ _ hxo]
          exact li.bwd x (Or.inr hx)
        · rcases (hmemA' x).mp hx with rfl | hx
          · rw [hoFid]
            exact lookupKV_insert_self _ _ _
          · have hxo : x.order_id ≠ o.order_id := by
              intro h
              refine hfreshO ?_
              rw [List.map_append, List.mem_append]
              exact Or.inl (h ▸ List.mem_map_of_mem Order.order_id hx)
            rw [lookupKV_insert_ne _ _ _ _ hxo]
            exact li.bwd x (Or.inl hx)
    · rw [if_neg hrest] at hasks' homap
      refine ⟨?_, ?_, ?_, ?_, ?_, ?_, ?_⟩
      · rw [hbids']
        exact li.bkOk
      · rw [hasks']
        exact hinv.asksOk
      · intro pb hpb pa hpa
        rw [hbids'] at hpb
        rw [hasks'] at hpa
        exact hinv.uncrossed pb (mp.keysSub hpb) pa hpa
      · rw [hallOrders, hbids', hasks']
        refine nodup_map_append_comm _ _ ?_
        exact li.idsNodup
      · rw [homap]
        exact li.mapKeysNodup
      · intro k v hkv
        rw [homap] at hkv
        rcases li.fwd k v hkv with ⟨_, _, hc⟩ | ⟨ha, hb⟩
        · exact absurd hc hrest
        · refine ⟨ha, ?_⟩
          rw [hallOrders, hbids', hasks']
          refine List.mem_append.mpr ?_
          rcases hb with hb | hb
          · exact Or.inr hb
          · exact Or.inl hb
      · intro x hx
        rw [hallOrders, hbids', hasks'] at hx
        rw [homap]
        rcases List.mem_append.mp hx with hx | hx
        · exact li.bwd x (Or.inr hx)
        · exact li.bwd x (Or.inl hx)



theorem level_sub_orders (bk : Book) (p : ℚ) (lvl : List Order)
    (hs : (Book.keys bk).Pairwise (· < ·))
    (hf : Book.find? bk p = some lvl) :
    (lvl : Multiset Order) ≤ (Book.orders bk : Multiset Order) := by
  have hperm := orders_erase_found bk p lvl hs hf
  have hcoe : ((Book.orders (Book.erase bk p) ++ lvl : List Order) :
      Multiset Order) = (Book.orders bk : Multiset Order) :=
    Multiset.coe_eq_coe.mpr hperm
  rw [← Multiset.coe_add] at hcoe
  rw [← hcoe]
  exact Multiset.le_add_left _ _

theorem cancel_book_prm (bk : Book) (p : ℚ) (lvl : List Order) (oid : String)
    (hs : (Book.keys bk).Pairwise (· < ·))
    (hf : Book.find? bk p = some lvl) :
    (Book.orders (if lvl.filter (fun y => y.order_id ≠ oid) = [] then
        Book.erase bk p
      else Book.set bk p (lvl.filter (fun y => y.order_id ≠ oid))) :
        Multiset Order) + (lvl : Multiset Order) =
      ((lvl.filter (fun y => y.order_id ≠ oid) : List Order) : Multiset Order) +
        (Book.orders bk : Multiset Order) := by
  by_cases hL : lvl.filter (fun y => y.order_id ≠ oid) = []
  · rw [if_pos hL, hL]
    have hperm := orders_erase_found bk p lvl hs hf
    have hcoe : ((Book.orders (Book.erase bk p) ++ lvl : List Order) :
        Multiset Order) = (Book.orders bk : Multiset Order) :=
      Multiset.coe_eq_coe.mpr hperm
    rw [← Multiset.coe_add] at hcoe
    rw [hcoe]
    simp
  · rw [if_neg hL]
    have hperm := orders_set_found bk p lvl
      (lvl.filter (fun y => y.order_id ≠ oid)) hs hf
    have hcoe := Multiset.coe_eq_coe.mpr hperm
    rw [← Multiset.coe_add, ← Multiset.coe_add] at hcoe
    exact hcoe

theorem bookOk_cancel (side : String) (bk : Book) (p : ℚ) (lvl : List Order)
    (oid : String) (hb : bookOk side bk)
    (hf : Book.find? bk p = some lvl) :
    bookOk side (if lvl.filter (fun y => y.order_id ≠ oid) = [] then
      Book.erase bk p
    else Book.set bk p (lvl.filter (fun y => y.order_id ≠ oid))) := by
  by_cases hL : lvl.filter (fun y => y.order_id ≠ oid) = []
  · rw [if_pos hL]
    refine ⟨sorted_erase bk p hb.1, ?_⟩
    intro q lvl2 hmem
    have hfind := find?_eq_of_mem _ q lvl2 (sorted_erase bk p hb.1) hmem
    by_cases hqp : q = p
    · subst hqp
      rw [find?_erase_self bk q hb.1] at hfind
      exact absurd hfind (by simp)
    · rw [find?_erase_ne bk p q hqp] at hfind
      exact hb.2 q lvl2 (find?_mem bk q lvl2 hfind)
  · rw [if_neg hL]
    refine ⟨sorted_set bk p _ hb.1, ?_⟩
    intro q lvl2 hmem
    have hfind := find?_eq_of_mem _ q lvl2 (sorted_set bk p _ hb.1) hmem
    by_cases hqp : q = p
    · subst hqp
      rw [find?_set_self] at hfind
      injection hfind with hfind
      rw [← hfind]
      refine ⟨hL, ?_⟩
      intro x hx
      exact (hb.2 q lvl (find?_mem bk q lvl hf)).2 x (List.mem_of_mem_filter hx)
    · rw [find?_set_ne bk p _ q hqp] at hfind
      exact hb.2 q lvl2 (find?_mem bk q lvl2 hfind)

theorem keys_cancel_subset (bk : Book) (p : ℚ) (lvl : List Order) (oid : String)
    (hf : Book.find? bk p = some lvl) :
    Book.keys (if lvl.filter (fun y => y.order_id ≠ oid) = [] then
      Book.erase bk p
    else Book.set bk p (lvl.filter (fun y => y.order_id ≠ oid))) ⊆
      Book.keys bk := by
  by_cases hL : lvl.filter (fun y => y.order_id ≠ oid) = []
  · rw [if_pos hL]
    exact (keys_erase_sublist bk p).subset
  · rw [if_neg hL]
    exact keys_set_subset_of_found bk p _ lvl hf

theorem count_filter_id_eq (lvl : List Order) (oid : String) (x : Order)
    (hx : x.order_id ≠ oid) :
    Multiset.count x ((lvl.filter (fun y => y.order_id ≠ oid) : List Order) :
      Multiset Order) = Multiset.count x (lvl : Multiset Order) := by
  have hcoe : ((lvl.filter (fun y => y.order_id ≠ oid) : List Order) :
      Multiset Order) =
      Multiset.filter (fun y => y.order_id ≠ oid) (lvl : Multiset Order) :=
    (Multiset.filter_coe _ _).symm
  rw [hcoe, Multiset.count_filter, if_pos hx]

theorem count_filter_id_zero (lvl : List Order) (oid : String) (x : Order)
    (hx : x.order_id = oid) :
    Multiset.count x ((lvl.filter (fun y => y.order_id ≠ oid) : List Order) :
      Multiset Order) = 0 := by
  have hcoe : ((lvl.filter (fun y => y.order_id ≠ oid) : List Order) :
      Multiset Order) =
      Multiset.filter (fun y => y.order_id ≠ oid) (lvl : Multiset Order) :=
    (Multiset.filter_coe _ _).symm
  rw [hcoe, Multiset.count_filter, if_neg (by simp [hx])]

theorem cancel_mem_forward (bk : Book) (p : ℚ) (lvl : List Order) (oid : String)
    (o₀ : Order)
    (hs : (Book.keys bk).Pairwise (· < ·))
    (hf : Book.find? bk p = some lvl)
    (hnd : ((Book.orders bk).map Order.order_id).Nodup)
    (ho₀l : o₀ ∈ lvl) (ho₀id : o₀.order_id = oid) :
    ∀ x ∈ Book.orders (if lvl.filter (fun y => y.order_id ≠ oid) = [] then
        Book.erase bk p
      else Book.set bk p (lvl.filter (fun y => y.order_id ≠ oid))),
      x ∈ Book.orders bk ∧ x.order_id ≠ oid := by
  intro x hx
  have hprm := cancel_book_prm bk p lvl oid hs hf
  have hc := congrArg (Multiset.count x) hprm
  rw [Multiset.count_add, Multiset.count_add] at hc
  have hx1 : 1 ≤ Multiset.count x (Book.orders
      (if lvl.filter (fun y => y.order_id ≠ oid) = [] then Book.erase bk p
        else Book.set bk p (lvl.filter (fun y => y.order_id ≠ oid))) :
      Multiset Order) :=
    Multiset.one_le_count_iff_mem.mpr (Multiset.mem_coe.mpr hx)
  have hlvl_le := level_sub_orders bk p lvl hs hf
  have hcount_lvl_le : Multiset.count x (lvl : Multiset Order) ≤
      Multiset.count x (Book.orders bk : Multiset Order) :=
    Multiset.count_le_of_le x hlvl_le
  have hfilter_le : Multiset.count x
      ((lvl.filter (fun y => y.order_id ≠ oid) : List Order) :
        Multiset Order) ≤ Multiset.count x (lvl : Multiset Order) :=
    Multiset.count_le_of_le x
      (Multiset.coe_le.mpr (lvl.filter_sublist).subperm)
  have hxbk : x ∈ Book.orders bk := by
    by_contra hxbk
    have h0 : Multiset.count x (Book.orders bk : Multiset Order) = 0 :=
      Multiset.count_eq_zero.mpr (fun hcm => hxbk (Multiset.mem_coe.mp hcm))
    omega
  refine ⟨hxbk, fun hid => ?_⟩
  have ho₀bk : o₀ ∈ Book.orders bk :=
    Multiset.mem_coe.mp (Multiset.mem_of_le hlvl_le (Multiset.mem_coe.mpr ho₀l))
  have hxo₀ : x = o₀ := nodup_inj_ids hnd hxbk ho₀bk (by rw [hid, ho₀id])
  have hxlvl : x ∈ lvl := hxo₀ ▸ ho₀l
  have hcl : 1 ≤ Multiset.count x (lvl : Multiset Order) :=
    Multiset.one_le_count_iff_mem.mpr (Multiset.mem_coe.mpr hxlvl)
  have hcbk : Multiset.count x (Book.orders bk : Multiset Order) ≤ 1 :=
    Multiset.nodup_iff_count_le_one.mp (Multiset.coe_nodup.mpr hnd.of_map) x
  have h0 := count_filter_id_zero lvl oid x hid
  omega

theorem cancel_mem_backward (bk : Book) (p : ℚ) (lvl : List Order)
    (oid : String)
    (hs : (Book.keys bk).Pairwise (· < ·))
    (hf : Book.find? bk p = some lvl) :
    ∀ x ∈ Book.orders bk, x.order_id ≠ oid →
      x ∈ Book.orders (if lvl.filter (fun y => y.order_id ≠ oid) = [] then
        Book.erase bk p
      else Book.set bk p (lvl.filter (fun y => y.order_id ≠ oid))) := by
  intro x hx hid
  have hprm := cancel_book_prm bk p lvl oid hs hf
  have hc := congrArg (Multiset.count x) hprm
  rw [Multiset.count_add, Multiset.count_add] at hc
  have heqf := count_filter_id_eq lvl oid x hid
  have h1 : 1 ≤ Multiset.count x (Book.orders bk : Multiset Order) :=
    Multiset.one_le_count_iff_mem.mpr (Multiset.mem_coe.mpr hx)
  have : 1 ≤ Multiset.count x (Book.orders
      (if lvl.filter (fun y => y.order_id ≠ oid) = [] then Book.erase bk p
        else Book.set bk p (lvl.filter (fun y => y.order_id ≠ oid))) :
      Multiset Order) := by omega
  exact Multiset.mem_coe.mp (Multiset.one_le_count_iff_mem.mp this)

theorem cancel_ids_le (bk : Book) (p : ℚ) (lvl : List Order) (oid : String)
    (hs : (Book.keys bk).Pairwise (· < ·))
    (hf : Book.find? bk p = some lvl) :
    (((Book.orders (if lvl.filter (fun y => y.order_id ≠ oid) = [] then
        Book.erase bk p
      else Book.set bk p (lvl.filter (fun y => y.order_id ≠ oid)))).map
        Order.order_id : List String) : Multiset String) ≤
      (((Book.orders bk).map Order.order_id : List String) :
        Multiset String) := by
  have hprm := cancel_book_prm bk p lvl oid hs hf
  have hmap := congrArg (Multiset.map Order.order_id) hprm
  rw [Multiset.map_add, Multiset.map_add, Multiset.map_coe, Multiset.map_coe,
    Multiset.map_coe, Multiset.map_coe] at hmap
  have hfle : (((lvl.filter (fun y => y.order_id ≠ oid)).map Order.order_id :
      List String) : Multiset String) ≤
      ((lvl.map Order.order_id : List String) : Multiset String) :=
    Multiset.coe_le.mpr ((lvl.filter_sublist).map Order.order_id).subperm
  refine Multiset.le_iff_count.mpr (fun a => ?_)
  have hc := congrArg (Multiset.count a) hmap
  rw [Multiset.count_add, Multiset.count_add] at hc
  have := Multiset.count_le_of_le a hfle
  omega

theorem idsNodup_mono {A' A B' B : List Order}
    (hleA : ((A'.map Order.order_id : List String) : Multiset String) ≤
      ((A.map Order.order_id : List String) : Multiset String))
    (hleB : ((B'.map Order.order_id : List String) : Multiset String) ≤
      ((B.map Order.order_id : List String) : Multiset String))
    (h : (((A ++ B).map Order.order_id)).Nodup) :
    (((A' ++ B').map Order.order_id)).Nodup := by
  have hN : (((A ++ B).map Order.order_id : List String) :
      Multiset String).Nodup := Multiset.coe_nodup.mpr h
  have hle : (((A' ++ B').map Order.order_id : List String) :
      Multiset String) ≤
      (((A ++ B).map Order.order_id : List String) : Multiset String) := by
    rw [List.map_append, List.map_append, ← Multiset.coe_add, ← Multiset.coe_add]
    exact add_le_add hleA hleB
  exact Multiset.coe_nodup.mp (Multiset.nodup_of_le hle hN)


theorem cancelOrder_none (s : OrderBook) (oid : String)
    (hl : lookupKV s.order_map oid = none) :
    cancelOrder s oid = (false, s) := by
  unfold cancelOrder
  rw [hl]

theorem cancelOrder_found (s : OrderBook) (oid : String) (o₀ : Order)
    (hinv : Inv s) (hl : lookupKV s.order_map oid = some o₀) :
    ∃ s', cancelOrder s oid = (true, s') ∧
      Inv s' ∧
      lookupKV s'.order_map oid = none ∧
      (∀ k, k ≠ oid → lookupKV s'.order_map k = lookupKV s.order_map k) ∧
      (∀ x ∈ allOrders s', x ∈ allOrders s ∧ x.order_id ≠ oid) ∧
      (∀ x ∈ allOrders s, x.order_id ≠ oid → x ∈ allOrders s') ∧
      s'.events = s.events ++ [Event.cancel oid] ∧
      s'.trades = s.trades ∧ s'.pending_trades = s.pending_trades ∧
      s'.db = s.db ∧ s'.last_trade_price = s.last_trade_price := by
  obtain ⟨hid, hmem⟩ := hinv.lookupFwd oid o₀ hl
  have hndb : ((Book.orders s.bids).map Order.order_id).Nodup := by
    have := hinv.idsNodup
    rw [allOrders, List.map_append, List.nodup_append] at this
    exact this.1
  have hnda : ((Book.orders s.asks).map Order.order_id).Nodup := by
    have := hinv.idsNodup
    rw [allOrders, List.map_append, List.nodup_append] at this
    exact this.2.1
  rcases List.mem_append.mp hmem with hbm | ham
  · -- buy side
    obtain ⟨p, lvl, hplvl, ho₀l⟩ := (mem_orders_iff _ o₀).mp hbm
    have hlv := hinv.bidsOk.2 p lvl hplvl
    have hpp : o₀.price = p := (hlv.2 o₀ ho₀l).1
    have hside : o₀.side = "buy" := (hlv.2 o₀ ho₀l).2.1
    have hfind : Book.find? s.bids o₀.price = some lvl := by
      rw [hpp]; exact find?_eq_of_mem _ p lvl hinv.bidsOk.1 hplvl
    refine ⟨{ s with
        bids := if lvl.filter (fun y => y.order_id ≠ oid) = [] then
            Book.erase s.bids o₀.price
          else Book.set s.bids o₀.price
            (lvl.filter (fun y => y.order_id ≠ oid)),
        order_map := eraseKV s.order_map oid,
        events := s.events ++ [Event.cancel oid] }, ?_, ?_, ?_, ?_, ?_, ?_,
      rfl, rfl, rfl, rfl, rfl⟩
    · unfold cancelOrder
      rw [hl]
      dsimp only
      rw [hside]
      simp only [String.reduceEq, reduceIte, if_pos]
      rw [hfind]
    · -- Inv
      have hfwd := cancel_mem_forward s.bids o₀.price lvl oid o₀
        hinv.bidsOk.1 hfind hndb ho₀l hid.symm
      have hbwd := cancel_mem_backward s.bids o₀.price lvl oid
        hinv.bidsOk.1 hfind
      refine ⟨bookOk_cancel "buy" s.bids o₀.price lvl oid hinv.bidsOk hfind,
        hinv.asksOk, ?_, ?_, ?_, ?_, ?_⟩
      · intro pb hpb pa hpa
        exact hinv.uncrossed pb
          (keys_cancel_subset s.bids o₀.price lvl oid hfind hpb) pa hpa
      · exact idsNodup_mono
          (cancel_ids_le s.bids o₀.price lvl oid hinv.bidsOk.1 hfind)
          (le_refl _) hinv.idsNodup
      · exact keysNodup_eraseKV s.order_map oid hinv.mapKeysNodup
      · intro k v hk
        by_cases hko : k = oid
        · rw [hko, lookupKV_erase_self s.order_map oid hinv.mapKeysNodup] at hk
          exact absurd hk (by simp)
        · rw [lookupKV_erase_ne s.order_map oid k hko] at hk
          obtain ⟨hkv, hvmem⟩ := hinv.lookupFwd k v hk
          refine ⟨hkv, ?_⟩
          have hvne : v.order_id ≠ oid := fun hc => hko (hkv.trans hc)
          rcases List.mem_append.mp hvmem with hv | hv
          · exact List.mem_append.mpr (Or.inl (hbwd v hv hvne))
          · exact List.mem_append.mpr (Or.inr hv)
      · intro x hx
        have hxs : x ∈ allOrders s ∧ x.order_id ≠ oid := by
          rcases List.mem_append.mp hx with hx | hx
          · obtain ⟨h1, h2⟩ := hfwd x hx
            exact ⟨List.mem_append.mpr (Or.inl h1), h2⟩
          · refine ⟨List.mem_append.mpr (Or.inr hx), fun hc => ?_⟩
            have hxo₀ : x = o₀ := nodup_inj_ids hinv.idsNodup
              (List.mem_append.mpr (Or.inr hx)) hmem (by rw [hc, hid])
            exact nodup_append_ne hinv.idsNodup hbm hx (hxo₀ ▸ rfl)
        rw [lookupKV_erase_ne s.order_map oid x.order_id hxs.2]
        exact hinv.lookupBwd x hxs.1
    · exact lookupKV_erase_self s.order_map oid hinv.mapKeysNodup
    · intro k hk
      exact lookupKV_erase_ne s.order_map oid k hk
    · intro x hx
      have hfwd := cancel_mem_forward s.bids o₀.price lvl oid o₀
        hinv.bidsOk.1 hfind hndb ho₀l hid.symm
      rcases List.mem_append.mp hx with hx | hx
      · obtain ⟨h1, h2⟩ := hfwd x hx
        exact ⟨List.mem_append.mpr (Or.inl h1), h2⟩
      · refine ⟨List.mem_append.mpr (Or.inr hx), fun hc => ?_⟩
        have hxo₀ : x = o₀ := nodup_inj_ids hinv.idsNodup
          (List.mem_append.mpr (Or.inr hx)) hmem (by rw [hc, hid])
        exact nodup_append_ne hinv.idsNodup hbm hx (hxo₀ ▸ rfl)
    · intro x hx hxne
      have hbwd := cancel_mem_backward s.bids o₀.price lvl oid
        hinv.bidsOk.1 hfind
      rcases List.mem_append.mp hx with hx | hx
      · exact List.mem_append.mpr (Or.inl (hbwd x hx hxne))
      · exact List.mem_append.mpr (Or.inr hx)
  · -- sell side
    obtain ⟨p, lvl, hplvl, ho₀l⟩ := (mem_orders_iff _ o₀).mp ham
    have hlv := hinv.asksOk.2 p lvl hplvl
    have hpp : o₀.price = p := (hlv.2 o₀ ho₀l).1
    have hside : o₀.side = "sell" := (hlv.2 o₀ ho₀l).2.1
    have hfind : Book.find? s.asks o₀.price = some lvl := by
      rw [hpp]; exact find?_eq_of_mem _ p lvl hinv.asksOk.1 hplvl
    refine ⟨{ s with
        asks := if lvl.filter (fun y => y.order_id ≠ oid) = [] then
            Book.erase s.asks o₀.price
          else Book.set s.asks o₀.price
            (lvl.filter (fun y => y.order_id ≠ oid)),
        order_map := eraseKV s.order_map oid,
        events := s.events ++ [Event.cancel oid] }, ?_, ?_, ?_, ?_, ?_, ?_,
      rfl, rfl, rfl, rfl, rfl⟩
    · unfold cancelOrder
      rw [hl]
      dsimp only
      rw [hside]
      simp only [String.reduceEq, reduceIte, if_neg]
      rw [hfind]
    · have hfwd := cancel_mem_forward s.asks o₀.price lvl oid o₀
        hinv.asksOk.1 hfind hnda ho₀l hid.symm
      have hbwd := cancel_mem_backward s.asks o₀.price lvl oid
        hinv.asksOk.1 hfind
      refine ⟨hinv.bidsOk,
        bookOk_cancel "sell" s.asks o₀.price lvl oid hinv.asksOk hfind,
        ?_, ?_, ?_, ?_, ?_⟩
      · intro pb hpb pa hpa
        exact hinv.uncrossed pb hpb pa
          (keys_cancel_subset s.asks o₀.price lvl oid hfind hpa)
      · exact idsNodup_mono (le_refl _)
          (cancel_ids_le s.asks o₀.price lvl oid hinv.asksOk.1 hfind)
          hinv.idsNodup
      · exact keysNodup_eraseKV s.order_map oid hinv.mapKeysNodup
      · intro k v hk
        by_cases hko : k = oid
        · rw [hko, lookupKV_erase_self s.order_map oid hinv.mapKeysNodup] at hk
          exact absurd hk (by simp)
        · rw [lookupKV_erase_ne s.order_map oid k hko] at hk
          obtain ⟨hkv, hvmem⟩ := hinv.lookupFwd k v hk
          refine ⟨hkv, ?_⟩
          have hvne : v.order_id ≠ oid := fun hc => hko (hkv.trans hc)
          rcases List.mem_append.mp hvmem with hv | hv
          · exact List.mem_append.mpr (Or.inl hv)
          · exact List.mem_append.mpr (Or.inr (hbwd v hv hvne))
      · intro x hx
        have hxs : x ∈ allOrders s ∧ x.order_id ≠ oid := by
          rcases List.mem_append.mp hx with hx | hx
          · refine ⟨List.mem_append.mpr (Or.inl hx), fun hc => ?_⟩
            have hxo₀ : x = o₀ := nodup_inj_ids hinv.idsNodup
              (List.mem_append.mpr (Or.inl hx)) hmem (by rw [hc, hid])
            exact nodup_append_ne hinv.idsNodup hx ham (by rw [hxo₀])
          · obtain ⟨h1, h2⟩ := hfwd x hx
            exact ⟨List.mem_append.mpr (Or.inr h1), h2⟩
        rw [lookupKV_erase_ne s.order_map oid x.order_id hxs.2]
        exact hinv.lookupBwd x hxs.1
    · exact lookupKV_erase_self s.order_map oid hinv.mapKeysNodup
    · intro k hk
      exact lookupKV_erase_ne s.order_map oid k hk
    · intro x hx
      have hfwd := cancel_mem_forward s.asks o₀.price lvl oid o₀
        hinv.asksOk.1 hfind hnda ho₀l hid.symm
      rcases List.mem_append.mp hx with hx | hx
      · refine ⟨List.mem_append.mpr (Or.inl hx), fun hc => ?_⟩
        have hxo₀ : x = o₀ := nodup_inj_ids hinv.idsNodup
          (List.mem_append.mpr (Or.inl hx)) hmem (by rw [hc, hid])
        exact nodup_append_ne hinv.idsNodup hx ham (by rw [hxo₀])
      · obtain ⟨h1, h2⟩ := hfwd x hx
        exact ⟨List.mem_append.mpr (Or.inr h1), h2⟩
    · intro x hx hxne
      have hbwd := cancel_mem_backward s.asks o₀.price lvl oid
        hinv.asksOk.1 hfind
      rcases List.mem_append.mp hx with hx | hx
      · exact List.mem_append.mpr (Or.inl hx)
      · exact List.mem_append.mpr (Or.inr (hbwd x hx hxne))


theorem inv_emptyBook : Inv emptyBook := by
  constructor
  · exact ⟨List.Pairwise.nil, by simp [emptyBook]⟩
  · exact ⟨List.Pairwise.nil, by simp [emptyBook]⟩
  · intro pb hpb pa hpa
    simp [emptyBook, Book.keys] at hpb
  · simp [allOrders, emptyBook, Book.orders]
  · simp [emptyBook]
  · intro oid o h
    simp [emptyBook, lookupKV] at h
  · intro o h
    simp [allOrders, emptyBook, Book.orders] at h

theorem inv_book_m1 : Inv book_m1 := by
  have hall : allOrders book_m1 = [m1] := rfl
  constructor
  · exact ⟨List.Pairwise.nil, by simp [book_m1, emptyBook]⟩
  · refine ⟨by simp [book_m1, emptyBook, Book.keys], ?_⟩
    intro p lvl h
    have h2 : (p, lvl) = ((100 : ℚ), [m1]) := List.mem_singleton.mp h
    injection h2 with h2a h2b
    subst h2a
    subst h2b
    refine ⟨by simp, ?_⟩
    intro o ho
    rcases List.mem_singleton.mp ho with rfl
    exact ⟨rfl, rfl, by norm_num [m1]⟩
  · intro pb hpb pa hpa
    simp [book_m1, emptyBook, Book.keys] at hpb
  · rw [hall]
    simp
  · simp [book_m1, emptyBook]
  · intro oid o h
    by_cases hd : oid = "m1"
    · subst hd
      simp only [book_m1, emptyBook, lookupKV, if_pos rfl] at h
      injection h with h
      subst h
      exact ⟨rfl, by rw [hall]; simp⟩
    · simp only [book_m1, emptyBook, lookupKV, if_neg hd] at h
      exact absurd h (by simp)
  · intro o ho
    rw [hall] at ho
    rcases List.mem_singleton.mp ho with rfl
    simp [book_m1, emptyBook, lookupKV, m1]

theorem registry_absent_of_filled (isBuy : Bool) (o₀ : Order) (sb bk : Book)
    (omap : List (String × Order)) (o : Order)
    (li : LoopInv isBuy o₀ sb bk omap o) (h : ¬ 0 < o.quantity) :
    lookupKV omap o₀.order_id = none := by
  cases hl : lookupKV omap o₀.order_id with
  | none => rfl
  | some v =>
    rcases li.fwd _ _ hl with ⟨_, _, hq⟩ | ⟨hid, hmem⟩
    · exact absurd hq h
    · refine absurd ?_ li.freshId
      rw [hid]
      exact List.mem_map_of_mem _ (List.mem_append.mpr hmem)

theorem lookupKV_isSome_of_mem (m : List (String × Order)) (k : String)
    (h : k ∈ m.map Prod.fst) : ∃ v, lookupKV m k = some v := by
  induction m with
  | nil => simp at h
  | cons a rest ih =>
    by_cases hk : k = a.1
    · exact ⟨a.2, by simp [lookupKV, hk]⟩
    · simp only [List.map_cons, List.mem_cons] at h
      rcases h with h | h
      · exact absurd h hk
      · simpa [lookupKV, hk] using ih h

theorem keyset_eq_of_inv (t : OrderBook) (hinv : Inv t) :
    ∀ k, k ∈ t.order_map.map Prod.fst ↔ k ∈ (allOrders t).map Order.order_id := by
  intro k
  constructor
  · intro hk
    obtain ⟨v, hv⟩ := lookupKV_isSome_of_mem t.order_map k hk
    obtain ⟨h1, h2⟩ := hinv.lookupFwd k v hv
    rw [h1]
    exact List.mem_map_of_mem _ h2
  · intro hk
    obtain ⟨x, hx, hxid⟩ := List.mem_map.mp hk
    have := hinv.lookupBwd x hx
    rw [hxid] at this
    exact lookupKV_mem_keys t.order_map k x this

theorem registry_absent_of_not_resting (t : OrderBook) (hinv : Inv t)
    (X : String) (h : X ∉ (allOrders t).map Order.order_id) :
    lookupKV t.order_map X = none := by
  refine lookupKV_eq_none t.order_map X (fun hc => h ?_)
  exact (keyset_eq_of_inv t hinv X).mp hc

theorem addOrder_err_char (now : ℚ) (dbOk : Bool) (s : OrderBook) (o : Order)
    (hinv : Inv s) (msg : String) (t : OrderBook)
    (herr : addOrder now dbOk s o = .err msg t) :
    validateOrder s o = false ∧ t = s ∧
      msg = "Invalid order: must have valid side, price, and quantity" := by
  by_cases hval : validateOrder s o = true
  · exfalso
    obtain ⟨hsides, hp, hq, hfresh⟩ := (validate_iff s o).mp hval
    by_cases hbuy : o.side = "buy"
    · simp only [addOrder, hval, not_true_eq_false, if_false, hbuy,
        String.reduceEq, reduceIte, decide_True] at herr
      set mo := matchLoop (bookSize s.asks + 2) now true o.trader_id o s.asks
        (insertKV s.order_map o.order_id o) s.last_trade_price with hmo
      have hpost : MatchPost true o.trader_id o s.bids o s.asks
          (insertKV s.order_map o.order_id o) s.last_trade_price mo := by
        have := matchLoop_post now true o.trader_id o s.bids
          (bookSize s.asks + 2) o s.asks (insertKV s.order_map o.order_id o)
          s.last_trade_price
          (by simpa using loopInv_init true s o hinv hfresh hq)
          (fuel_ok o s.asks)
        simpa using this
      rw [hpost.noIndexErr] at herr
      simp only [Bool.false_eq_true, if_false] at herr
      by_cases htr : mo.trades ≠ []
      · rw [if_pos htr] at herr
        cases hrec : recordTrades true dbOk _ mo.trades with
        | ok s3 =>
          rw [hrec] at herr
          exact absurd herr (by simp)
        | err m2 t2 =>
          exact recordTrades_locked_not_err dbOk _ mo.trades m2 t2 hrec
        | hang =>
          rw [hrec] at herr
          exact absurd herr (by simp)
      · rw [if_neg htr] at herr
        exact absurd herr (by simp)
    · have hsell : o.side = "sell" := by
        rcases hsides with h | h
        · exact absurd h hbuy
        · exact h
      simp only [addOrder, hval, not_true_eq_false, if_false, hsell,
        String.reduceEq, reduceIte, decide_False] at herr
      set mo := matchLoop (bookSize s.bids + 2) now false o.trader_id o s.bids
        (insertKV s.order_map o.order_id o) s.last_trade_price with hmo
      have hpost : MatchPost false o.trader_id o s.asks o s.bids
          (insertKV s.order_map o.order_id o) s.last_trade_price mo := by
        have := matchLoop_post now false o.trader_id o s.asks
          (bookSize s.bids + 2) o s.bids (insertKV s.order_map o.order_id o)
          s.last_trade_price
          (by simpa using loopInv_init false s o hinv hfresh hq)
          (fuel_ok o s.bids)
        simpa using this
      rw [hpost.noIndexErr] at herr
      simp only [Bool.false_eq_true, if_false] at herr
      by_cases htr : mo.trades ≠ []
      · rw [if_pos htr] at herr
        cases hrec : recordTrades true dbOk _ mo.trades with
        | ok s3 =>
          rw [hrec] at herr
          exact absurd herr (by simp)
        | err m2 t2 =>
          exact recordTrades_locked_not_err dbOk _ mo.trades m2 t2 hrec
        | hang =>
          rw [hrec] at herr
          exact absurd herr (by simp)
      · rw [if_neg htr] at herr
        exact absurd herr (by simp)
  · simp only [addOrder, hval, not_false_eq_true, if_true] at herr
    injection herr with h1 h2
    exact ⟨Bool.not_eq_true _ ▸ (by simpa using hval), h2.symm, h1.symm⟩

theorem foldl_record_pending (l : List Trade) (t : OrderBook) :
    (l.foldl (fun t tr =>
      { t with trades := ringAppend t.buffer_size t.trades tr,
               time_history := ringAppend t.buffer_size t.time_history tr.timestamp,
               price_history := ringAppend t.buffer_size t.price_history tr.price,
               volume_history := ringAppend t.buffer_size t.volume_history tr.quantity,
               pending_trades := t.pending_trades ++ [tr] }) t).pending_trades =
        t.pending_trades ++ l ∧
    (l.foldl (fun t tr =>
      { t with trades := ringAppend t.buffer_size t.trades tr,
               time_history := ringAppend t.buffer_size t.time_history tr.timestamp,
               price_history := ringAppend t.buffer_size t.price_history tr.price,
               volume_history := ringAppend t.buffer_size t.volume_history tr.quantity,
               pending_trades := t.pending_trades ++ [tr] }) t).batch_size =
        t.batch_size := by
  induction l generalizing t with
  | nil => simp
  | cons a rest ih =>
    simp only [List.foldl_cons]
    obtain ⟨h1, h2⟩ := ih _
    constructor
    · rw [h1]
      simp
    · rw [h2]


theorem insSorted_mem (x y : ℚ) (l : List ℚ) :
    y ∈ insSorted x l ↔ y = x ∨ y ∈ l := by
  induction l with
  | nil => simp [insSorted]
  | cons a t ih =>
    unfold insSorted
    by_cases h1 : x < a
    · rw [if_pos h1]
      simp only [List.mem_cons]
    · rw [if_neg h1]
      by_cases h2 : x = a
      · rw [if_pos h2]
        subst h2
        simp only [List.mem_cons]
        tauto
      · rw [if_neg h2]
        simp only [List.mem_cons, ih]
        tauto

theorem insSorted_pairwise (x : ℚ) (l : List ℚ) (h : l.Pairwise (· < ·)) :
    (insSorted x l).Pairwise (· < ·) := by
  induction l with
  | nil => simp [insSorted]
  | cons a t ih =>
    rw [List.pairwise_cons] at h
    unfold insSorted
    by_cases h1 : x < a
    · rw [if_pos h1]
      refine List.pairwise_cons.mpr ⟨?_, List.pairwise_cons.mpr h⟩
      intro y hy
      rcases List.mem_cons.mp hy with rfl | hy
      · exact h1
      · exact h1.trans (h.1 y hy)
    · rw [if_neg h1]
      by_cases h2 : x = a
      · rw [if_pos h2]
        exact List.pairwise_cons.mpr h
      · rw [if_neg h2]
        have hax : a < x := lt_of_le_of_ne (not_lt.mp h1) (fun hc => h2 hc.symm)
        refine List.pairwise_cons.mpr ⟨?_, ih h.2⟩
        intro y hy
        rcases (insSorted_mem x y t).mp hy with rfl | hy
        · exact hax
        · exact h.1 y hy

theorem sortedKeysOf_mem (b : ℚ) (l : List ℚ) : b ∈ sortedKeysOf l ↔ b ∈ l := by
  unfold sortedKeysOf
  induction l with
  | nil => simp
  | cons a t ih =>
    rw [List.foldr_cons, insSorted_mem, ih, List.mem_cons]

theorem sortedKeysOf_pairwise (l : List ℚ) :
    (sortedKeysOf l).Pairwise (· < ·) := by
  unfold sortedKeysOf
  induction l with
  | nil => simp
  | cons a t ih => exact insSorted_pairwise a _ ih

theorem le_foldl_max (p : ℚ) (l : List ℚ) : p ≤ l.foldl max p := by
  induction l generalizing p with
  | nil => simp
  | cons a t ih =>
    rw [List.foldl_cons]
    exact le_trans (le_max_left p a) (ih (max p a))

theorem le_foldl_max_of_mem (x : ℚ) (l : List ℚ) :
    ∀ p, x ∈ l → x ≤ l.foldl max p := by
  induction l with
  | nil =>
    intro p h
    simp at h
  | cons a t ih =>
    intro p h
    rw [List.foldl_cons]
    rcases List.mem_cons.mp h with rfl | h
    · exact le_trans (le_max_right p x) (le_foldl_max (max p x) t)
    · exact ih (max p a) h

theorem foldl_max_mem (l : List ℚ) : ∀ p, l.foldl max p ∈ p :: l := by
  induction l with
  | nil =>
    intro p
    simp
  | cons a t ih =>
    intro p
    rw [List.foldl_cons]
    rcases List.mem_cons.mp (ih (max p a)) with heq | hmem
    · rw [heq]
      rcases max_choice p a with hc | hc <;> rw [hc] <;> simp
    · exact List.mem_cons_of_mem p (List.mem_cons_of_mem a hmem)

theorem foldl_min_le (p : ℚ) (l : List ℚ) : l.foldl min p ≤ p := by
  induction l generalizing p with
  | nil => simp
  | cons a t ih =>
    rw [List.foldl_cons]
    exact le_trans (ih (min p a)) (min_le_left p a)

theorem foldl_min_le_of_mem (x : ℚ) (l : List ℚ) :
    ∀ p, x ∈ l → l.foldl min p ≤ x := by
  induction l with
  | nil =>
    intro p h
    simp at h
  | cons a t ih =>
    intro p h
    rw [List.foldl_cons]
    rcases List.mem_cons.mp h with rfl | h
    · exact le_trans (foldl_min_le (min p x) t) (min_le_right p x)
    · exact ih (min p a) h

theorem foldl_min_mem (l : List ℚ) : ∀ p, l.foldl min p ∈ p :: l := by
  induction l with
  | nil =>
    intro p
    simp
  | cons a t ih =>
    intro p
    rw [List.foldl_cons]
    rcases List.mem_cons.mp (ih (min p a)) with heq | hmem
    · rw [heq]
      rcases min_choice p a with hc | hc <;> rw [hc] <;> simp
    · exact List.mem_cons_of_mem p (List.mem_cons_of_mem a hmem)

theorem sorted_head_le (l : List Trade)
    (h : l.Sorted (fun a b => a.timestamp ≤ b.timestamp)) (hd : Trade)
    (hh : l.head? = some hd) : ∀ x ∈ l, hd.timestamp ≤ x.timestamp := by
  cases l with
  | nil => simp at hh
  | cons a t =>
    injection hh with hh
    subst hh
    intro x hx
    rcases List.mem_cons.mp hx with rfl | hx
    · exact le_refl _
    · exact (List.pairwise_cons.mp h).1 x hx

theorem sorted_le_getLast (l : List Trade) :
    l.Sorted (fun a b => a.timestamp ≤ b.timestamp) →
    ∀ tl, l.getLast? = some tl → ∀ x ∈ l, x.timestamp ≤ tl.timestamp := by
  induction l with
  | nil =>
    intro _ tl htl
    simp at htl
  | cons a t ih =>
    intro h tl htl x hx
    have hpc := List.pairwise_cons.mp h
    cases t with
    | nil =>
      simp only [List.getLast?_singleton, Option.some.injEq] at htl
      subst htl
      rcases List.mem_singleton.mp hx with rfl
      exact le_refl _
    | cons b t2 =>
      rw [List.getLast?_cons_cons] at htl
      rcases List.mem_cons.mp hx with rfl | hx
      · have htlm : tl ∈ b :: t2 :=
          List.mem_of_mem_getLast? (by rw [htl]; exact Option.mem_some_self tl)
        exact hpc.1 tl htlm
      · exact ih hpc.2 tl htl x hx



theorem ohlcRowOf_time (rows : List Trade) (interval b : ℚ) :
    (ohlcRowOf rows interval b).time = b := rfl

theorem getLast?_some_of_ne_nil (l : List Trade) (h : l ≠ []) :
    ∃ x, l.getLast? = some x := by
  cases hl : l.getLast? with
  | none =>
    cases l with
    | nil => exact absurd rfl h
    | cons a t => simp at hl
  | some x => exact ⟨x, rfl⟩

theorem ohlcRowOf_spec (rows : List Trade) (interval b : ℚ)
    (h : ∃ t ∈ rows, bucketOf interval t.timestamp = b) :
    bucketTrades rows interval b ≠ [] ∧
    (∃ t ∈ bucketTrades rows interval b,
      (ohlcRowOf rows interval b).opn = t.price ∧
      ∀ u ∈ bucketTrades rows interval b, t.timestamp ≤ u.timestamp) ∧
    (∃ t ∈ bucketTrades rows interval b,
      (ohlcRowOf rows interval b).close = t.price ∧
      ∀ u ∈ bucketTrades rows interval b, u.timestamp ≤ t.timestamp) ∧
    (ohlcRowOf rows interval b).high ∈
      (bucketTrades rows interval b).map Trade.price ∧
    (∀ q ∈ (bucketTrades rows interval b).map Trade.price,
      q ≤ (ohlcRowOf rows interval b).high) ∧
    (ohlcRowOf rows interval b).low ∈
      (bucketTrades rows interval b).map Trade.price ∧
    (∀ q ∈ (bucketTrades rows interval b).map Trade.price,
      (ohlcRowOf rows interval b).low ≤ q) ∧
    (ohlcRowOf rows interval b).volume =
      ((bucketTrades rows interval b).map Trade.quantity).sum := by
  obtain ⟨t0, ht0, hb0⟩ := h
  have ht0m : t0 ∈ bucketTrades rows interval b :=
    List.mem_filter.mpr ⟨ht0, decide_eq_true hb0⟩
  have hne : bucketTrades rows interval b ≠ [] := List.ne_nil_of_mem ht0m
  set S := List.insertionSort (fun x y : Trade => x.timestamp ≤ y.timestamp)
    (bucketTrades rows interval b) with hS
  have hperm : S.Perm (bucketTrades rows interval b) :=
    List.perm_insertionSort _ _
  have hsor : S.Sorted (fun x y : Trade => x.timestamp ≤ y.timestamp) :=
    List.sorted_insertionSort _ _
  have hsne : S ≠ [] := by
    intro hc
    rw [hc] at hperm
    exact hne hperm.symm.eq_nil
  obtain ⟨hd, tl', hcons⟩ := List.exists_cons_of_ne_nil hsne
  obtain ⟨lt, hgl⟩ := getLast?_some_of_ne_nil S hsne
  have hhd? : S.head? = some hd := by rw [hcons]; rfl
  have hopn : (ohlcRowOf rows interval b).opn =
      ((S.head?).map Trade.price).getD 0 := rfl
  have hclose : (ohlcRowOf rows interval b).close =
      ((S.getLast?).map Trade.price).getD 0 := rfl
  have hhigh : (ohlcRowOf rows interval b).high =
      (match S.map Trade.price with | [] => 0 | p :: ps => maxQ p ps) := rfl
  have hlow : (ohlcRowOf rows interval b).low =
      (match S.map Trade.price with | [] => 0 | p :: ps => minQ p ps) := rfl
  have hvol : (ohlcRowOf rows interval b).volume =
      (S.map Trade.quantity).sum := rfl
  have hpmem : ∀ x, x ∈ S ↔ x ∈ bucketTrades rows interval b :=
    fun x => hperm.mem_iff
  have hpricesp : (S.map Trade.price).Perm
      ((bucketTrades rows interval b).map Trade.price) := hperm.map _
  refine ⟨hne, ?_, ?_, ?_, ?_, ?_, ?_, ?_⟩
  · -- open: earliest trade of the bucket
    refine ⟨hd, (hpmem hd).mp (by rw [hcons]; exact List.mem_cons_self hd tl'), ?_, ?_⟩
    · rw [hopn, hhd?]
      rfl
    · intro u hu
      exact sorted_head_le S hsor hd hhd? u ((hpmem u).mpr hu)
  · -- close: latest trade of the bucket
    refine ⟨lt, (hpmem lt).mp
      (List.mem_of_mem_getLast? (by rw [hgl]; exact Option.mem_some_self lt)), ?_, ?_⟩
    · rw [hclose, hgl]
      rfl
    · intro u hu
      exact sorted_le_getLast S hsor lt hgl u ((hpmem u).mpr hu)
  · -- high is attained
    rw [hhigh, hcons]
    simp only [List.map_cons]
    refine hpricesp.mem_iff.mp ?_
    rw [hcons]
    simp only [List.map_cons]
    exact foldl_max_mem (tl'.map Trade.price) hd.price
  · -- high bounds every price of the bucket
    intro q hq
    rw [hhigh, hcons]
    simp only [List.map_cons]
    have hq2 : q ∈ S.map Trade.price := hpricesp.mem_iff.mpr hq
    rw [hcons] at hq2
    simp only [List.map_cons, List.mem_cons] at hq2
    rcases hq2 with rfl | hq2
    · exact le_foldl_max hd.price (tl'.map Trade.price)
    · exact le_foldl_max_of_mem q (tl'.map Trade.price) hd.price hq2
  · -- low is attained
    rw [hlow, hcons]
    simp only [List.map_cons]
    refine hpricesp.mem_iff.mp ?_
    rw [hcons]
    simp only [List.map_cons]
    exact foldl_min_mem (tl'.map Trade.price) hd.price
  · -- low bounds every price of the bucket
    intro q hq
    rw [hlow, hcons]
    simp only [List.map_cons]
    have hq2 : q ∈ S.map Trade.price := hpricesp.mem_iff.mpr hq
    rw [hcons] at hq2
    simp only [List.map_cons, List.mem_cons] at hq2
    rcases hq2 with rfl | hq2
    · exact foldl_min_le hd.price (tl'.map Trade.price)
    · exact foldl_min_le_of_mem q (tl'.map Trade.price) hd.price hq2
  · -- volume is the sum of the bucket quantities
    rw [hvol]
    exact (hperm.map Trade.quantity).sum_eq


theorem map_ohlcRowOf_time (R : List Trade) (iv : ℚ) (bs : List ℚ) :
    ((bs.map (ohlcRowOf R iv)).map OhlcRow.time) = bs := by
  induction bs with
  | nil => rfl
  | cons a t ih => simp only [List.map_cons, ohlcRowOf_time, ih]

/-- C7: the historical OHLC query fails with an invalid-interval error for
every interval ≤ 0; for every positive interval and optional from/to bounds
it returns exactly one record per time bucket `floor(t/interval)*interval`
holding at least one stored trade within the bounds — ordered by bucket
start strictly ascending, empty buckets omitted — whose open is the price of
an earliest trade of the bucket, close the price of a latest, high the
maximum price, low the minimum price, and volume the sum of the
quantities. -/
theorem C7_historical_ohlc (db : List Trade) (fromT toT : Option ℚ)
    (interval : ℚ) :
    (interval ≤ 0 →
      getHistoricalOhlc db fromT toT interval =
        .error "Interval must be positive") ∧
    (0 < interval →
      ∃ out, getHistoricalOhlc db fromT toT interval = .ok out ∧
        (out.map OhlcRow.time).Pairwise (· < ·) ∧
        (∀ b, b ∈ out.map OhlcRow.time ↔
          ∃ t ∈ db.filter (tradeInRange fromT toT),
            bucketOf interval t.timestamp = b) ∧
        ∀ r ∈ out,
          bucketTrades (db.filter (tradeInRange fromT toT)) interval r.time
            ≠ [] ∧
          (∃ t ∈ bucketTrades (db.filter (tradeInRange fromT toT)) interval
              r.time, r.opn = t.price ∧
            ∀ u ∈ bucketTrades (db.filter (tradeInRange fromT toT)) interval
              r.time, t.timestamp ≤ u.timestamp) ∧
          (∃ t ∈ bucketTrades (db.filter (tradeInRange fromT toT)) interval
              r.time, r.close = t.price ∧
            ∀ u ∈ bucketTrades (db.filter (tradeInRange fromT toT)) interval
              r.time, u.timestamp ≤ t.timestamp) ∧
          r.high ∈ (bucketTrades (db.filter (tradeInRange fromT toT)) interval
            r.time).map Trade.price ∧
          (∀ q ∈ (bucketTrades (db.filter (tradeInRange fromT toT)) interval
            r.time).map Trade.price, q ≤ r.high) ∧
          r.low ∈ (bucketTrades (db.filter (tradeInRange fromT toT)) interval
            r.time).map Trade.price ∧
          (∀ q ∈ (bucketTrades (db.filter (tradeInRange fromT toT)) interval
            r.time).map Trade.price, r.low ≤ q) ∧
          r.volume = ((bucketTrades (db.filter (tradeInRange fromT toT))
            interval r.time).map Trade.quantity).sum) := by
  constructor
  · intro h
    unfold getHistoricalOhlc
    rw [if_pos h]
  · intro h
    have hni : ¬ interval ≤ 0 := not_le.mpr h
    refine ⟨(sortedKeysOf ((db.filter (tradeInRange fromT toT)).map
        (fun t => bucketOf interval t.timestamp))).map
        (ohlcRowOf (db.filter (tradeInRange fromT toT)) interval),
      ?_, ?_, ?_, ?_⟩
    · unfold getHistoricalOhlc
      rw [if_neg hni]
    · rw [map_ohlcRowOf_time]
      exact sortedKeysOf_pairwise _
    · intro b
      rw [map_ohlcRowOf_time, sortedKeysOf_mem]
      exact List.mem_map
    · intro r hr
      obtain ⟨b, hb, hfb⟩ := List.mem_map.mp hr
      have hbm : ∃ t ∈ db.filter (tradeInRange fromT toT),
          bucketOf interval t.timestamp = b :=
        List.mem_map.mp ((sortedKeysOf_mem b _).mp hb)
      have hspec := ohlcRowOf_spec (db.filter (tradeInRange fromT toT))
        interval b hbm
      rw [← hfb, ohlcRowOf_time]
      exact hspec


theorem pyOr_some_ne (a b : String) (h : a ≠ "") : pyOr (some a) b = a := by
  unfold pyOr
  dsimp only
  rw [if_neg h]

/-- C6: the claim says every decoded order request leads to a successfully
constructed `Order` that is submitted and answered with the resulting
trades.  In the code, `handle_order` passes the keyword argument
`order_type` to `Order(...)`, but the `Order` dataclass declares no such
field, so the constructor call raises `TypeError` on every frame and no
order is ever submitted or answered. -/
theorem C6_gateway_type_error (now : ℚ) (dbOk : Bool)
    (traderId orderId : String) (f : OrderFrame) (s : OrderBook) :
    handleOrder now dbOk traderId orderId f s =
      .typeError "Order() got an unexpected keyword argument" := rfl

/-- C9: undecodable frames and frames with an unknown or non-string `type`
are silently ignored with the subscription flags unchanged, as the claim
says — but a frame of valid JSON that is not an object (e.g. the number `1`
or an array) makes `data.get('type')` raise `AttributeError`, which the
`try` block (catching only `json.JSONDecodeError`) does not catch, so the
session is torn down instead of being kept open. -/
theorem C9_malformed_messages (subs : Subs) :
    handleMdMessage .undecodable subs = (.ignored, subs) ∧
    handleMdMessage (.decoded (.obj [("type", .str "bogus")])) subs =
      (.ignored, subs) ∧
    handleMdMessage (.decoded (.obj [("type", .num 7)])) subs =
      (.ignored, subs) ∧
    handleMdMessage (.decoded (.obj [])) subs = (.ignored, subs) ∧
    (handleMdMessage (.decoded (.num 1)) subs).1 =
      .sessionError "AttributeError: .get on a non-dict" ∧
    (handleMdMessage (.decoded (.arr [])) subs).1 =
      .sessionError "AttributeError: .get on a non-dict" :=
  ⟨rfl, rfl, rfl, rfl, rfl, rfl⟩

/-- C8: the claim says reaching the buffer threshold during trade recording
triggers a flush.  `_record_trades` runs while `add_order` already holds
the book's `asyncio.Lock`, and `_flush_to_db` re-acquires that
non-reentrant lock, so the threshold-triggered flush deadlocks (the
coroutine hangs) instead of flushing. -/
theorem C8_threshold_flush_hangs (dbOk : Bool) (s : OrderBook)
    (l : List Trade)
    (h : s.batch_size ≤ s.pending_trades.length + l.length) :
    recordTrades true dbOk s l = Res.hang := by
  simp only [recordTrades]
  obtain ⟨hp, hb⟩ := foldl_record_pending l s
  revert hp hb
  generalize (l.foldl (fun t tr =>
    { t with trades := ringAppend t.buffer_size t.trades tr,
             time_history := ringAppend t.buffer_size t.time_history tr.timestamp,
             price_history := ringAppend t.buffer_size t.price_history tr.price,
             volume_history := ringAppend t.buffer_size t.volume_history tr.quantity,
             pending_trades := t.pending_trades ++ [tr] }) s) = s1
  intro hp hb
  have hcond : s1.batch_size ≤ s1.pending_trades.length := by
    rw [hp, hb, List.length_append]
    exact h
  rw [if_pos hcond]
  rw [show flushToDb true dbOk s1 = (Res.hang : Res OrderBook) from rfl]

theorem C8_threshold_flush_hangs_witness :
    ({ emptyBook with batch_size := 1 } : OrderBook).batch_size ≤
      ({ emptyBook with batch_size := 1 } :
        OrderBook).pending_trades.length + [tr0].length ∧
    recordTrades true true { emptyBook with batch_size := 1 } [tr0] =
      Res.hang :=
  ⟨by decide, C8_threshold_flush_hangs true
    { emptyBook with batch_size := 1 } [tr0] (by decide)⟩

/-- C5: cancel of a registered id returns true, removes exactly that order
from the ladder and the registry (the level disappearing if emptied, which
the preserved invariant records), emits a cancel event and leaves trades,
the pending buffer and the durable store untouched; cancel of an unknown id
returns false and changes nothing — so a second cancel of the same id
returns false and changes nothing. -/
theorem C5_cancel_semantics (s : OrderBook) (oid : String) (hinv : Inv s) :
    (∀ o₀, lookupKV s.order_map oid = some o₀ →
      ∃ s', cancelOrder s oid = (true, s') ∧
        lookupKV s'.order_map oid = none ∧
        (∀ x ∈ allOrders s', x ∈ allOrders s ∧ x.order_id ≠ oid) ∧
        (∀ x ∈ allOrders s, x.order_id ≠ oid → x ∈ allOrders s') ∧
        Inv s' ∧
        s'.events = s.events ++ [Event.cancel oid] ∧
        s'.trades = s.trades ∧ s'.pending_trades = s.pending_trades ∧
        s'.db = s.db ∧
        cancelOrder s' oid = (false, s')) ∧
    (lookupKV s.order_map oid = none → cancelOrder s oid = (false, s)) := by
  constructor
  · intro o₀ hl
    obtain ⟨s', hco, hinv', hnone, _hk, hfw, hbw, hev, htr, hpend, hdb, _hltp⟩ :=
      cancelOrder_found s oid o₀ hinv hl
    exact ⟨s', hco, hnone, hfw, hbw, hinv', hev, htr, hpend, hdb,
      cancelOrder_none s' oid hnone⟩
  · intro hl
    exact cancelOrder_none s oid hl

theorem C5_cancel_semantics_witness :
    (∀ o₀, lookupKV book_m1.order_map "m1" = some o₀ →
      ∃ s', cancelOrder book_m1 "m1" = (true, s') ∧
        lookupKV s'.order_map "m1" = none ∧
        (∀ x ∈ allOrders s', x ∈ allOrders book_m1 ∧ x.order_id ≠ "m1") ∧
        (∀ x ∈ allOrders book_m1, x.order_id ≠ "m1" → x ∈ allOrders s') ∧
        Inv s' ∧
        s'.events = book_m1.events ++ [Event.cancel "m1"] ∧
        s'.trades = book_m1.trades ∧
        s'.pending_trades = book_m1.pending_trades ∧
        s'.db = book_m1.db ∧
        cancelOrder s' "m1" = (false, s')) ∧
    (lookupKV book_m1.order_map "m1" = none →
      cancelOrder book_m1 "m1" = (false, book_m1)) :=
  C5_cancel_semantics book_m1 "m1" inv_book_m1


/-- C3: after every completed submit and after every cancel, the book
satisfies the invariant `Inv` — well-formed ladders (no empty level, every
resting order of positive quantity on the side matching its `side`, one
level per price), strictly ascending prices with every bid price below
every ask price, pairwise distinct order ids, and the registry in bijection
with the resting orders — and in particular the registry's key set equals
the set of order ids resting on the two ladders. -/
theorem C3_book_invariants (s : OrderBook) (hinv : Inv s) :
    (∀ now dbOk o ts s', addOrder now dbOk s o = .ok (ts, s') →
      Inv s' ∧
      ∀ k, k ∈ s'.order_map.map Prod.fst ↔
        k ∈ (allOrders s').map Order.order_id) ∧
    (∀ oid r, cancelOrder s oid = r →
      Inv r.2 ∧
      ∀ k, k ∈ r.2.order_map.map Prod.fst ↔
        k ∈ (allOrders r.2).map Order.order_id) := by
  constructor
  · intro now dbOk o ts s' hok
    obtain ⟨hval, isBuy, mo, hside, hmo, hpost, hts, homap, hltp, hbooks⟩ :=
      addOrder_ok_dissect now dbOk s o ts s' hinv hok
    have hinv' := inv_after_addOrder isBuy s s' o mo hinv hside hpost homap hbooks
    exact ⟨hinv', keyset_eq_of_inv s' hinv'⟩
  · intro oid r hr
    cases hl : lookupKV s.order_map oid with
    | none =>
      rw [cancelOrder_none s oid hl] at hr
      rw [← hr]
      exact ⟨hinv, keyset_eq_of_inv s hinv⟩
    | some o₀ =>
      obtain ⟨s', hco, hinv', _⟩ := cancelOrder_found s oid o₀ hinv hl
      rw [hco] at hr
      rw [← hr]
      exact ⟨hinv', keyset_eq_of_inv s' hinv'⟩

theorem C3_book_invariants_witness :
    (∀ now dbOk o ts s', addOrder now dbOk emptyBook o = .ok (ts, s') →
      Inv s' ∧
      ∀ k, k ∈ s'.order_map.map Prod.fst ↔
        k ∈ (allOrders s').map Order.order_id) ∧
    (∀ oid r, cancelOrder emptyBook oid = r →
      Inv r.2 ∧
      ∀ k, k ∈ r.2.order_map.map Prod.fst ↔
        k ∈ (allOrders r.2).map Order.order_id) :=
  C3_book_invariants emptyBook inv_emptyBook

/-- C4: submit returns an error exactly when the order's side is neither
buy nor sell, or its price or quantity is not positive, or its id is
already registered; and every error leaves the book state exactly as it
was. -/
theorem C4_submit_failure (now : ℚ) (dbOk : Bool) (s : OrderBook) (o : Order)
    (hinv : Inv s) :
    ((∃ msg t, addOrder now dbOk s o = .err msg t) ↔
      ¬((o.side = "buy" ∨ o.side = "sell") ∧ 0 < o.price ∧ 0 < o.quantity ∧
        lookupKV s.order_map o.order_id = none)) ∧
    (∀ msg t, addOrder now dbOk s o = .err msg t → t = s) := by
  constructor
  · constructor
    · rintro ⟨msg, t, herr⟩ hcond
      have hchar := addOrder_err_char now dbOk s o hinv msg t herr
      have hvt := (validate_iff s o).mpr hcond
      rw [hchar.1] at hvt
      exact absurd hvt (by simp)
    · intro hcond
      have hval : ¬ validateOrder s o = true :=
        fun hv => hcond ((validate_iff s o).mp hv)
      refine ⟨"Invalid order: must have valid side, price, and quantity", s, ?_⟩
      unfold addOrder
      rw [if_pos hval]
  · intro msg t herr
    exact (addOrder_err_char now dbOk s o hinv msg t herr).2.1

theorem C4_submit_failure_witness :
    ((∃ msg t,
        addOrder 0 true emptyBook ⟨"o1", "T", "hold", 100, 1, 0⟩ = .err msg t) ↔
      ¬((Order.side ⟨"o1", "T", "hold", 100, 1, 0⟩ = "buy" ∨
          Order.side ⟨"o1", "T", "hold", 100, 1, 0⟩ = "sell") ∧
        0 < Order.price ⟨"o1", "T", "hold", 100, 1, 0⟩ ∧
        0 < Order.quantity ⟨"o1", "T", "hold", 100, 1, 0⟩ ∧
        lookupKV emptyBook.order_map
          (Order.order_id ⟨"o1", "T", "hold", 100, 1, 0⟩) = none)) ∧
    (∀ msg t, addOrder 0 true emptyBook ⟨"o1", "T", "hold", 100, 1, 0⟩ =
      .err msg t → t = emptyBook) :=
  C4_submit_failure 0 true emptyBook ⟨"o1", "T", "hold", 100, 1, 0⟩ inv_emptyBook

/-- C10: the duplicate-id check consults only the current registry:
cancellation removes an id from the registry, a submission whose order does
not rest (fully filled) leaves no registry entry for its id, and any valid
order whose id is absent from the registry passes validation and its
submission never returns an error — terminated ids are reusable. -/
theorem C10_terminated_ids_reusable (s : OrderBook) (hinv : Inv s) :
    (∀ X o₀, lookupKV s.order_map X = some o₀ →
      lookupKV ((cancelOrder s X).2).order_map X = none) ∧
    (∀ now dbOk o ts s', addOrder now dbOk s o = .ok (ts, s') →
      o.order_id ∉ (allOrders s').map Order.order_id →
      lookupKV s'.order_map o.order_id = none) ∧
    (∀ o, (o.side = "buy" ∨ o.side = "sell") → 0 < o.price → 0 < o.quantity →
      lookupKV s.order_map o.order_id = none →
      validateOrder s o = true ∧
      ∀ now dbOk msg t, addOrder now dbOk s o ≠ .err msg t) := by
  refine ⟨?_, ?_, ?_⟩
  · intro X o₀ hl
    obtain ⟨s', hco, _hinv', hnone, _⟩ := cancelOrder_found s X o₀ hinv hl
    rw [hco]
    exact hnone
  · intro now dbOk o ts s' hok hnot
    obtain ⟨hval, isBuy, mo, hside, hmo, hpost, hts, homap, hltp, hbooks⟩ :=
      addOrder_ok_dissect now dbOk s o ts s' hinv hok
    have hinv' := inv_after_addOrder isBuy s s' o mo hinv hside hpost homap hbooks
    exact registry_absent_of_not_resting s' hinv' o.order_id hnot
  · intro o hside hp hq hfresh
    have hval : validateOrder s o = true :=
      (validate_iff s o).mpr ⟨hside, hp, hq, hfresh⟩
    refine ⟨hval, ?_⟩
    intro now dbOk msg t herr
    have hchar := addOrder_err_char now dbOk s o hinv msg t herr
    rw [hchar.1] at hval
    exact absurd hval (by simp)

theorem C10_terminated_ids_reusable_witness :
    (∀ X o₀, lookupKV book_m1.order_map X = some o₀ →
      lookupKV ((cancelOrder book_m1 X).2).order_map X = none) ∧
    (∀ now dbOk o ts s', addOrder now dbOk book_m1 o = .ok (ts, s') →
      o.order_id ∉ (allOrders s').map Order.order_id →
      lookupKV s'.order_map o.order_id = none) ∧
    (∀ o, (o.side = "buy" ∨ o.side = "sell") → 0 < o.price → 0 < o.quantity →
      lookupKV book_m1.order_map o.order_id = none →
      validateOrder book_m1 o = true ∧
      ∀ now dbOk msg t, addOrder now dbOk book_m1 o ≠ .err msg t) :=
  C10_terminated_ids_reusable book_m1 inv_book_m1


/-- C2 (amended): for every trade produced by a submit whose incoming order
carries a non-empty `trader_id`, the trade's price is the resting (maker)
order's limit price, the buy side's `trader_id` is the buyer and the sell
side's the seller, and `last_trade_price` ends at the last trade's maker
price.  The claim's quantification over arbitrary trader ids — including
the empty string — fails: `buyer_id or opposite_order.trader_id` treats an
empty taker id as falsy and substitutes the maker's id
(`C2_trade_attribution_cex`). -/
theorem C2_trade_attribution (now : ℚ) (dbOk : Bool) (s : OrderBook)
    (o : Order) (ts : List Trade) (s' : OrderBook) (hinv : Inv s)
    (htid : o.trader_id ≠ "")
    (hok : addOrder now dbOk s o = .ok (ts, s')) :
    (∀ t ∈ ts, ∃ m ∈ allOrders s, t.price = m.price ∧
      (o.side = "buy" → t.buyer_id = o.trader_id ∧ t.seller_id = m.trader_id) ∧
      (o.side = "sell" → t.seller_id = o.trader_id ∧ t.buyer_id = m.trader_id)) ∧
    (ts ≠ [] → ∃ tl, ts.getLast? = some tl ∧
      s'.last_trade_price = some tl.price) := by
  obtain ⟨hval, isBuy, mo, hside, hmo, hpost, hts, homap, hltp, hbooks⟩ :=
    addOrder_ok_dissect now dbOk s o ts s' hinv hok
  subst hts
  constructor
  · intro t ht
    obtain ⟨m, hm, hp, hflds⟩ := hpost.makers t ht
    cases isBuy with
    | true =>
      try simp only [reduceIte] at hm hflds hside
      refine ⟨m, List.mem_append.mpr (Or.inr hm), hp, ?_, ?_⟩
      · intro _
        exact ⟨hflds.2.trans (pyOr_some_ne o.trader_id m.trader_id htid),
          hflds.1⟩
      · intro hsell
        rw [hside] at hsell
        exact absurd hsell (by simp)
    | false =>
      try simp only [reduceIte] at hm hflds hside
      refine ⟨m, List.mem_append.mpr (Or.inl hm), hp, ?_, ?_⟩
      · intro hb
        rw [hside] at hb
        exact absurd hb (by simp)
      · intro _
        exact ⟨hflds.2.trans (pyOr_some_ne o.trader_id m.trader_id htid),
          hflds.1⟩
  · intro hne
    obtain ⟨tl, hl, hpr⟩ := hpost.ltpLast hne
    refine ⟨tl, hl, ?_⟩
    rw [hltp, hpr]

theorem C2_trade_attribution_witness :
    addOrder 1 true book_m1 ⟨"t1", "T", "buy", 100, 1, 1⟩ =
      .ok ([⟨1, "T", "M", 100, 1⟩],
        ⟨[], [], [], some 100, [⟨1, "T", "M", 100, 1⟩], [1], [100], [1],
         1000, [⟨1, "T", "M", 100, 1⟩], 100, [],
         [Event.new_trades [⟨1, "T", "M", 100, 1⟩]]⟩) ∧
    ((∀ t ∈ [(⟨1, "T", "M", 100, 1⟩ : Trade)], ∃ m ∈ allOrders book_m1,
      t.price = m.price ∧
      (Order.side ⟨"t1", "T", "buy", 100, 1, 1⟩ = "buy" →
        t.buyer_id = Order.trader_id ⟨"t1", "T", "buy", 100, 1, 1⟩ ∧
        t.seller_id = m.trader_id) ∧
      (Order.side ⟨"t1", "T", "buy", 100, 1, 1⟩ = "sell" →
        t.seller_id = Order.trader_id ⟨"t1", "T", "buy", 100, 1, 1⟩ ∧
        t.buyer_id = m.trader_id)) ∧
    ([(⟨1, "T", "M", 100, 1⟩ : Trade)] ≠ [] →
      ∃ tl, [(⟨1, "T", "M", 100, 1⟩ : Trade)].getLast? = some tl ∧
        OrderBook.last_trade_price
          ⟨[], [], [], some 100, [⟨1, "T", "M", 100, 1⟩], [1], [100], [1],
           1000, [⟨1, "T", "M", 100, 1⟩], 100, [],
           [Event.new_trades [⟨1, "T", "M", 100, 1⟩]]⟩ = some tl.price)) :=
  ⟨by decide,
   C2_trade_attribution 1 true book_m1 ⟨"t1", "T", "buy", 100, 1, 1⟩
     [⟨1, "T", "M", 100, 1⟩]
     ⟨[], [], [], some 100, [⟨1, "T", "M", 100, 1⟩], [1], [100], [1],
      1000, [⟨1, "T", "M", 100, 1⟩], 100, [],
      [Event.new_trades [⟨1, "T", "M", 100, 1⟩]]⟩
     inv_book_m1 (by decide) (by decide)⟩

/-- C2 counterexample: a buy order whose `trader_id` is the empty string
matches the resting sell of trader `M`; Python's
`buyer_id or opposite_order.trader_id` treats the empty string as falsy, so
the emitted trade carries `buyer_id = "M"` — the maker's id, not the
buy-side order's `trader_id` as the claim states for arbitrary strings. -/
theorem C2_trade_attribution_cex :
    ∃ ts s', addOrder 1 true book_m1 ⟨"t1", "", "buy", 100, 1, 1⟩ =
      .ok (ts, s') ∧ ∃ t ∈ ts, t.buyer_id ≠ ("" : String) := by
  refine ⟨[⟨1, "M", "M", 100, 1⟩],
    ⟨[], [], [], some 100, [⟨1, "M", "M", 100, 1⟩], [1], [100], [1],
     1000, [⟨1, "M", "M", 100, 1⟩], 100, [],
     [Event.new_trades [⟨1, "M", "M", 100, 1⟩]]⟩,
    by decide, ⟨1, "M", "M", 100, 1⟩, by decide, by decide⟩


/-- C1: for every valid submitted order, the matching loop refines the
spec's iteration relation `MatchRel` — it runs while remaining quantity is
positive and the opposite book is non-empty, trades the head of the best
opposite level for `min` of the remainders, decrements both, pops the maker
and deletes an emptied level, and stops on a non-crossing best price —
after which a positive remainder rests appended at the tail of its own
side's level for its limit price (the level created if absent), while a
fully filled order rests nowhere and is absent from the registry when
submit returns. -/
theorem C1_matching_loop (now : ℚ) (dbOk : Bool) (s : OrderBook) (o : Order)
    (ts : List Trade) (s' : OrderBook) (hinv : Inv s)
    (hok : addOrder now dbOk s o = .ok (ts, s')) :
    ∃ (isBuy : Bool) (mo : MatchOut),
      o.side = (if isBuy then "buy" else "sell") ∧
      MatchRel isBuy o (if isBuy then s.asks else s.bids)
        (insertKV s.order_map o.order_id o) s.last_trade_price
        ts mo.order mo.book mo.omap mo.ltp ∧
      (0 < mo.order.quantity → mo.book = [] ∨
        ∃ p lvl, (if isBuy then getBestAsk mo.book else getBestBid mo.book) =
          (some p, lvl) ∧ (if isBuy then o.price < p else p < o.price)) ∧
      (if isBuy then s'.asks = mo.book else s'.bids = mo.book) ∧
      (0 < mo.order.quantity →
        (if isBuy then
          s'.bids = Book.set s.bids o.price
            ((Book.find? s.bids o.price).getD [] ++ [mo.order])
        else
          s'.asks = Book.set s.asks o.price
            ((Book.find? s.asks o.price).getD [] ++ [mo.order]))) ∧
      (¬ 0 < mo.order.quantity →
        (if isBuy then s'.bids = s.bids else s'.asks = s.asks) ∧
        lookupKV s'.order_map o.order_id = none) := by
  obtain ⟨hval, isBuy, mo, hside, hmo, hpost, hts, homap, hltp, hbooks⟩ :=
    addOrder_ok_dissect now dbOk s o ts s' hinv hok
  subst hts
  cases isBuy with
  | true =>
    try simp only [reduceIte] at hside hpost homap hbooks
    obtain ⟨hob, hrest⟩ := hbooks
    refine ⟨true, mo, ?_, ?_, ?_, ?_, ?_, ?_⟩
    · simpa using hside
    · have := hpost.rel
      simpa using this
    · have := hpost.noCross
      simpa using this
    · simpa using hob
    · intro hq
      rw [if_pos hq] at hrest
      simpa using hrest
    · intro hq
      rw [if_neg hq] at hrest
      rw [if_neg hq] at homap
      refine ⟨by simpa using hrest, ?_⟩
      rw [homap]
      exact registry_absent_of_filled true o s.bids mo.book mo.omap mo.order
        (by simpa using hpost.inv) hq
  | false =>
    try simp only [reduceIte] at hside hpost homap hbooks
    obtain ⟨hob, hrest⟩ := hbooks
    refine ⟨false, mo, ?_, ?_, ?_, ?_, ?_, ?_⟩
    · simpa using hside
    · have := hpost.rel
      simpa using this
    · have := hpost.noCross
      simpa using this
    · simpa using hob
    · intro hq
      rw [if_pos hq] at hrest
      simpa using hrest
    · intro hq
      rw [if_neg hq] at hrest
      rw [if_neg hq] at homap
      refine ⟨by simpa using hrest, ?_⟩
      rw [homap]
      exact registry_absent_of_filled false o s.asks mo.book mo.omap mo.order
        (by simpa using hpost.inv) hq


theorem C1_matching_loop_witness :
    addOrder 0 true emptyBook ⟨"o1", "T", "buy", 100, 5, 0⟩ =
      .ok ([], ⟨[(100, [⟨"o1", "T", "buy", 100, 5, 0⟩])], [],
        [("o1", ⟨"o1", "T", "buy", 100, 5, 0⟩)], none, [], [], [], [],
        1000, [], 100, [], []⟩) ∧
    (∃ (isBuy : Bool) (mo : MatchOut),
      Order.side ⟨"o1", "T", "buy", 100, 5, 0⟩ =
        (if isBuy then "buy" else "sell") ∧
      MatchRel isBuy ⟨"o1", "T", "buy", 100, 5, 0⟩
        (if isBuy then emptyBook.asks else emptyBook.bids)
        (insertKV emptyBook.order_map
          (Order.order_id ⟨"o1", "T", "buy", 100, 5, 0⟩)
          ⟨"o1", "T", "buy", 100, 5, 0⟩)
        emptyBook.last_trade_price
        [] mo.order mo.book mo.omap mo.ltp ∧
      (0 < mo.order.quantity → mo.book = [] ∨
        ∃ p lvl, (if isBuy then getBestAsk mo.book else getBestBid mo.book) =
          (some p, lvl) ∧
          (if isBuy then Order.price ⟨"o1", "T", "buy", 100, 5, 0⟩ < p
           else p < Order.price ⟨"o1", "T", "buy", 100, 5, 0⟩)) ∧
      (if isBuy then
        OrderBook.asks ⟨[(100, [⟨"o1", "T", "buy", 100, 5, 0⟩])], [],
          [("o1", ⟨"o1", "T", "buy", 100, 5, 0⟩)], none, [], [], [], [],
          1000, [], 100, [], []⟩ = mo.book
       else
        OrderBook.bids ⟨[(100, [⟨"o1", "T", "buy", 100, 5, 0⟩])], [],
          [("o1", ⟨"o1", "T", "buy", 100, 5, 0⟩)], none, [], [], [], [],
          1000, [], 100, [], []⟩ = mo.book) ∧
      (0 < mo.order.quantity →
        (if isBuy then
          OrderBook.bids ⟨[(100, [⟨"o1", "T", "buy", 100, 5, 0⟩])], [],
            [("o1", ⟨"o1", "T", "buy", 100, 5, 0⟩)], none, [], [], [], [],
            1000, [], 100, [], []⟩ =
            Book.set emptyBook.bids
              (Order.price ⟨"o1", "T", "buy", 100, 5, 0⟩)
              ((Book.find? emptyBook.bids
                (Order.price ⟨"o1", "T", "buy", 100, 5, 0⟩)).getD []
                ++ [mo.order])
        else
          OrderBook.asks ⟨[(100, [⟨"o1", "T", "buy", 100, 5, 0⟩])], [],
            [("o1", ⟨"o1", "T", "buy", 100, 5, 0⟩)], none, [], [], [], [],
            1000, [], 100, [], []⟩ =
            Book.set emptyBook.asks
              (Order.price ⟨"o1", "T", "buy", 100, 5, 0⟩)
              ((Book.find? emptyBook.asks
                (Order.price ⟨"o1", "T", "buy", 100, 5, 0⟩)).getD []
                ++ [mo.order]))) ∧
      (¬ 0 < mo.order.quantity →
        (if isBuy then
          OrderBook.bids ⟨[(100, [⟨"o1", "T", "buy", 100, 5, 0⟩])], [],
            [("o1", ⟨"o1", "T", "buy", 100, 5, 0⟩)], none, [], [], [], [],
            1000, [], 100, [], []⟩ = emptyBook.bids
         else
          OrderBook.asks ⟨[(100, [⟨"o1", "T", "buy", 100, 5, 0⟩])], [],
            [("o1", ⟨"o1", "T", "buy", 100, 5, 0⟩)], none, [], [], [], [],
            1000, [], 100, [], []⟩ = emptyBook.asks) ∧
        lookupKV (OrderBook.order_map
          ⟨[(100, [⟨"o1", "T", "buy", 100, 5, 0⟩])], [],
            [("o1", ⟨"o1", "T", "buy", 100, 5, 0⟩)], none, [], [], [], [],
            1000, [], 100, [], []⟩)
          (Order.order_id ⟨"o1", "T", "buy", 100, 5, 0⟩) = none)) :=
  ⟨by decide,
   C1_matching_loop 0 true emptyBook ⟨"o1", "T", "buy", 100, 5, 0⟩ []
     ⟨[(100, [⟨"o1", "T", "buy", 100, 5, 0⟩])], [],
      [("o1", ⟨"o1", "T", "buy", 100, 5, 0⟩)], none, [], [], [], [],
      1000, [], 100, [], []⟩ inv_emptyBook (by decide)⟩

end Sim
